import Mathlib

/-!
Verification development for a reversible document-mutation engine
(command-based undo/redo over a line-oriented text buffer and an
attributed tree with stable node identifiers, coordinated by a
multi-document workspace).

The definitions below are a shallow embedding of the program source:

* src/command/edit_commands.py  (AppendCommand, InsertCommand,
  DeleteCommand, ReplaceCommand): text commands, their validation,
  mutation and undo payloads;
* src/command/xml_commands.py   (InsertBeforeCommand, AppendChildCommand,
  EditIdCommand, EditTextCommand, DeleteElementCommand,
  SetAttributeCommand, RemoveAttributeCommand, AppendRootCommand);
* src/editor/editor.py          (Editor.execute_command / undo / redo,
  mark_modified, the undo and redo stacks);
* src/editor/text_editor.py     (TextEditor.content, TextEditor.show);
* src/editor/xml_editor.py      (XMLElement, XMLEditor.id_map,
  get_element, add/remove/insert child);
* src/workspace.py              (Workspace.save_file, _save_all_files,
  execute_on_active, get_active_editor).

Modelling conventions.

* Python strings are modelled as lists of characters, so that Python
  slice operations become List.take / List.drop.
* Line and column arguments are modelled as naturals; the Python checks
  "line < 1" and "col < 1" become the value 0 (the CLI parser produces
  the integer arguments; negative values are outside the behaviour the
  claims quantify over).
* Exceptions are modelled by an error type with one constructor per
  distinct raise site class; execute functions return the resulting
  state together with an Except value.  Each execute returns the state
  as mutated up to the point of the raise, so that the
  validate-before-mutate discipline is a theorem, not a modelling
  artefact.
* Python dict (insertion-ordered, unique keys) is modelled as an
  association list together with dict-faithful update operations; the
  id_map of a tree document is modelled by its key list, since its
  values are aliases of the tree nodes (the tree itself is the one
  ownership path, as the node values are recoverable from the tree by
  id lookup under the id-index invariant).
* File IO in save operations is modelled as always succeeding; the
  modelled effect of save_to_file is clearing the modified flag.
-/

/-- Characters of a Python string; Python slicing becomes take/drop. -/
abbrev Line := List Char

instance {ε α : Type} [DecidableEq ε] [DecidableEq α] : DecidableEq (Except ε α) := fun x y =>
  match x, y with
  | .ok a, .ok b => if h : a = b then .isTrue (by rw [h]) else .isFalse (by simp [h])
  | .ok _, .error _ => .isFalse (by simp)
  | .error _, .ok _ => .isFalse (by simp)
  | .error a, .error b => if h : a = b then .isTrue (by rw [h]) else .isFalse (by simp [h])

/-- One constructor per distinct exception raise-site class in the source
(src/utils/exceptions.py and the messages raised in the command files). -/
inductive EdError where
  | lineOutOfRange (line : Nat)
  | startAfterEnd
  | columnOutOfRange (col : Nat)
  | deleteLengthExceeds (remaining given : Nat)
  | emptyFileInsert
  | elementIdExists (i : String)
  | targetElementMissing (i : String)
  | cannotInsertBeforeRoot
  | parentElementMissing (i : String)
  | elementMissing (i : String)
  | targetIdExists (i : String)
  | cannotDeleteRoot
  | cannotDeleteWithoutParent
  | cannotSetIdAttr
  | cannotRemoveIdAttr
  | attributeMissing (name : String)
  | rootHasContent
  | rootAlreadyCustomized
deriving DecidableEq, Repr

/-- The errors the specification calls PositionError (LineOutOfRangeException
and ColumnOutOfRangeException in the source, including the inverted-range
raise in TextEditor.show). -/
def EdError.isPositionError : EdError → Prop
  | .lineOutOfRange _ => True
  | .startAfterEnd => True
  | .columnOutOfRange _ => True
  | _ => False

instance : DecidablePred EdError.isPositionError := by
  intro e
  cases e <;> simp [EdError.isPositionError] <;> infer_instance

/-- The error the specification calls LengthError
(DeleteLengthExceedsLineException in the source). -/
def EdError.isLengthError : EdError → Prop
  | .deleteLengthExceeds _ _ => True
  | _ => False

instance : DecidablePred EdError.isLengthError := by
  intro e
  cases e <;> simp [EdError.isLengthError] <;> infer_instance

/-! ## Text document model (src/editor/text_editor.py) -/

/-- The model fields of a TextEditor: the list of lines and the modified
flag (content and modified in the source). -/
structure TextModel where
  content : List Line
  modified : Bool
deriving DecidableEq, Repr

/-- Python str.split on a newline character: always returns at least one
fragment; a separator at the end yields a trailing empty fragment. -/
def splitNl : List Char → List (List Char)
  | [] => [[]]
  | c :: rest =>
    if c = '\n' then [] :: splitNl rest
    else
      match splitNl rest with
      | f :: fs => (c :: f) :: fs
      | [] => [[c]]

/-- Python list.insert i x: inserts before index i, appending when i is
past the end (take and drop clamp exactly as Python insert does for
non-negative indices). -/
def pyInsert (c : List Line) (i : Nat) (x : Line) : List Line :=
  c.take i ++ [x] ++ c.drop i

/-- The insertion loop of InsertCommand.execute: the j-th element of xs is
inserted at index li + 1 + j (for i, line in enumerate(middle + [last],
start=1): content.insert(line_idx + i, line)). -/
def insertSeq (c : List Line) (li : Nat) : List Line → List Line
  | [] => c
  | x :: xs => insertSeq (pyInsert c (li + 1) x) (li + 1) xs

/-- The pop loop of InsertCommand.undo: lines popped at index li + 1, k
times, each pop guarded by li + 1 being in range. -/
def popSeq (c : List Line) (li : Nat) : Nat → List Line
  | 0 => c
  | k + 1 => popSeq (if li + 1 < c.length then c.take (li + 1) ++ c.drop (li + 2) else c) li k

/-- The text command variants, each carrying its constructor arguments
followed by its undo-payload fields (the payload fields are overwritten
by execute, exactly as the Python command objects overwrite their
attributes). -/
inductive TextCmd where
  | append (text : Line) (lineNumber : Option Nat)
  | insert (line col : Nat) (text : Line) (oldLines : List Line) (affected : Nat)
  | delete (line col length : Nat) (deletedText : Line)
  | replace (line col length : Nat) (text oldText : Line)
deriving DecidableEq, Repr

/-- The position checks and mutation of InsertCommand.execute after the
empty-file branch has run (the model argument is the state after the
possible append of the initial empty line). -/
def insertGo (line col : Nat) (text : Line) (m : TextModel) :
    TextModel × Except EdError TextCmd :=
  if line < 1 ∨ line > m.content.length then (m, .error (.lineOutOfRange line))
  else
    let li := line - 1
    let cur := m.content.getD li []
    if col < 1 ∨ col > cur.length + 1 then (m, .error (.columnOutOfRange col))
    else
      let ci := col - 1
      if '\n' ∈ text then
        let frags := splitNl text
        let newFirst := cur.take ci ++ frags.headD []
        let middles := (frags.drop 1).dropLast
        let newLast := (frags.getLastD []) ++ cur.drop ci
        let content2 := insertSeq (m.content.set li newFirst) li (middles ++ [newLast])
        (⟨content2, true⟩, .ok (.insert line col text [cur] frags.length))
      else
        (⟨m.content.set li (cur.take ci ++ text ++ cur.drop ci), true⟩,
          .ok (.insert line col text [cur] 1))

/-- Execute of a text command (the execute methods in
src/command/edit_commands.py composed with mark_modified).  Returns the
state as mutated up to the raise point together with either the error or
the command with its captured undo payload. -/
def execText : TextCmd → TextModel → TextModel × Except EdError TextCmd
  | .append text _, m =>
    (⟨m.content ++ [text], true⟩, .ok (.append text (some (m.content.length + 1))))
  | .insert line col text _ _, m =>
    if m.content = [] then
      if line ≠ 1 ∨ col ≠ 1 then (m, .error .emptyFileInsert)
      else insertGo line col text ⟨[[]], m.modified⟩
    else insertGo line col text m
  | .delete line col length _, m =>
    if line < 1 ∨ line > m.content.length then (m, .error (.lineOutOfRange line))
    else
      let li := line - 1
      let cur := m.content.getD li []
      if col < 1 ∨ col > cur.length then (m, .error (.columnOutOfRange col))
      else
        let ci := col - 1
        let remaining := cur.length - ci
        if remaining < length then (m, .error (.deleteLengthExceeds remaining length))
        else
          (⟨m.content.set li (cur.take ci ++ cur.drop (ci + length)), true⟩,
            .ok (.delete line col length ((cur.drop ci).take length)))
  | .replace line col length text _, m =>
    if line < 1 ∨ line > m.content.length then (m, .error (.lineOutOfRange line))
    else
      let li := line - 1
      let cur := m.content.getD li []
      if col < 1 ∨ col > cur.length then (m, .error (.columnOutOfRange col))
      else
        let ci := col - 1
        let remaining := cur.length - ci
        if remaining < length then (m, .error (.deleteLengthExceeds remaining length))
        else
          (⟨m.content.set li (cur.take ci ++ text ++ cur.drop (ci + length)), true⟩,
            .ok (.replace line col length text ((cur.drop ci).take length)))

/-- Undo of a text command (the undo methods in
src/command/edit_commands.py).  The guard shapes follow the source: an
append undo checks its recorded line number, an insert undo returns
early on an empty captured old_lines, a delete undo returns early on an
empty captured deleted_text, a replace undo only checks that the line
index is in range (its old_text is initialised to the empty string, so
the Python is-None guard never fires). -/
def undoText : TextCmd → TextModel → TextModel
  | .append _ lineNumber, m =>
    match lineNumber with
    | some k => if k ≠ 0 ∧ k ≤ m.content.length then ⟨m.content.dropLast, true⟩ else m
    | none => m
  | .insert line _ text oldLines _, m =>
    if oldLines = [] then m
    else
      let li := line - 1
      let c1 := if '\n' ∈ text then popSeq m.content li ((splitNl text).length - 1) else m.content
      let c2 := if li < c1.length then c1.set li (oldLines.headD []) else c1
      ⟨c2, true⟩
  | .delete line col _ deletedText, m =>
    if deletedText = [] then m
    else
      let li := line - 1
      let ci := col - 1
      if li < m.content.length then
        let cur := m.content.getD li []
        ⟨m.content.set li (cur.take ci ++ deletedText ++ cur.drop ci), true⟩
      else m
  | .replace line col _ text oldText, m =>
    let li := line - 1
    let ci := col - 1
    if li < m.content.length then
      let cur := m.content.getD li []
      ⟨m.content.set li (cur.take ci ++ oldText ++ cur.drop (ci + text.length)), true⟩
    else m

/-! ## Editor level for text documents (src/editor/editor.py) -/

/-- A TextEditor together with the undo and redo stacks of its base
Editor (the top of each stack is the last list element, matching the
Python list append/pop discipline). -/
structure TextEd where
  model : TextModel
  undoStack : List TextCmd
  redoStack : List TextCmd
deriving DecidableEq, Repr

/-- Editor.execute_command for a text command: run execute; on success
push the executed command and clear the redo stack; on failure propagate
the error, leaving both stacks as they were (the state returned on
failure is whatever execute left behind). -/
def TextEd.execCmd (e : TextEd) (c : TextCmd) : TextEd × Except EdError Unit :=
  match execText c e.model with
  | (m2, .ok c2) => (⟨m2, e.undoStack ++ [c2], []⟩, .ok ())
  | (m2, .error err) => (⟨m2, e.undoStack, e.redoStack⟩, .error err)

/-- Editor.undo for a text editor: pop the most recent command, run its
undo, push it onto the redo stack; a no-op when the undo stack is empty.
The returned option is the undone command (whose description the source
returns). -/
def TextEd.undoStep (e : TextEd) : TextEd × Option TextCmd :=
  match e.undoStack.getLast? with
  | none => (e, none)
  | some c =>
    (⟨undoText c e.model, e.undoStack.dropLast, e.redoStack ++ [c]⟩, some c)

/-- Editor.redo for a text editor: pop from the redo stack and re-run
execute (EditCommand.redo is execute); on success the refreshed command
is pushed back onto the undo stack; a no-op when the redo stack is
empty. -/
def TextEd.redoStep (e : TextEd) : TextEd × Option TextCmd :=
  match e.redoStack.getLast? with
  | none => (e, none)
  | some c =>
    match execText c e.model with
    | (m2, .ok c2) => (⟨m2, e.undoStack ++ [c2], e.redoStack.dropLast⟩, some c2)
    | (m2, .error _) => (⟨m2, e.undoStack, e.redoStack.dropLast⟩, some c)

/-- TextEditor.show: an empty content returns the empty string before any
validation; otherwise absent bounds default to the full range, bounds
are validated against the current length, an inverted range is rejected,
and the selected lines are rendered with 1-based line numbers joined by
newlines. -/
def showText (content : List Line) (startLine? endLine? : Option Nat) :
    Except EdError String :=
  if content = [] then .ok ""
  else
    let s := startLine?.getD 1
    let e := endLine?.getD content.length
    if s < 1 ∨ s > content.length then .error (.lineOutOfRange s)
    else if e < 1 ∨ e > content.length then .error (.lineOutOfRange e)
    else if e < s then .error .startAfterEnd
    else
      .ok (String.intercalate "\n"
        ((List.range' s (e + 1 - s)).map
          (fun i => toString i ++ ": " ++ String.mk (content.getD (i - 1) []))))

/-! ## Auxiliary list lemmas for the text command proofs -/

theorem splitNl_ne_nil (t : List Char) : splitNl t ≠ [] := by
  induction t with
  | nil => simp [splitNl]
  | cons c rest ih =>
    simp only [splitNl]
    split
    · simp
    · cases h : splitNl rest with
      | nil => exact absurd h ih
      | cons f fs => simp

theorem splitNl_two_le {t : List Char} (h : '\n' ∈ t) : 2 ≤ (splitNl t).length := by
  induction t with
  | nil => cases h
  | cons c rest ih =>
    simp only [splitNl]
    by_cases hc : c = '\n'
    · simp only [hc, if_true]
      have := splitNl_ne_nil rest
      have : 1 ≤ (splitNl rest).length := by
        cases hs : splitNl rest with
        | nil => exact absurd hs this
        | cons f fs => simp
      simpa using this
    · have hmem : '\n' ∈ rest := by
        cases h with
        | head => exact absurd rfl hc
        | tail _ hr => exact hr
      simp only [if_neg hc]
      cases hs : splitNl rest with
      | nil => exact absurd hs (splitNl_ne_nil rest)
      | cons f fs =>
        have := ih hmem
        rw [hs] at this
        simpa using this

theorem insertSeq_split (xs : List Line) :
    ∀ (pre post : List Line) (li : Nat), pre.length = li + 1 →
      insertSeq (pre ++ post) li xs = pre ++ xs ++ post := by
  induction xs with
  | nil => intro pre post li _; simp [insertSeq]
  | cons x xs ih =>
    intro pre post li hlen
    simp only [insertSeq, pyInsert]
    have ht : (pre ++ post).take (li + 1) = pre := by
      rw [← hlen, List.take_left]
    have hd : (pre ++ post).drop (li + 1) = post := by
      rw [← hlen, List.drop_left]
    rw [ht, hd]
    have : pre ++ [x] ++ post = (pre ++ [x]) ++ post := by simp
    rw [this, ih (pre ++ [x]) post (li + 1) (by simp [hlen])]
    simp

theorem popSeq_split (xs : List Line) :
    ∀ (pre post : List Line) (li : Nat), pre.length = li + 1 →
      popSeq (pre ++ xs ++ post) li xs.length = pre ++ post := by
  induction xs with
  | nil => intro pre post li _; simp [popSeq]
  | cons x xs ih =>
    intro pre post li hlen
    simp only [List.length_cons, popSeq]
    have hguard : li + 1 < (pre ++ (x :: xs) ++ post).length := by
      simp [hlen]
    rw [if_pos hguard]
    have hassoc : pre ++ (x :: xs) ++ post = pre ++ (x :: (xs ++ post)) := by simp
    have ht : (pre ++ (x :: xs) ++ post).take (li + 1) = pre := by
      rw [hassoc, ← hlen, List.take_left]
    have hd : (pre ++ (x :: xs) ++ post).drop (li + 2) = xs ++ post := by
      rw [hassoc]
      have : li + 2 = pre.length + 1 := by omega
      rw [this, List.drop_append_eq_append_drop]
      simp
    rw [ht, hd]
    have := ih pre post li hlen
    simpa using this

theorem set_middle {pre post : List Line} {cur v : Line} :
    (pre ++ [cur] ++ post).set pre.length v = pre ++ [v] ++ post := by
  induction pre with
  | nil => simp
  | cons p ps ih => simpa using ih

theorem getD_middle {pre post : List Line} {cur : Line} :
    (pre ++ [cur] ++ post).getD pre.length [] = cur := by
  induction pre with
  | nil => simp [List.getD]
  | cons p ps ih => simp [List.getD] at ih ⊢; exact ih

theorem content_decomp {l : List Line} {li : Nat} (h : li < l.length) :
    l = l.take li ++ [l.getD li []] ++ l.drop (li + 1) ∧ (l.take li).length = li := by
  refine ⟨?_, by simp [List.length_take]; omega⟩
  have h1 : l.getD li [] = l[li] := List.getD_eq_getElem l [] h
  have h2 : l.take (li + 1) = l.take li ++ [l[li]] := by
    rw [List.take_succ]
    simp [List.getElem?_eq_getElem h]
  calc l = l.take (li + 1) ++ l.drop (li + 1) := (List.take_append_drop _ l).symm
    _ = l.take li ++ [l.getD li []] ++ l.drop (li + 1) := by rw [h2, h1]

theorem insertGo_error_eq {line col : Nat} {t : Line} {m m2 : TextModel} {err : EdError}
    (h : insertGo line col t m = (m2, .error err)) : m2 = m := by
  simp only [insertGo] at h
  split at h
  · exact (Prod.mk.injEq .. ▸ h).1.symm
  · split at h
    · exact (Prod.mk.injEq .. ▸ h).1.symm
    · split at h <;> simp at h

/-- A failed execute leaves the text model exactly as it was: every raise
in the text commands happens before any mutation (the one mutation that
precedes later checks, the append of the initial empty line in the
empty-file insert branch, is followed only by checks that cannot fail
at position 1:1). -/
theorem execText_error_eq {c : TextCmd} {m m2 : TextModel} {err : EdError}
    (h : execText c m = (m2, .error err)) : m2 = m := by
  cases c with
  | append t p => simp [execText] at h
  | insert line col t po pa =>
    simp only [execText] at h
    split at h
    · rename_i hempty
      split at h
      · exact (Prod.mk.injEq .. ▸ h).1.symm
      · rename_i hlc
        push_neg at hlc
        obtain ⟨h1, h2⟩ := hlc
        subst h1; subst h2
        rw [show (insertGo 1 1 t ⟨[[]], m.modified⟩)
            = insertGo 1 1 t ⟨[[]], m.modified⟩ from rfl] at h
        simp only [insertGo] at h
        split at h
        · simp at *
        · split at h
          · simp at *
          · split at h <;> simp at h
    · exact insertGo_error_eq h
  | delete line col len d =>
    simp only [execText] at h
    split at h
    · exact (Prod.mk.injEq .. ▸ h).1.symm
    · split at h
      · exact (Prod.mk.injEq .. ▸ h).1.symm
      · split at h
        · exact (Prod.mk.injEq .. ▸ h).1.symm
        · simp at h
  | replace line col len t o =>
    simp only [execText] at h
    split at h
    · exact (Prod.mk.injEq .. ▸ h).1.symm
    · split at h
      · exact (Prod.mk.injEq .. ▸ h).1.symm
      · split at h
        · exact (Prod.mk.injEq .. ▸ h).1.symm
        · simp at h

/-- The constructor arguments of a command, with the undo-payload fields
reset to their constructor defaults (execute only reads the arguments
and overwrites the payload, as the Python execute methods do). -/
def TextCmd.reset : TextCmd → TextCmd
  | .append t _ => .append t none
  | .insert line col t _ _ => .insert line col t [] 0
  | .delete line col len _ => .delete line col len []
  | .replace line col len t _ => .replace line col len t []

theorem insertGo_reads_args (line col : Nat) (t : Line) (l : List Line) (b b2 : Bool)
    {m2 : TextModel} {c2 : TextCmd}
    (h : insertGo line col t ⟨l, b⟩ = (m2, .ok c2)) :
    insertGo line col t ⟨l, b2⟩ = (m2, .ok c2) := by
  simp only [insertGo] at h ⊢
  split at h
  · simp at h
  · split at h
    · simp at h
    · rename_i h1 h2
      rw [if_neg h1, if_neg h2]
      split at h <;> rename_i h3
      · rw [if_pos h3]; exact h
      · rw [if_neg h3]; exact h

theorem execText_reset (c : TextCmd) (m : TextModel) :
    execText c m = execText c.reset m := by
  cases c <;> rfl

/-- The success branch of execute depends only on the content, and its
resulting modified flag is always true; hence a successful execute from
a state with any modified flag gives the identical result. -/
theorem execText_reads_content {c : TextCmd} {l : List Line} {b b2 : Bool}
    {m2 : TextModel} {c2 : TextCmd}
    (h : execText c ⟨l, b⟩ = (m2, .ok c2)) :
    execText c ⟨l, b2⟩ = (m2, .ok c2) := by
  cases c with
  | append t p => simp only [execText] at h ⊢; exact h
  | insert line col t po pa =>
    simp only [execText] at h ⊢
    split at h
    · rename_i hemp
      rw [if_pos hemp]
      split at h
      · simp at h
      · rename_i hlc
        rw [if_neg hlc]
        exact insertGo_reads_args _ _ _ _ _ _ h
    · rename_i hemp
      rw [if_neg hemp]
      exact insertGo_reads_args _ _ _ _ _ _ h
  | delete line col len d =>
    simp only [execText] at h ⊢
    split at h
    · simp at h
    · rename_i h1
      rw [if_neg h1]
      split at h
      · simp at h
      · rename_i h2
        rw [if_neg h2]
        split at h
        · simp at h
        · rename_i h3
          rw [if_neg h3]
          exact h
  | replace line col len t o =>
    simp only [execText] at h ⊢
    split at h
    · simp at h
    · rename_i h1
      rw [if_neg h1]
      split at h
      · simp at h
      · rename_i h2
        rw [if_neg h2]
        split at h
        · simp at h
        · rename_i h3
          rw [if_neg h3]
          exact h

theorem execText_ok_reset_eq {c c2 : TextCmd} {m m2 : TextModel}
    (h : execText c m = (m2, .ok c2)) : c2.reset = c.reset := by
  cases c with
  | append t p =>
    simp only [execText, Prod.mk.injEq, Except.ok.injEq] at h
    rw [← h.2]; rfl
  | insert line col t po pa =>
    have go : ∀ (mm : TextModel), insertGo line col t mm = (m2, .ok c2) →
        c2.reset = TextCmd.reset (.insert line col t po pa) := by
      intro mm hgo
      simp only [insertGo] at hgo
      split at hgo
      · simp at hgo
      · split at hgo
        · simp at hgo
        · split at hgo <;>
          · simp only [Prod.mk.injEq, Except.ok.injEq] at hgo
            rw [← hgo.2]; rfl
    simp only [execText] at h
    split at h
    · split at h
      · simp at h
      · exact go _ h
    · exact go _ h
  | delete line col len d =>
    simp only [execText] at h
    split at h
    · simp at h
    · split at h
      · simp at h
      · split at h
        · simp at h
        · simp only [Prod.mk.injEq, Except.ok.injEq] at h
          rw [← h.2]; rfl
  | replace line col len t o =>
    simp only [execText] at h
    split at h
    · simp at h
    · split at h
      · simp at h
      · split at h
        · simp at h
        · simp only [Prod.mk.injEq, Except.ok.injEq] at h
          rw [← h.2]; rfl

theorem append_roundtrip {t : Line} {p : Option Nat} {m m2 : TextModel} {c2 : TextCmd}
    (h : execText (.append t p) m = (m2, .ok c2)) :
    undoText c2 m2 = ⟨m.content, true⟩ := by
  simp only [execText, Prod.mk.injEq, Except.ok.injEq] at h
  obtain ⟨h1, h2⟩ := h
  subst h1; subst h2
  simp only [undoText]
  rw [if_pos (by simp)]
  simp

theorem insertGo_roundtrip {line col : Nat} {t : Line} {m m2 : TextModel} {c2 : TextCmd}
    (h : insertGo line col t m = (m2, .ok c2)) :
    undoText c2 m2 = ⟨m.content, true⟩ := by
  simp only [insertGo] at h
  split at h
  · simp at h
  rename_i hline
  split at h
  · simp at h
  rename_i hcol
  push_neg at hline hcol
  have hli : line - 1 < m.content.length := by omega
  obtain ⟨hdec, hpre⟩ := content_decomp hli
  set li := line - 1 with hlidef
  set cur := m.content.getD li [] with hcurdef
  set pre := m.content.take li with hpredef
  set post := m.content.drop (li + 1) with hpostdef
  split at h
  · -- multi-line insertion
    rename_i hnl
    simp only [Prod.mk.injEq, Except.ok.injEq] at h
    obtain ⟨h1, h2⟩ := h
    subst h1; subst h2
    have hk2 : 2 ≤ (splitNl t).length := splitNl_two_le hnl
    simp only [undoText]
    rw [if_neg (by simp), if_pos hnl]
    set newFirst := cur.take (col - 1) ++ (splitNl t).headD [] with hnf
    set xs := (List.drop 1 (splitNl t)).dropLast ++
      [(splitNl t).getLastD [] ++ List.drop (col - 1) cur] with hxs
    have hset : m.content.set li newFirst = (pre ++ [newFirst]) ++ post := by
      rw [hdec]
      calc (pre ++ [cur] ++ post).set li newFirst
          = (pre ++ [cur] ++ post).set pre.length newFirst := by rw [hpre]
        _ = pre ++ [newFirst] ++ post := set_middle
        _ = (pre ++ [newFirst]) ++ post := by simp
    have hseq : insertSeq (m.content.set li newFirst) li xs
        = (pre ++ [newFirst]) ++ xs ++ post := by
      rw [hset]
      exact insertSeq_split xs (pre ++ [newFirst]) post li (by simp [hpre])
    have hxslen : xs.length = (splitNl t).length - 1 := by
      simp [hxs]
      omega
    have hpop : popSeq ((pre ++ [newFirst]) ++ xs ++ post) li ((splitNl t).length - 1)
        = (pre ++ [newFirst]) ++ post := by
      rw [← hxslen]
      exact popSeq_split xs (pre ++ [newFirst]) post li (by simp [hpre])
    rw [hseq, hpop]
    have hlen2 : li < ((pre ++ [newFirst]) ++ post).length := by
      simp [hpre]
    rw [if_pos hlen2]
    have : ((pre ++ [newFirst]) ++ post).set li ([cur].headD []) = m.content := by
      have : ((pre ++ [newFirst]) ++ post).set li ([cur].headD [])
          = (pre ++ [newFirst] ++ post).set pre.length cur := by
        rw [hpre]; simp
      rw [this, set_middle, ← hdec]
    rw [this]
  · -- single-line insertion
    rename_i hnl
    simp only [Prod.mk.injEq, Except.ok.injEq] at h
    obtain ⟨h1, h2⟩ := h
    subst h1; subst h2
    simp only [undoText]
    rw [if_neg (by simp), if_neg hnl]
    set newLine := cur.take (col - 1) ++ t ++ cur.drop (col - 1) with hnl2
    have hlen2 : li < (m.content.set li newLine).length := by
      simp [hli]
    rw [if_pos hlen2]
    have hset : m.content.set li newLine = pre ++ [newLine] ++ post := by
      rw [hdec]
      calc (pre ++ [cur] ++ post).set li newLine
          = (pre ++ [cur] ++ post).set pre.length newLine := by rw [hpre]
        _ = pre ++ [newLine] ++ post := set_middle
    rw [hset]
    have : (pre ++ [newLine] ++ post).set li ([cur].headD []) = m.content := by
      calc (pre ++ [newLine] ++ post).set li ([cur].headD [])
          = (pre ++ [newLine] ++ post).set pre.length cur := by rw [hpre]; simp
        _ = pre ++ [cur] ++ post := set_middle
        _ = m.content := hdec.symm
    rw [this]

theorem insert_roundtrip_nonempty {line col : Nat} {t : Line} {po : List Line} {pa : Nat}
    {m m2 : TextModel} {c2 : TextCmd}
    (hne : m.content ≠ [])
    (h : execText (.insert line col t po pa) m = (m2, .ok c2)) :
    undoText c2 m2 = ⟨m.content, true⟩ := by
  simp only [execText, if_neg hne] at h
  exact insertGo_roundtrip h

theorem insert_roundtrip_empty {line col : Nat} {t : Line} {po : List Line} {pa : Nat}
    {m m2 : TextModel} {c2 : TextCmd}
    (hemp : m.content = [])
    (h : execText (.insert line col t po pa) m = (m2, .ok c2)) :
    undoText c2 m2 = ⟨[[]], true⟩ := by
  simp only [execText, if_pos hemp] at h
  split at h
  · simp at h
  · exact insertGo_roundtrip h

theorem line_splice {cur : Line} {ci dlen : Nat} :
    cur.take ci ++ (List.take dlen (cur.drop ci) ++ cur.drop (ci + dlen)) = cur := by
  have h1 : cur.drop (ci + dlen) = (cur.drop ci).drop dlen := by
    rw [List.drop_drop]
  rw [h1, List.take_append_drop, List.take_append_drop]

theorem set_restore {m : TextModel} {li : Nat} (hli : li < m.content.length) :
    m.content.set li (m.content.getD li []) = m.content := by
  obtain ⟨hdec, hpre⟩ := content_decomp hli
  calc m.content.set li (m.content.getD li [])
      = (m.content.take li ++ [m.content.getD li []] ++ m.content.drop (li + 1)).set
          (m.content.take li).length (m.content.getD li []) := by
        rw [hpre]
        exact congrArg (fun l => l.set li (m.content.getD li [])) hdec
    _ = m.content.take li ++ [m.content.getD li []] ++ m.content.drop (li + 1) := set_middle
    _ = m.content := hdec.symm

theorem delete_roundtrip {line col dlen : Nat} {d : Line} {m m2 : TextModel} {c2 : TextCmd}
    (h : execText (.delete line col dlen d) m = (m2, .ok c2)) :
    undoText c2 m2 = ⟨m.content, true⟩ := by
  simp only [execText] at h
  split at h
  · simp at h
  rename_i h1
  split at h
  · simp at h
  rename_i h2
  split at h
  · simp at h
  rename_i h3
  push_neg at h1 h2 h3
  simp only [Prod.mk.injEq, Except.ok.injEq] at h
  obtain ⟨hm, hc⟩ := h
  subst hm; subst hc
  have hli : line - 1 < m.content.length := by omega
  obtain ⟨hdec, hpre⟩ := content_decomp hli
  set li := line - 1 with hlidef
  set cur := m.content.getD li [] with hcurdef
  set pre := m.content.take li with hpredef
  set post := m.content.drop (li + 1) with hpostdef
  set ci := col - 1 with hcidef
  have hci : ci < cur.length := by omega
  set newLine := cur.take ci ++ cur.drop (ci + dlen) with hnldef
  set deleted := List.take dlen (cur.drop ci) with hddef
  by_cases hz : deleted = []
  · simp only [undoText, if_pos hz]
    have hdl : dlen = 0 := by
      have hcl := congrArg List.length hz
      simp only [hddef, List.length_take, List.length_drop, List.length_nil] at hcl
      omega
    have hnc : newLine = cur := by
      rw [hnldef, hdl]
      simp [List.take_append_drop]
    rw [hnc, hcurdef, set_restore hli]
  · simp only [undoText, if_neg hz]
    have hlen2 : li < (m.content.set li newLine).length := by simp [hli]
    rw [if_pos hlen2]
    have hsetdec : m.content.set li newLine = pre ++ [newLine] ++ post := by
      rw [hdec]
      calc (pre ++ [cur] ++ post).set li newLine
          = (pre ++ [cur] ++ post).set pre.length newLine := by rw [hpre]
        _ = pre ++ [newLine] ++ post := set_middle
    have hgd : (m.content.set li newLine).getD li [] = newLine := by
      rw [hsetdec]
      calc (pre ++ [newLine] ++ post).getD li []
          = (pre ++ [newLine] ++ post).getD pre.length [] := by rw [hpre]
        _ = newLine := getD_middle
    rw [hgd]
    have hA : (cur.take ci).length = ci := by
      simp [List.length_take]
      omega
    have htake : newLine.take ci = cur.take ci := by
      rw [hnldef]
      exact List.take_left' hA
    have hdrop : newLine.drop ci = cur.drop (ci + dlen) := by
      rw [hnldef]
      exact List.drop_left' hA
    rw [htake, hdrop]
    rw [show cur.take ci ++ deleted ++ cur.drop (ci + dlen)
        = cur.take ci ++ (deleted ++ cur.drop (ci + dlen)) by simp]
    rw [hddef, line_splice, List.set_set, hcurdef, set_restore hli]

theorem replace_roundtrip {line col dlen : Nat} {t o : Line} {m m2 : TextModel} {c2 : TextCmd}
    (h : execText (.replace line col dlen t o) m = (m2, .ok c2)) :
    undoText c2 m2 = ⟨m.content, true⟩ := by
  simp only [execText] at h
  split at h
  · simp at h
  rename_i h1
  split at h
  · simp at h
  rename_i h2
  split at h
  · simp at h
  rename_i h3
  push_neg at h1 h2 h3
  simp only [Prod.mk.injEq, Except.ok.injEq] at h
  obtain ⟨hm, hc⟩ := h
  subst hm; subst hc
  have hli : line - 1 < m.content.length := by omega
  obtain ⟨hdec, hpre⟩ := content_decomp hli
  set li := line - 1 with hlidef
  set cur := m.content.getD li [] with hcurdef
  set pre := m.content.take li with hpredef
  set post := m.content.drop (li + 1) with hpostdef
  set ci := col - 1 with hcidef
  have hci : ci < cur.length := by omega
  set newLine := cur.take ci ++ t ++ cur.drop (ci + dlen) with hnldef
  set old := List.take dlen (cur.drop ci) with hodef
  simp only [undoText]
  have hlen2 : li < (m.content.set li newLine).length := by simp [hli]
  rw [if_pos hlen2]
  have hsetdec : m.content.set li newLine = pre ++ [newLine] ++ post := by
    rw [hdec]
    calc (pre ++ [cur] ++ post).set li newLine
        = (pre ++ [cur] ++ post).set pre.length newLine := by rw [hpre]
      _ = pre ++ [newLine] ++ post := set_middle
  have hgd : (m.content.set li newLine).getD li [] = newLine := by
    rw [hsetdec]
    calc (pre ++ [newLine] ++ post).getD li []
        = (pre ++ [newLine] ++ post).getD pre.length [] := by rw [hpre]
      _ = newLine := getD_middle
  rw [hgd]
  have hA : (cur.take ci).length = ci := by
    simp [List.length_take]
    omega
  have htake : newLine.take ci = cur.take ci := by
    rw [hnldef, List.append_assoc]
    exact List.take_left' hA
  have hAB : (cur.take ci ++ t).length = ci + t.length := by simp [hA]
  have hdrop : newLine.drop (ci + t.length) = cur.drop (ci + dlen) := by
    rw [hnldef]
    exact List.drop_left' hAB
  rw [htake, hdrop]
  rw [show cur.take ci ++ old ++ cur.drop (ci + dlen)
      = cur.take ci ++ (old ++ cur.drop (ci + dlen)) by simp]
  rw [hodef, line_splice, List.set_set, hcurdef, set_restore hli]

theorem text_redo_via {c c2 : TextCmd} {l : List Line} {b : Bool} {m2 : TextModel}
    (hreset : c2.reset = c.reset)
    (h : execText c ⟨l, b⟩ = (m2, .ok c2)) :
    execText c2 ⟨l, true⟩ = (m2, .ok c2) := by
  rw [execText_reset, hreset, ← execText_reset]
  exact execText_reads_content h

/-- Successful execute followed by undo restores the captured content:
exactly the pre-execute lines, except that an insert into an empty
document restores the single empty line that its execute appended before
capturing. -/
theorem text_exec_undo {c c2 : TextCmd} {m m2 : TextModel}
    (h : execText c m = (m2, .ok c2)) :
    undoText c2 m2 = ⟨m.content, true⟩ ∨
      (m.content = [] ∧ (∃ line col t po pa, c = .insert line col t po pa) ∧
        undoText c2 m2 = ⟨[[]], true⟩) := by
  cases c with
  | append t p => exact Or.inl (append_roundtrip h)
  | insert line col t po pa =>
    by_cases hemp : m.content = []
    · exact Or.inr ⟨hemp, ⟨line, col, t, po, pa, rfl⟩, insert_roundtrip_empty hemp h⟩
    · exact Or.inl (insert_roundtrip_nonempty hemp h)
  | delete line col dlen d => exact Or.inl (delete_roundtrip h)
  | replace line col dlen t o => exact Or.inl (replace_roundtrip h)

/-- Undo followed by redo restores the exact post-execute state: redo
re-runs execute on the restored content and recaptures the identical
payload, producing the identical model. -/
theorem text_undo_redo {c c2 : TextCmd} {m m2 : TextModel}
    (h : execText c m = (m2, .ok c2)) :
    execText c2 (undoText c2 m2) = (m2, .ok c2) := by
  have hreset := execText_ok_reset_eq h
  rcases text_exec_undo h with hrt | ⟨hemp, ⟨line, col, t, po, pa, hcins⟩, hrt⟩
  · rw [hrt]
    exact text_redo_via hreset h
  · rw [hrt]
    subst hcins
    simp only [execText, if_pos hemp] at h
    split at h
    · simp at h
    · rename_i hlc
      push_neg at hlc
      obtain ⟨h1, h2⟩ := hlc
      subst h1; subst h2
      have hgo := insertGo_reads_args 1 1 t [[]] m.modified true h
      rw [execText_reset, hreset]
      simp only [TextCmd.reset, execText]
      rw [if_neg (by simp : ¬([[]] : List Line) = [])]
      exact hgo

/-! ## Tree document model (src/editor/xml_editor.py, XMLElement) -/

mutual
/-- An XMLElement: tag, id, insertion-ordered attribute map, text, and
owned children (the parent back-reference of the source is represented
implicitly: the tree is the single ownership path and a parent is
recovered by search, which agrees with the back-reference on trees
whose reachable ids are unique). -/
inductive XElem where
  | mk (tag : String) (eid : String) (attrs : List (String × String)) (text : String)
      (children : XKids)
deriving DecidableEq, Repr
/-- The ordered child list of an XMLElement (an isomorphic copy of
List XElem, kept as a mutual inductive so that functions over the tree
are structurally recursive). -/
inductive XKids where
  | nil
  | cons (c : XElem) (cs : XKids)
deriving DecidableEq, Repr
end

def XElem.tag : XElem → String
  | .mk t _ _ _ _ => t

def XElem.eid : XElem → String
  | .mk _ i _ _ _ => i

def XElem.attrs : XElem → List (String × String)
  | .mk _ _ a _ _ => a

def XElem.text : XElem → String
  | .mk _ _ _ tx _ => tx

def XElem.children : XElem → XKids
  | .mk _ _ _ _ cs => cs

def XElem.withKids : XElem → XKids → XElem
  | .mk t i a tx _, cs => .mk t i a tx cs

def XElem.withText : XElem → String → XElem
  | .mk t i a _ cs, tx => .mk t i a tx cs

def XElem.withAttrs : XElem → List (String × String) → XElem
  | .mk t i _ tx cs, a => .mk t i a tx cs

def XKids.length : XKids → Nat
  | .nil => 0
  | .cons _ cs => cs.length + 1

def XKids.toList : XKids → List XElem
  | .nil => []
  | .cons c cs => c :: cs.toList

mutual
/-- The preorder identifier list of a subtree. -/
def XElem.ids : XElem → List String
  | .mk _ i _ _ cs => i :: cs.ids
def XKids.ids : XKids → List String
  | .nil => []
  | .cons c cs => c.ids ++ cs.ids
end

/-! Python dict operations on the insertion-ordered attribute map. -/

/-- The key list of an attribute map. -/
def attrKeys (a : List (String × String)) : List String := a.map Prod.fst

/-- Python dict assignment: an existing key keeps its position and gets
the new value; a fresh key is appended. -/
def setA (a : List (String × String)) (k v : String) : List (String × String) :=
  if k ∈ attrKeys a then a.map (fun p => if p.1 = k then (k, v) else p)
  else a ++ [(k, v)]

/-- Python dict deletion (the attribute maps have unique keys). -/
def delA (a : List (String × String)) (k : String) : List (String × String) :=
  a.filter (fun p => decide (p.1 ≠ k))

/-- Python dict.get on the attribute map. -/
def lookupA : List (String × String) → String → Option String
  | [], _ => none
  | (k2, v) :: rest, k => if k2 = k then some v else lookupA rest k

/-- Python dict assignment on the id-map key list (fresh keys are
appended, existing keys keep their position). -/
def dictAdd (ks : List String) (i : String) : List String :=
  if i ∈ ks then ks else ks ++ [i]

/-- Python str.strip: drop whitespace from both ends (character-level,
so that it evaluates inside the kernel). -/
def pyStrip (s : String) : String :=
  String.mk (((s.data.dropWhile Char.isWhitespace).reverse.dropWhile Char.isWhitespace).reverse)

/-- The XMLElement constructor followed by the attribute-copying loop of
the commands (attributes start at the id entry; the loop skips the
reserved id key; the text is stripped by the constructor). -/
def newElem (tag eid text : String) (attrs : List (String × String)) : XElem :=
  .mk tag eid
    (attrs.foldl (fun acc p => if p.1 = "id" then acc else setA acc p.1 p.2) [("id", eid)])
    (pyStrip text) .nil

mutual
/-- Lookup of the node carrying an id (the value aliased by the id_map
entry in the source; the search descends into the first subtree whose
identifier set contains the target). -/
def XElem.findById (e : XElem) (tg : String) : Option XElem :=
  match e with
  | .mk t i a tx cs => if i = tg then some (.mk t i a tx cs) else cs.findById tg
def XKids.findById (l : XKids) (tg : String) : Option XElem :=
  match l with
  | .nil => none
  | .cons c cs => if tg ∈ c.ids then c.findById tg else cs.findById tg
end

/-- Whether some direct child carries the id. -/
def XKids.hasTop : XKids → String → Bool
  | .nil, _ => false
  | .cons c cs, tg => c.eid = tg || cs.hasTop tg

mutual
/-- The parent back-reference of the node carrying an id: the unique node
one of whose direct children carries it (none for the root or a missing
id). -/
def XElem.findParent (e : XElem) (tg : String) : Option XElem :=
  match e with
  | .mk t i a tx cs => if cs.hasTop tg then some (.mk t i a tx cs) else cs.findParent tg
def XKids.findParent (l : XKids) (tg : String) : Option XElem :=
  match l with
  | .nil => none
  | .cons c cs => if tg ∈ c.ids then c.findParent tg else cs.findParent tg
end

mutual
/-- Rewrite the node carrying the target id by f (the pure counterpart of
mutating the node object aliased by the id_map; the descent follows the
first subtree containing the target, the unique one on well-formed
trees). -/
def XElem.updateById (e : XElem) (tg : String) (f : XElem → XElem) : XElem :=
  match e with
  | .mk t i a tx cs => if i = tg then f (.mk t i a tx cs) else .mk t i a tx (cs.updateById tg f)
def XKids.updateById (l : XKids) (tg : String) (f : XElem → XElem) : XKids :=
  match l with
  | .nil => .nil
  | .cons c cs =>
    if tg ∈ c.ids then .cons (c.updateById tg f) cs else .cons c (cs.updateById tg f)
end

/-- XMLElement.insert_child at children.index(target): insert before the
first child carrying the target id (the index raise on a missing target
is unreachable, since the caller located the parent through the target). -/
def XKids.insertBeforeId : XKids → String → XElem → XKids
  | .nil, _, _ => .nil
  | .cons c cs, tg, x =>
    if c.eid = tg then .cons x (.cons c cs) else .cons c (cs.insertBeforeId tg x)

/-- XMLElement.remove_child by id: remove the first child carrying the
id; a no-op when absent (the in-children guard of the source). -/
def XKids.eraseById : XKids → String → XKids
  | .nil, _ => .nil
  | .cons c cs, tg => if c.eid = tg then cs else .cons c (cs.eraseById tg)

/-- Python list.insert: insert before the index, appending when the index
is past the end. -/
def XKids.insertAt : XKids → Nat → XElem → XKids
  | l, 0, x => .cons x l
  | .nil, _ + 1, x => .cons x .nil
  | .cons c cs, n + 1, x => .cons c (cs.insertAt n x)

/-- Python children.index of the first child carrying the id (the raise
on a missing id is unreachable in the guarded call sites). -/
def XKids.idxOfId : XKids → String → Nat
  | .nil, _ => 0
  | .cons c cs, tg => if c.eid = tg then 0 else cs.idxOfId tg + 1

/-- XMLElement.add_child: append as last child. -/
def XKids.appendE : XKids → XElem → XKids
  | .nil, x => .cons x .nil
  | .cons c cs, x => .cons c (cs.appendE x)

/-- EditIdCommand's mutation of the node object: set the id field (the
id attribute entry is updated separately, as two statements in the
source). -/
def XElem.renameTo : XElem → String → XElem
  | .mk t _ a tx cs, k => .mk t k a tx cs

/-- The model fields of an XMLEditor: the root element, the key list of
the id_map (its values alias the tree nodes, so the keys are the model
content of the index), and the modified flag.  The root is total: every
initialized editor owns a root element. -/
structure XmlModel where
  root : XElem
  idKeys : List String
  modified : Bool
deriving DecidableEq, Repr

/-- XMLEditor.get_element: id_map lookup; under the id-index invariant
the map entry aliases the tree node carrying the id. -/
def XmlModel.getElem (m : XmlModel) (i : String) : Option XElem :=
  if i ∈ m.idKeys then m.root.findById i else none

/-- The xml command variants with their constructor arguments followed by
their undo-payload fields. -/
inductive XmlCmd where
  | insertBefore (tag newId targetId text : String) (attrs : List (String × String))
      (pcap : Option String)
  | appendChild (tag newId parentId text : String) (attrs : List (String × String))
      (pcap : Option String)
  | editId (oldId newId : String) (done : Bool)
  | editText (elemId newText : String) (oldText : Option String)
  | deleteElem (elemId : String) (pay : Option (XElem × String × Nat))
  | setAttr (elemId name value : String) (pay : Option (Option String))
  | removeAttr (elemId name : String) (oldVal : Option String)
  | appendRoot (tag newId text : String) (attrs : List (String × String))
      (pay : Option (XElem × List String))
deriving DecidableEq, Repr

/-- Execute of an xml command (the execute methods of
src/command/xml_commands.py composed with mark_modified), validating
fully before mutating.  Only the constructor arguments are read; the
payload fields are overwritten. -/
def execXml : XmlCmd → XmlModel → XmlModel × Except EdError XmlCmd
  | .insertBefore tag newId targetId text attrs _, m =>
    if newId ∈ m.idKeys then (m, .error (.elementIdExists newId))
    else
      match m.getElem targetId with
      | none => (m, .error (.targetElementMissing targetId))
      | some _ =>
        match m.root.findParent targetId with
        | none => (m, .error .cannotInsertBeforeRoot)
        | some p =>
          let newE := newElem tag newId text attrs
          (⟨m.root.updateById p.eid (fun n => n.withKids (n.children.insertBeforeId targetId newE)),
            dictAdd m.idKeys newId, true⟩,
            .ok (.insertBefore tag newId targetId text attrs (some p.eid)))
  | .appendChild tag newId parentId text attrs _, m =>
    if newId ∈ m.idKeys then (m, .error (.elementIdExists newId))
    else
      match m.getElem parentId with
      | none => (m, .error (.parentElementMissing parentId))
      | some p =>
        let newE := newElem tag newId text attrs
        (⟨m.root.updateById p.eid (fun n => n.withKids (n.children.appendE newE)),
          dictAdd m.idKeys newId, true⟩,
          .ok (.appendChild tag newId parentId text attrs (some p.eid)))
  | .editId oldId newId _, m =>
    match m.getElem oldId with
    | none => (m, .error (.elementMissing oldId))
    | some _ =>
      if newId ∈ m.idKeys then (m, .error (.targetIdExists newId))
      else
        (⟨m.root.updateById oldId (fun n => (n.withAttrs (setA n.attrs "id" newId)).renameTo newId),
          dictAdd (m.idKeys.erase oldId) newId, true⟩,
          .ok (.editId oldId newId true))
  | .editText elemId newText _, m =>
    match m.getElem elemId with
    | none => (m, .error (.elementMissing elemId))
    | some el =>
      (⟨m.root.updateById elemId (fun n => n.withText newText), m.idKeys, true⟩,
        .ok (.editText elemId newText (some el.text)))
  | .deleteElem elemId _, m =>
    match m.getElem elemId with
    | none => (m, .error (.elementMissing elemId))
    | some el =>
      if el = m.root then (m, .error .cannotDeleteRoot)
      else
        match m.root.findParent elemId with
        | none => (m, .error .cannotDeleteWithoutParent)
        | some p =>
          (⟨m.root.updateById p.eid (fun n => n.withKids (n.children.eraseById elemId)),
            el.ids.foldl (fun ks i => ks.erase i) m.idKeys, true⟩,
            .ok (.deleteElem elemId (some (el, p.eid, p.children.idxOfId elemId))))
  | .setAttr elemId name value _, m =>
    match m.getElem elemId with
    | none => (m, .error (.elementMissing elemId))
    | some el =>
      if name = "id" then (m, .error .cannotSetIdAttr)
      else
        (⟨m.root.updateById elemId (fun n => n.withAttrs (setA n.attrs name value)),
          m.idKeys, true⟩,
          .ok (.setAttr elemId name value (some (lookupA el.attrs name))))
  | .removeAttr elemId name _, m =>
    match m.getElem elemId with
    | none => (m, .error (.elementMissing elemId))
    | some el =>
      if name = "id" then (m, .error .cannotRemoveIdAttr)
      else
        match lookupA el.attrs name with
        | none => (m, .error (.attributeMissing name))
        | some v =>
          (⟨m.root.updateById elemId (fun n => n.withAttrs (delA n.attrs name)),
            m.idKeys, true⟩,
            .ok (.removeAttr elemId name (some v)))
  | .appendRoot tag newId text attrs _, m =>
    if m.root.children.length > 0 then (m, .error .rootHasContent)
    else if m.root.tag ≠ "root" ∨ m.root.eid ≠ "root" then (m, .error .rootAlreadyCustomized)
    else if newId ∈ m.idKeys ∧ newId ≠ "root" then (m, .error (.elementIdExists newId))
    else
      (⟨newElem tag newId text attrs, [newId], true⟩,
        .ok (.appendRoot tag newId text attrs (some (m.root, m.idKeys))))

/-- Undo of an xml command (the undo methods of
src/command/xml_commands.py composed with mark_modified); each guard is
the source's truthiness check on the captured payload. -/
def undoXml : XmlCmd → XmlModel → XmlModel
  | .insertBefore _ newId _ _ _ pcap, m =>
    match pcap with
    | none => m
    | some pid =>
      ⟨m.root.updateById pid (fun n => n.withKids (n.children.eraseById newId)),
        m.idKeys.erase newId, true⟩
  | .appendChild _ newId _ _ _ pcap, m =>
    match pcap with
    | none => m
    | some pid =>
      ⟨m.root.updateById pid (fun n => n.withKids (n.children.eraseById newId)),
        m.idKeys.erase newId, true⟩
  | .editId oldId newId done, m =>
    if done then
      ⟨m.root.updateById newId (fun n => (n.renameTo oldId).withAttrs (setA n.attrs "id" oldId)),
        dictAdd (m.idKeys.erase newId) oldId, true⟩
    else m
  | .editText elemId _ oldText, m =>
    match oldText with
    | none => m
    | some old => ⟨m.root.updateById elemId (fun n => n.withText old), m.idKeys, true⟩
  | .deleteElem _ pay, m =>
    match pay with
    | none => m
    | some (el, pid, idx) =>
      ⟨m.root.updateById pid (fun n => n.withKids (n.children.insertAt idx el)),
        el.ids.foldl dictAdd m.idKeys, true⟩
  | .setAttr elemId name _ pay, m =>
    match pay with
    | none => m
    | some oldv =>
      match oldv with
      | none =>
        ⟨m.root.updateById elemId
            (fun n => if name ∈ attrKeys n.attrs then n.withAttrs (delA n.attrs name) else n),
          m.idKeys, true⟩
      | some v =>
        ⟨m.root.updateById elemId (fun n => n.withAttrs (setA n.attrs name v)), m.idKeys, true⟩
  | .removeAttr elemId name oldVal, m =>
    match oldVal with
    | none => m
    | some v =>
      ⟨m.root.updateById elemId (fun n => n.withAttrs (setA n.attrs name v)), m.idKeys, true⟩
  | .appendRoot _ _ _ _ pay, m =>
    match pay with
    | none => m
    | some (oldRoot, oldKeys) => ⟨oldRoot, oldKeys, true⟩

/-! ## Editor level for tree documents (src/editor/editor.py) -/

/-- An XMLEditor together with its undo and redo stacks. -/
structure XmlEd where
  model : XmlModel
  undoStack : List XmlCmd
  redoStack : List XmlCmd
deriving DecidableEq, Repr

/-- Editor.execute_command for an xml command. -/
def XmlEd.execCmd (e : XmlEd) (c : XmlCmd) : XmlEd × Except EdError Unit :=
  match execXml c e.model with
  | (m2, .ok c2) => (⟨m2, e.undoStack ++ [c2], []⟩, .ok ())
  | (m2, .error err) => (⟨m2, e.undoStack, e.redoStack⟩, .error err)

/-- Editor.undo for an xml editor. -/
def XmlEd.undoStep (e : XmlEd) : XmlEd × Option XmlCmd :=
  match e.undoStack.getLast? with
  | none => (e, none)
  | some c =>
    (⟨undoXml c e.model, e.undoStack.dropLast, e.redoStack ++ [c]⟩, some c)

/-- Editor.redo for an xml editor. -/
def XmlEd.redoStep (e : XmlEd) : XmlEd × Option XmlCmd :=
  match e.redoStack.getLast? with
  | none => (e, none)
  | some c =>
    match execXml c e.model with
    | (m2, .ok c2) => (⟨m2, e.undoStack ++ [c2], e.redoStack.dropLast⟩, some c2)
    | (m2, .error _) => (⟨m2, e.undoStack, e.redoStack.dropLast⟩, some c)

/-- A user-level action on a tree document: execute a freshly built
command, undo, or redo. -/
inductive XAct where
  | op (c : XmlCmd)
  | undo
  | redo

/-- One dispatched action. -/
def XmlEd.step (e : XmlEd) : XAct → XmlEd
  | .op c => (e.execCmd c).1
  | .undo => e.undoStep.1
  | .redo => e.redoStep.1

/-- A sequence of dispatched actions. -/
def XmlEd.run (e : XmlEd) (acts : List XAct) : XmlEd :=
  acts.foldl XmlEd.step e

/-- The freshly initialized tree document: the anonymous default root and
an id-map holding exactly it (XMLEditor.load_from_file on a missing
file, and Workspace.init_file for the xml kind). -/
def initXmlEd : XmlEd :=
  ⟨⟨.mk "root" "root" [("id", "root")] "" .nil, ["root"], true⟩, [], []⟩

/-! ## Well-formedness: the id-index invariant -/

mutual
/-- Every node's attribute map has unique keys and carries an id entry
equal to the node id (established by the XMLElement constructor and by
the parser, and maintained by every command). -/
def XElem.wfAttrsB : XElem → Bool
  | .mk _ i a _ cs =>
    decide (attrKeys a).Nodup && decide (lookupA a "id" = some i) && cs.wfAttrsB
def XKids.wfAttrsB : XKids → Bool
  | .nil => true
  | .cons c cs => c.wfAttrsB && cs.wfAttrsB
end

/-- The id-index invariant of a tree document: the identifiers reachable
from the root are pairwise distinct, the id_map keys are exactly the
reachable identifiers, and every node's attribute map is coherent. -/
def wfX (m : XmlModel) : Prop :=
  m.root.ids.Nodup ∧ m.idKeys.Perm m.root.ids ∧ m.root.wfAttrsB = true

instance (m : XmlModel) : Decidable (wfX m) := by
  unfold wfX
  infer_instance

/-! ## Basic facts about tree search and rewrite -/

theorem XElem.eid_mem_ids (e : XElem) : e.eid ∈ e.ids := by
  cases e with
  | mk t i a tx cs => simp [XElem.ids, XElem.eid]

mutual
theorem XElem.findById_eid {tg : String} (e : XElem) {r : XElem}
    (h : e.findById tg = some r) : r.eid = tg := by
  cases e with
  | mk t i a tx cs =>
    rw [XElem.findById] at h
    split at h
    · rename_i hi
      cases h
      simpa [XElem.eid] using hi
    · exact XKids.findById_eidK cs h
theorem XKids.findById_eidK {tg : String} (l : XKids) {r : XElem}
    (h : l.findById tg = some r) : r.eid = tg := by
  cases l with
  | nil => simp [XKids.findById] at h
  | cons c cs =>
    rw [XKids.findById] at h
    split at h
    · exact XElem.findById_eid c h
    · exact XKids.findById_eidK cs h
end

mutual
theorem XElem.findById_isSome {tg : String} (e : XElem) (h : tg ∈ e.ids) :
    (e.findById tg).isSome := by
  cases e with
  | mk t i a tx cs =>
    rw [XElem.findById]
    split
    · simp
    · rename_i hi
      apply XKids.findById_isSomeK
      rw [XElem.ids] at h
      cases h with
      | head => exact absurd rfl hi
      | tail _ hh => exact hh
theorem XKids.findById_isSomeK {tg : String} (l : XKids) (h : tg ∈ l.ids) :
    (l.findById tg).isSome := by
  cases l with
  | nil => simp [XKids.ids] at h
  | cons c cs =>
    rw [XKids.findById]
    split
    · rename_i hc
      exact XElem.findById_isSome c hc
    · rename_i hc
      apply XKids.findById_isSomeK
      rw [XKids.ids] at h
      rcases List.mem_append.mp h with h1 | h2
      · exact absurd h1 hc
      · exact h2
end

mutual
theorem XElem.findById_none {tg : String} (e : XElem) (h : tg ∉ e.ids) :
    e.findById tg = none := by
  cases e with
  | mk t i a tx cs =>
    rw [XElem.findById]
    rw [XElem.ids] at h
    split
    · rename_i hi
      exact absurd (hi ▸ List.mem_cons_self i cs.ids) h
    · exact XKids.findById_noneK cs (fun hm => h (List.mem_cons_of_mem i hm))
theorem XKids.findById_noneK {tg : String} (l : XKids) (h : tg ∉ l.ids) :
    l.findById tg = none := by
  cases l with
  | nil => rw [XKids.findById]
  | cons c cs =>
    rw [XKids.findById]
    rw [XKids.ids] at h
    split
    · rename_i hc
      exact absurd (List.mem_append.mpr (Or.inl hc)) h
    · exact XKids.findById_noneK cs (fun hm => h (List.mem_append.mpr (Or.inr hm)))
end

mutual
theorem XElem.findById_ids_sub {tg : String} (e : XElem) {r : XElem}
    (h : e.findById tg = some r) : ∀ x ∈ r.ids, x ∈ e.ids := by
  cases e with
  | mk t i a tx cs =>
    rw [XElem.findById] at h
    split at h
    · cases h
      exact fun x hx => hx
    · intro x hx
      rw [XElem.ids]
      exact List.mem_cons_of_mem i (XKids.findById_ids_subK cs h x hx)
theorem XKids.findById_ids_subK {tg : String} (l : XKids) {r : XElem}
    (h : l.findById tg = some r) : ∀ x ∈ r.ids, x ∈ l.ids := by
  cases l with
  | nil => simp [XKids.findById] at h
  | cons c cs =>
    rw [XKids.findById] at h
    split at h
    · intro x hx
      rw [XKids.ids]
      exact List.mem_append.mpr (Or.inl (XElem.findById_ids_sub c h x hx))
    · intro x hx
      rw [XKids.ids]
      exact List.mem_append.mpr (Or.inr (XKids.findById_ids_subK cs h x hx))
end

mutual
theorem XElem.updateById_id (e : XElem) (tg : String) :
    e.updateById tg (fun n => n) = e := by
  cases e with
  | mk t i a tx cs =>
    rw [XElem.updateById]
    split
    · rfl
    · rw [XKids.updateById_idK cs tg]
theorem XKids.updateById_idK (l : XKids) (tg : String) :
    l.updateById tg (fun n => n) = l := by
  cases l with
  | nil => rw [XKids.updateById]
  | cons c cs =>
    rw [XKids.updateById]
    split
    · rw [XElem.updateById_id c tg]
    · rw [XKids.updateById_idK cs tg]
end

mutual
theorem XElem.updateById_not_mem {tg : String} {f : XElem → XElem} (e : XElem)
    (h : tg ∉ e.ids) : e.updateById tg f = e := by
  cases e with
  | mk t i a tx cs =>
    rw [XElem.updateById]
    rw [XElem.ids] at h
    split
    · rename_i hi
      exact absurd (hi ▸ List.mem_cons_self i cs.ids) h
    · rw [XKids.updateById_not_memK cs (fun hm => h (List.mem_cons_of_mem i hm))]
theorem XKids.updateById_not_memK {tg : String} {f : XElem → XElem} (l : XKids)
    (h : tg ∉ l.ids) : l.updateById tg f = l := by
  cases l with
  | nil => rw [XKids.updateById]
  | cons c cs =>
    rw [XKids.updateById]
    rw [XKids.ids] at h
    split
    · rename_i hc
      exact absurd (List.mem_append.mpr (Or.inl hc)) h
    · rw [XKids.updateById_not_memK cs (fun hm => h (List.mem_append.mpr (Or.inr hm)))]
end

mutual
theorem XElem.ids_updateById {tg : String} {f : XElem → XElem} (e : XElem) {r : XElem}
    (hfind : e.findById tg = some r) :
    ∃ pre post, e.ids = pre ++ r.ids ++ post ∧
      (e.updateById tg f).ids = pre ++ (f r).ids ++ post := by
  cases e with
  | mk t i a tx cs =>
    rw [XElem.findById] at hfind
    rw [XElem.updateById]
    split at hfind
    · rename_i hi
      cases hfind
      refine ⟨[], [], by simp, ?_⟩
      rw [if_pos hi]
      simp
    · rename_i hi
      rw [if_neg hi]
      obtain ⟨pre, post, h1, h2⟩ := XKids.ids_updateByIdK cs hfind
      refine ⟨i :: pre, post, ?_, ?_⟩
      · rw [XElem.ids, h1]; simp
      · rw [XElem.ids, h2]; simp
theorem XKids.ids_updateByIdK {tg : String} {f : XElem → XElem} (l : XKids) {r : XElem}
    (hfind : l.findById tg = some r) :
    ∃ pre post, l.ids = pre ++ r.ids ++ post ∧
      (l.updateById tg f).ids = pre ++ (f r).ids ++ post := by
  cases l with
  | nil => simp [XKids.findById] at hfind
  | cons c cs =>
    rw [XKids.findById] at hfind
    rw [XKids.updateById]
    split at hfind
    · rename_i hc
      rw [if_pos hc]
      obtain ⟨pre, post, h1, h2⟩ := XElem.ids_updateById c hfind
      refine ⟨pre, post ++ cs.ids, ?_, ?_⟩
      · rw [XKids.ids, h1]; simp
      · rw [XKids.ids, h2]; simp
    · rename_i hc
      rw [if_neg hc]
      obtain ⟨pre, post, h1, h2⟩ := XKids.ids_updateByIdK cs hfind
      refine ⟨c.ids ++ pre, post, ?_, ?_⟩
      · rw [XKids.ids, h1]; simp
      · rw [XKids.ids, h2]; simp
end

mutual
theorem XElem.updateById_congr {tg : String} {f g : XElem → XElem} (e : XElem) {r : XElem}
    (hfind : e.findById tg = some r) (hfg : f r = g r) :
    e.updateById tg f = e.updateById tg g := by
  cases e with
  | mk t i a tx cs =>
    rw [XElem.findById] at hfind
    rw [XElem.updateById, XElem.updateById]
    split at hfind
    · rename_i hi
      cases hfind
      rw [if_pos hi, if_pos hi, hfg]
    · rename_i hi
      rw [if_neg hi, if_neg hi, XKids.updateById_congrK cs hfind hfg]
theorem XKids.updateById_congrK {tg : String} {f g : XElem → XElem} (l : XKids) {r : XElem}
    (hfind : l.findById tg = some r) (hfg : f r = g r) :
    l.updateById tg f = l.updateById tg g := by
  cases l with
  | nil => simp [XKids.findById] at hfind
  | cons c cs =>
    rw [XKids.findById] at hfind
    rw [XKids.updateById, XKids.updateById]
    split at hfind
    · rename_i hc
      rw [if_pos hc, if_pos hc, XElem.updateById_congr c hfind hfg]
    · rename_i hc
      rw [if_neg hc, if_neg hc, XKids.updateById_congrK cs hfind hfg]
end

theorem XElem.mem_updateById_self {tg : String} {f : XElem → XElem} (e : XElem)
    (hfe : ∀ n, n.eid = tg → (f n).eid = tg) (h : tg ∈ e.ids) :
    tg ∈ (e.updateById tg f).ids := by
  obtain ⟨r, hr⟩ := Option.isSome_iff_exists.mp (XElem.findById_isSome e h)
  obtain ⟨pre, post, h1, h2⟩ := XElem.ids_updateById (f := f) e hr
  rw [h2]
  have : (f r).eid ∈ (f r).ids := XElem.eid_mem_ids _
  rw [hfe r (XElem.findById_eid e hr)] at this
  simp only [List.mem_append]
  exact Or.inl (Or.inr this)

theorem XElem.mem_updateById_new {o nw : String} {f : XElem → XElem} (e : XElem)
    (hfe : ∀ n, n.eid = o → (f n).eid = nw) (h : o ∈ e.ids) :
    nw ∈ (e.updateById o f).ids := by
  obtain ⟨r, hr⟩ := Option.isSome_iff_exists.mp (XElem.findById_isSome e h)
  obtain ⟨pre, post, h1, h2⟩ := XElem.ids_updateById (f := f) e hr
  rw [h2]
  have : (f r).eid ∈ (f r).ids := XElem.eid_mem_ids _
  rw [hfe r (XElem.findById_eid e hr)] at this
  simp only [List.mem_append]
  exact Or.inl (Or.inr this)

theorem XElem.updateById_of_eid {tg : String} {f : XElem → XElem} (e : XElem)
    (h : e.eid = tg) : e.updateById tg f = f e := by
  cases e with
  | mk t i a tx cs =>
    rw [XElem.updateById, if_pos (by simpa [XElem.eid] using h)]

mutual
theorem XElem.updateById_comp {tg : String} {f g : XElem → XElem} (e : XElem)
    (hfe : ∀ n, n.eid = tg → (f n).eid = tg) :
    (e.updateById tg f).updateById tg g = e.updateById tg (fun n => g (f n)) := by
  cases e with
  | mk t i a tx cs =>
    rw [XElem.updateById]
    split
    · rename_i hi
      rw [XElem.updateById_of_eid _ (hfe _ (by simpa [XElem.eid] using hi))]
      rw [XElem.updateById, if_pos hi]
    · rename_i hi
      rw [XElem.updateById, XElem.updateById, if_neg hi, if_neg hi]
      rw [XKids.updateById_compK cs hfe]
theorem XKids.updateById_compK {tg : String} {f g : XElem → XElem} (l : XKids)
    (hfe : ∀ n, n.eid = tg → (f n).eid = tg) :
    (l.updateById tg f).updateById tg g = l.updateById tg (fun n => g (f n)) := by
  cases l with
  | nil => rw [XKids.updateById, XKids.updateById, XKids.updateById]
  | cons c cs =>
    rw [XKids.updateById]
    split
    · rename_i hc
      rw [XKids.updateById, if_pos (XElem.mem_updateById_self c hfe hc)]
      rw [XKids.updateById, if_pos hc, XElem.updateById_comp c hfe]
    · rename_i hc
      rw [XKids.updateById, if_neg hc, XKids.updateById, if_neg hc]
      rw [XKids.updateById_compK cs hfe]
end

mutual
theorem XElem.updateById_comp2 {o nw : String} {f g : XElem → XElem} (e : XElem)
    (hfe : ∀ n, n.eid = o → (f n).eid = nw) (hno : nw ∉ e.ids) :
    (e.updateById o f).updateById nw g = e.updateById o (fun n => g (f n)) := by
  cases e with
  | mk t i a tx cs =>
    rw [XElem.updateById]
    split
    · rename_i hi
      rw [XElem.updateById_of_eid _ (hfe _ (by simpa [XElem.eid] using hi))]
      rw [XElem.updateById, if_pos hi]
    · rename_i hi
      have hinw : ¬ (i = nw) := by
        intro heq
        exact hno (heq ▸ (XElem.eid_mem_ids (.mk t i a tx cs)))
      rw [XElem.updateById, XElem.updateById, if_neg hinw, if_neg hi]
      have hnocs : nw ∉ cs.ids := by
        intro hm
        exact hno (by rw [XElem.ids]; exact List.mem_cons_of_mem i hm)
      rw [XKids.updateById_comp2K cs hfe hnocs]
theorem XKids.updateById_comp2K {o nw : String} {f g : XElem → XElem} (l : XKids)
    (hfe : ∀ n, n.eid = o → (f n).eid = nw) (hno : nw ∉ l.ids) :
    (l.updateById o f).updateById nw g = l.updateById o (fun n => g (f n)) := by
  cases l with
  | nil => rw [XKids.updateById, XKids.updateById, XKids.updateById]
  | cons c cs =>
    have hnoc : nw ∉ c.ids := by
      intro hm
      exact hno (by rw [XKids.ids]; exact List.mem_append.mpr (Or.inl hm))
    have hnocs : nw ∉ cs.ids := by
      intro hm
      exact hno (by rw [XKids.ids]; exact List.mem_append.mpr (Or.inr hm))
    rw [XKids.updateById]
    split
    · rename_i hc
      rw [XKids.updateById, if_pos (XElem.mem_updateById_new c hfe hc)]
      rw [XKids.updateById, if_pos hc, XElem.updateById_comp2 c hfe hnoc]
    · rename_i hc
      rw [XKids.updateById, if_neg hnoc, XKids.updateById, if_neg hc]
      rw [XKids.updateById_comp2K cs hfe hnocs]
end

/-! ## Dictionary lemmas for attribute maps and the id-map key list -/

theorem lookupA_none_iff {a : List (String × String)} {k : String} :
    lookupA a k = none ↔ k ∉ attrKeys a := by
  induction a with
  | nil => simp [lookupA, attrKeys]
  | cons p rest ih =>
    rw [show p = (p.1, p.2) from rfl, lookupA]
    by_cases hk : p.1 = k
    · simp [hk, attrKeys]
    · simp only [if_neg hk, attrKeys, List.map_cons, List.mem_cons]
      rw [show attrKeys rest = rest.map Prod.fst from rfl] at ih
      rw [ih]
      constructor
      · intro h hm
        rcases hm with hm | hm
        · exact hk hm.symm
        · exact h hm
      · intro h hm
        exact h (Or.inr hm)

theorem lookupA_isSome_of_mem {a : List (String × String)} {k : String}
    (h : k ∈ attrKeys a) : ∃ v, lookupA a k = some v := by
  cases hl : lookupA a k with
  | none => exact absurd h (lookupA_none_iff.mp hl)
  | some v => exact ⟨v, rfl⟩

theorem mem_of_lookupA_some {a : List (String × String)} {k v : String}
    (h : lookupA a k = some v) : k ∈ attrKeys a := by
  by_contra hm
  rw [lookupA_none_iff.mpr hm] at h
  cases h

theorem map_setFn_id {a : List (String × String)} {k v : String}
    (h : k ∉ attrKeys a) : a.map (fun p => if p.1 = k then (k, v) else p) = a := by
  have h2 : ∀ p ∈ a, (if p.1 = k then (k, v) else p) = p := by
    intro p hp
    have hq : ¬ (p.1 = k) := by
      intro hq
      apply h
      rw [attrKeys, ← hq]
      exact List.mem_map_of_mem Prod.fst hp
    rw [if_neg hq]
  calc a.map (fun p => if p.1 = k then (k, v) else p) = a.map id := List.map_congr_left h2
    _ = a := List.map_id a

theorem attrKeys_setA_of_mem {a : List (String × String)} {k v : String}
    (h : k ∈ attrKeys a) : attrKeys (setA a k v) = attrKeys a := by
  rw [setA, if_pos h]
  show (a.map _).map Prod.fst = a.map Prod.fst
  rw [List.map_map]
  apply List.map_congr_left
  intro p _
  by_cases hp : p.1 = k
  · simp [hp]
  · simp [hp]

theorem setA_setA {a : List (String × String)} {k v1 v2 : String} :
    setA (setA a k v1) k v2 = setA a k v2 := by
  by_cases h : k ∈ attrKeys a
  · have e1 : setA a k v1 = a.map (fun p => if p.1 = k then (k, v1) else p) := by
      rw [setA, if_pos h]
    have hmem2 : k ∈ attrKeys (setA a k v1) := by
      rw [attrKeys_setA_of_mem h]
      exact h
    rw [e1, setA, if_pos (by rw [← e1]; exact hmem2), setA, if_pos h, List.map_map]
    apply List.map_congr_left
    intro p _
    by_cases hp : p.1 = k <;> simp [hp]
  · have e1 : setA a k v1 = a ++ [(k, v1)] := by rw [setA, if_neg h]
    have hmem2 : k ∈ attrKeys (setA a k v1) := by
      rw [e1]
      simp [attrKeys]
    rw [e1, setA, if_pos (by rw [← e1]; exact hmem2), setA, if_neg h, List.map_append,
      map_setFn_id h]
    simp

theorem setA_self {a : List (String × String)} {k v : String}
    (hnd : (attrKeys a).Nodup) (h : lookupA a k = some v) : setA a k v = a := by
  rw [setA, if_pos (mem_of_lookupA_some h)]
  induction a with
  | nil => cases h
  | cons p rest ih =>
    rw [show p = (p.1, p.2) from rfl, lookupA] at h
    have hnd2 : (attrKeys rest).Nodup := by
      rw [attrKeys] at hnd
      exact (List.nodup_cons.mp hnd).2
    by_cases hk : p.1 = k
    · rw [if_pos hk] at h
      cases h
      have hnm : k ∉ attrKeys rest := by
        rw [attrKeys] at hnd
        exact hk ▸ (List.nodup_cons.mp hnd).1
      rw [List.map_cons, if_pos hk, map_setFn_id hnm, ← hk]
    · rw [if_neg hk] at h
      rw [List.map_cons, if_neg hk, ih hnd2 h]

theorem delA_append_not_mem {a : List (String × String)} {k : String}
    (h : k ∉ attrKeys a) : ∀ v, delA (a ++ [(k, v)]) k = a := by
  intro v
  rw [delA, List.filter_append]
  have h1 : a.filter (fun p => decide (p.1 ≠ k)) = a := by
    apply List.filter_eq_self.mpr
    intro p hp
    simp only [decide_eq_true_eq]
    exact fun hq => h (hq ▸ List.mem_map_of_mem Prod.fst hp)
  rw [h1]
  simp

theorem setA_delA_perm {a : List (String × String)} {k v : String} :
    setA (delA a k) k v = delA a k ++ [(k, v)] := by
  rw [setA, if_neg ?_]
  rw [delA, attrKeys]
  intro hm
  obtain ⟨p, hp, hpk⟩ := List.mem_map.mp hm
  have := List.of_mem_filter hp
  simp only [decide_eq_true_eq] at this
  exact this hpk

theorem lookupA_cons {p : String × String} {rest : List (String × String)} {k : String} :
    lookupA (p :: rest) k = if p.1 = k then some p.2 else lookupA rest k := by
  rw [show p = (p.1, p.2) from rfl, lookupA]

theorem lookupA_append {a b : List (String × String)} {k : String} :
    lookupA (a ++ b) k = match lookupA a k with
      | some v => some v
      | none => lookupA b k := by
  induction a with
  | nil => rw [List.nil_append, lookupA]
  | cons p rest ih =>
    rw [List.cons_append, lookupA_cons, lookupA_cons]
    split
    · rfl
    · exact ih

theorem delA_append_single {x : List (String × String)} {k v : String} :
    delA (x ++ [(k, v)]) k = delA x k := by
  rw [delA, delA, List.filter_append]
  simp

theorem delA_idem {a : List (String × String)} {k : String} :
    delA (delA a k) k = delA a k := by
  rw [delA, List.filter_eq_self]
  intro p hp
  rw [delA] at hp
  exact (List.mem_filter.mp hp).2

theorem delA_cons {p : String × String} {rest : List (String × String)} {k : String} :
    delA (p :: rest) k = if p.1 = k then delA rest k else p :: delA rest k := by
  rw [delA, List.filter_cons]
  by_cases hp : p.1 = k
  · rw [if_neg (by simp [hp]), if_pos hp, delA]
  · rw [if_pos (by simp [hp]), if_neg hp, delA]

theorem attrKeys_delA {a : List (String × String)} {k : String} :
    attrKeys (delA a k) = (attrKeys a).filter (fun x => decide (x ≠ k)) := by
  induction a with
  | nil => rfl
  | cons p rest ih =>
    rw [delA_cons]
    by_cases hp : p.1 = k
    · rw [if_pos hp, ih]
      simp only [attrKeys, List.map_cons, List.filter_cons]
      rw [if_neg (by simp [hp])]
    · rw [if_neg hp]
      simp only [attrKeys, List.map_cons, List.filter_cons]
      rw [if_pos (by simp [hp])]
      simp only [attrKeys] at ih
      rw [ih]

theorem lookupA_map_set_self {a : List (String × String)} {k v : String}
    (h : k ∈ attrKeys a) :
    lookupA (a.map (fun p => if p.1 = k then (k, v) else p)) k = some v := by
  induction a with
  | nil => simp [attrKeys] at h
  | cons p rest ih =>
    rw [List.map_cons]
    by_cases hp : p.1 = k
    · rw [if_pos hp, lookupA_cons, if_pos rfl]
    · rw [if_neg hp, lookupA_cons, if_neg hp]
      apply ih
      simp only [attrKeys, List.map_cons, List.mem_cons] at h
      rcases h with h1 | h1
      · exact absurd h1.symm hp
      · exact h1

theorem lookupA_map_set_ne {a : List (String × String)} {k k2 v : String}
    (hne : ¬ (k2 = k)) :
    lookupA (a.map (fun p => if p.1 = k then (k, v) else p)) k2 = lookupA a k2 := by
  induction a with
  | nil => rfl
  | cons p rest ih =>
    rw [List.map_cons, lookupA_cons, lookupA_cons]
    by_cases hp : p.1 = k
    · have h1 : ¬ ((if p.1 = k then (k, v) else p).1 = k2) := by
        rw [if_pos hp]
        exact fun hq => hne hq.symm
      rw [if_neg h1, if_neg (by rw [hp]; exact fun hq => hne hq.symm)]
      exact ih
    · rw [if_neg hp]
      by_cases hq : p.1 = k2
      · rw [if_pos hq, if_pos hq]
      · rw [if_neg hq, if_neg hq, ih]

theorem lookupA_setA_self {a : List (String × String)} {k v : String} :
    lookupA (setA a k v) k = some v := by
  by_cases h : k ∈ attrKeys a
  · rw [setA, if_pos h]
    exact lookupA_map_set_self h
  · rw [setA, if_neg h, lookupA_append, lookupA_none_iff.mpr h, lookupA_cons, if_pos rfl]

theorem lookupA_setA_ne {a : List (String × String)} {k k2 v : String} (hne : ¬ (k2 = k)) :
    lookupA (setA a k v) k2 = lookupA a k2 := by
  by_cases h : k ∈ attrKeys a
  · rw [setA, if_pos h]
    exact lookupA_map_set_ne hne
  · rw [setA, if_neg h, lookupA_append]
    cases hl : lookupA a k2 with
    | some w => rfl
    | none => rw [lookupA_cons, if_neg (fun hq => hne hq.symm), lookupA]

theorem lookupA_delA_ne {a : List (String × String)} {k k2 : String} (hne : ¬ (k2 = k)) :
    lookupA (delA a k) k2 = lookupA a k2 := by
  induction a with
  | nil => rfl
  | cons p rest ih =>
    rw [delA_cons, lookupA_cons]
    by_cases hp : p.1 = k
    · rw [if_pos hp, if_neg (by rw [hp]; intro hq; exact hne hq.symm), ih]
    · rw [if_neg hp, lookupA_cons]
      split
      · rfl
      · exact ih

theorem attrKeys_setA_not_mem {a : List (String × String)} {k v : String}
    (h : k ∉ attrKeys a) : attrKeys (setA a k v) = attrKeys a ++ [k] := by
  rw [setA, if_neg h]
  simp [attrKeys]

theorem nodup_attrKeys_setA {a : List (String × String)} {k v : String}
    (hnd : (attrKeys a).Nodup) : (attrKeys (setA a k v)).Nodup := by
  by_cases h : k ∈ attrKeys a
  · rw [attrKeys_setA_of_mem h]
    exact hnd
  · rw [attrKeys_setA_not_mem h]
    simp [List.nodup_append, hnd, h]

theorem nodup_attrKeys_delA {a : List (String × String)} {k : String}
    (hnd : (attrKeys a).Nodup) : (attrKeys (delA a k)).Nodup := by
  rw [attrKeys_delA]
  exact hnd.filter _

/-! ## Child-list lemmas -/

/-- Proof-side helper: the first direct child carrying an id. -/
def XKids.topFind : XKids → String → Option XElem
  | .nil, _ => none
  | .cons c cs, tg => if c.eid = tg then some c else cs.topFind tg

theorem XKids.topFind_eid : ∀ {l : XKids} {tg : String} {ch : XElem},
    l.topFind tg = some ch → ch.eid = tg
  | .nil, _, _, h => by simp [XKids.topFind] at h
  | .cons c cs, tg, ch, h => by
    rw [XKids.topFind] at h
    split at h
    · rename_i hc
      cases h
      exact hc
    · exact XKids.topFind_eid h

theorem XKids.topFind_isSome_of_hasTop : ∀ {l : XKids} {tg : String},
    l.hasTop tg = true → ∃ ch, l.topFind tg = some ch
  | .nil, _, h => by simp [XKids.hasTop] at h
  | .cons c cs, tg, h => by
    rw [XKids.hasTop, Bool.or_eq_true] at h
    rw [XKids.topFind]
    by_cases hc : c.eid = tg
    · exact ⟨c, by rw [if_pos hc]⟩
    · rw [if_neg hc]
      apply XKids.topFind_isSome_of_hasTop
      rcases h with h | h
      · exact absurd (by simpa using h) hc
      · exact h

theorem XKids.hasTop_false_of_not_mem : ∀ {l : XKids} {tg : String},
    tg ∉ l.ids → l.hasTop tg = false
  | .nil, _, _ => by rw [XKids.hasTop]
  | .cons c cs, tg, h => by
    rw [XKids.ids] at h
    rw [XKids.hasTop, Bool.or_eq_false_iff]
    constructor
    · by_contra hb
      apply h
      apply List.mem_append.mpr
      left
      have hce : c.eid = tg := by simpa using hb
      exact hce ▸ XElem.eid_mem_ids c
    · exact XKids.hasTop_false_of_not_mem (fun hm => h (List.mem_append.mpr (Or.inr hm)))

theorem XKids.eraseById_appendE : ∀ {l : XKids} {x : XElem},
    l.hasTop x.eid = false → (l.appendE x).eraseById x.eid = l
  | .nil, x, _ => by rw [XKids.appendE, XKids.eraseById, if_pos rfl]
  | .cons c cs, x, h => by
    rw [XKids.hasTop, Bool.or_eq_false_iff] at h
    rw [XKids.appendE, XKids.eraseById, if_neg (by simpa using h.1),
      XKids.eraseById_appendE h.2]

theorem XKids.insertBeforeId_no_target : ∀ {l : XKids} {tg : String} {x : XElem},
    l.hasTop tg = false → l.insertBeforeId tg x = l
  | .nil, _, _, _ => by rw [XKids.insertBeforeId]
  | .cons c cs, tg, x, h => by
    rw [XKids.hasTop, Bool.or_eq_false_iff] at h
    rw [XKids.insertBeforeId, if_neg (by simpa using h.1), XKids.insertBeforeId_no_target h.2]

theorem XKids.eraseById_insertBeforeId : ∀ {l : XKids} {tg : String} {x : XElem},
    l.hasTop x.eid = false → (l.insertBeforeId tg x).eraseById x.eid = l
  | .nil, _, _, _ => by rw [XKids.insertBeforeId, XKids.eraseById]
  | .cons c cs, tg, x, h => by
    rw [XKids.hasTop, Bool.or_eq_false_iff] at h
    rw [XKids.insertBeforeId]
    by_cases hc : c.eid = tg
    · rw [if_pos hc, XKids.eraseById, if_pos rfl]
    · rw [if_neg hc, XKids.eraseById, if_neg (by simpa using h.1),
        XKids.eraseById_insertBeforeId h.2]

theorem XKids.insertAt_eraseById : ∀ {l : XKids} {tg : String} {ch : XElem},
    l.topFind tg = some ch → (l.eraseById tg).insertAt (l.idxOfId tg) ch = l
  | .nil, _, _, h => by simp [XKids.topFind] at h
  | .cons c cs, tg, ch, h => by
    rw [XKids.topFind] at h
    rw [XKids.eraseById, XKids.idxOfId]
    by_cases hc : c.eid = tg
    · rw [if_pos hc] at h
      cases h
      rw [if_pos hc, if_pos hc, XKids.insertAt]
    · rw [if_neg hc] at h
      rw [if_neg hc, if_neg hc, XKids.insertAt, XKids.insertAt_eraseById h]

theorem XKids.ids_appendE : ∀ {l : XKids} {x : XElem},
    (l.appendE x).ids = l.ids ++ x.ids
  | .nil, x => by
    rw [XKids.appendE, XKids.ids, XKids.ids, XKids.ids, List.append_nil, List.nil_append]
  | .cons c cs, x => by
    rw [XKids.appendE, XKids.ids, XKids.ids, XKids.ids_appendE, List.append_assoc]

theorem XKids.ids_insertAt : ∀ {l : XKids} {n : Nat} {x : XElem},
    List.Perm (l.insertAt n x).ids (l.ids ++ x.ids)
  | .nil, 0, x => by
    rw [XKids.insertAt, XKids.ids, XKids.ids, XKids.ids]
    simp
  | .nil, _ + 1, x => by
    rw [XKids.insertAt, XKids.ids, XKids.ids, XKids.ids]
    simp
  | .cons c cs, 0, x => by
    rw [XKids.insertAt, XKids.ids, XKids.ids]
    exact List.perm_append_comm
  | .cons c cs, k + 1, x => by
    rw [XKids.insertAt, XKids.ids, XKids.ids, List.append_assoc]
    exact (XKids.ids_insertAt).append_left c.ids

theorem XKids.ids_insertBeforeId : ∀ {l : XKids} {tg : String} {x : XElem},
    l.hasTop tg = true → List.Perm (l.insertBeforeId tg x).ids (l.ids ++ x.ids)
  | .nil, _, _, h => by simp [XKids.hasTop] at h
  | .cons c cs, tg, x, h => by
    rw [XKids.insertBeforeId]
    by_cases hc : c.eid = tg
    · rw [if_pos hc, XKids.ids, XKids.ids]
      exact List.perm_append_comm
    · rw [XKids.hasTop, Bool.or_eq_true] at h
      have h2 : cs.hasTop tg = true := by
        rcases h with h | h
        · exact absurd (by simpa using h) hc
        · exact h
      rw [if_neg hc, XKids.ids, XKids.ids, List.append_assoc]
      exact (XKids.ids_insertBeforeId h2).append_left c.ids

theorem XKids.ids_eraseById : ∀ {l : XKids} {tg : String} {ch : XElem},
    l.topFind tg = some ch →
    ∃ pre post, l.ids = pre ++ ch.ids ++ post ∧ (l.eraseById tg).ids = pre ++ post
  | .nil, _, _, h => by simp [XKids.topFind] at h
  | .cons c cs, tg, ch, h => by
    rw [XKids.topFind] at h
    rw [XKids.eraseById]
    by_cases hc : c.eid = tg
    · rw [if_pos hc] at h
      cases h
      exact ⟨[], cs.ids, by rw [XKids.ids]; simp, by rw [if_pos hc]; simp⟩
    · rw [if_neg hc] at h
      obtain ⟨pre, post, h1, h2⟩ := XKids.ids_eraseById h
      refine ⟨c.ids ++ pre, post, ?_, ?_⟩
      · rw [XKids.ids, h1]
        simp
      · rw [if_neg hc, XKids.ids, h2]
        simp

/-! ## Parent search and its relation to id search -/

theorem XElem.findById_of_eid {tg : String} (e : XElem) (h : e.eid = tg) :
    e.findById tg = some e := by
  cases e with
  | mk t i a tx cs =>
    rw [XElem.findById, if_pos (by simpa [XElem.eid] using h)]

theorem XElem.findById_mem {tg : String} {e : XElem} {r : XElem}
    (h : e.findById tg = some r) : tg ∈ e.ids := by
  by_contra hm
  rw [XElem.findById_none e hm] at h
  cases h

theorem XKids.findById_memK {tg : String} {l : XKids} {r : XElem}
    (h : l.findById tg = some r) : tg ∈ l.ids := by
  by_contra hm
  rw [XKids.findById_noneK l hm] at h
  cases h

theorem XKids.mem_ids_of_hasTop : ∀ {l : XKids} {tg : String},
    l.hasTop tg = true → tg ∈ l.ids
  | .nil, _, h => by simp [XKids.hasTop] at h
  | .cons c cs, tg, h => by
    rw [XKids.hasTop, Bool.or_eq_true] at h
    rw [XKids.ids]
    rcases h with h | h
    · have hce : c.eid = tg := by simpa using h
      exact List.mem_append.mpr (Or.inl (hce ▸ XElem.eid_mem_ids c))
    · exact List.mem_append.mpr (Or.inr (XKids.mem_ids_of_hasTop h))

theorem XKids.findById_eq_topFind : ∀ {l : XKids} {tg : String},
    l.ids.Nodup → l.hasTop tg = true → l.findById tg = l.topFind tg
  | .nil, _, _, h => by simp [XKids.hasTop] at h
  | .cons c cs, tg, hnd, h => by
    rw [XKids.ids] at hnd
    rw [List.nodup_append] at hnd
    rw [XKids.findById, XKids.topFind]
    by_cases hc : c.eid = tg
    · rw [if_pos hc, if_pos (hc ▸ XElem.eid_mem_ids c), XElem.findById_of_eid c hc]
    · rw [XKids.hasTop, Bool.or_eq_true] at h
      have h2 : cs.hasTop tg = true := by
        rcases h with h | h
        · exact absurd (by simpa using h) hc
        · exact h
      have htm : tg ∈ cs.ids := XKids.mem_ids_of_hasTop h2
      have hnc : tg ∉ c.ids := fun hm => hnd.2.2 hm htm
      rw [if_neg hnc, if_neg hc, XKids.findById_eq_topFind hnd.2.1 h2]

mutual
theorem XElem.findParent_found {tg : String} (e : XElem) {p : XElem}
    (hnd : e.ids.Nodup) (h : e.findParent tg = some p) :
    p.children.hasTop tg = true ∧ e.findById tg = p.children.topFind tg ∧
      e.findById p.eid = some p := by
  cases e with
  | mk t i a tx cs =>
    rw [XElem.findParent] at h
    have hnd2 : cs.ids.Nodup := by
      rw [XElem.ids, List.nodup_cons] at hnd
      exact hnd.2
    have hni : i ∉ cs.ids := by
      rw [XElem.ids, List.nodup_cons] at hnd
      exact hnd.1
    split at h
    · rename_i htop
      cases h
      refine ⟨by rw [XElem.children]; exact htop, ?_, ?_⟩
      · have htm : tg ∈ cs.ids := XKids.mem_ids_of_hasTop htop
        have hitg : ¬ (i = tg) := fun hq => hni (hq ▸ htm)
        rw [XElem.findById, if_neg hitg, XElem.children,
          XKids.findById_eq_topFind hnd2 htop]
      · exact XElem.findById_of_eid _ rfl
    · rename_i htop
      obtain ⟨h1, h2, h3⟩ := XKids.findParent_foundK cs hnd2 h
      have htm : tg ∈ cs.ids := by
        obtain ⟨ch, hch⟩ := XKids.topFind_isSome_of_hasTop h1
        have hf : cs.findById tg = some ch := by rw [h2, hch]
        exact XKids.findById_memK hf
      have hpm : p.eid ∈ cs.ids := XKids.findById_memK h3
      refine ⟨h1, ?_, ?_⟩
      · rw [XElem.findById, if_neg (fun hq => hni (by rw [hq]; exact htm)), h2]
      · rw [XElem.findById, if_neg (fun hq => hni (by rw [hq]; exact hpm)), h3]
theorem XKids.findParent_foundK {tg : String} (l : XKids) {p : XElem}
    (hnd : l.ids.Nodup) (h : l.findParent tg = some p) :
    p.children.hasTop tg = true ∧ l.findById tg = p.children.topFind tg ∧
      l.findById p.eid = some p := by
  cases l with
  | nil => simp [XKids.findParent] at h
  | cons c cs =>
    rw [XKids.findParent] at h
    have hnd0 := hnd
    rw [XKids.ids, List.nodup_append] at hnd0
    split at h
    · rename_i hcm
      obtain ⟨h1, h2, h3⟩ := XElem.findParent_found c hnd0.1 h
      have hpm : p.eid ∈ c.ids := XElem.findById_mem h3
      refine ⟨h1, ?_, ?_⟩
      · rw [XKids.findById, if_pos hcm, h2]
      · rw [XKids.findById, if_pos hpm, h3]
    · rename_i hcm
      obtain ⟨h1, h2, h3⟩ := XKids.findParent_foundK cs hnd0.2.1 h
      have hpm : p.eid ∈ cs.ids := XKids.findById_memK h3
      have hpnc : p.eid ∉ c.ids := fun hm => hnd0.2.2 hm hpm
      refine ⟨h1, ?_, ?_⟩
      · rw [XKids.findById, if_neg hcm, h2]
      · rw [XKids.findById, if_neg hpnc, h3]
end

/-! ## Attribute well-formedness lemmas -/

theorem XElem.wfAttrsB_mk {t i : String} {a : List (String × String)} {tx : String}
    {cs : XKids} :
    (XElem.mk t i a tx cs).wfAttrsB = true ↔
      (attrKeys a).Nodup ∧ lookupA a "id" = some i ∧ cs.wfAttrsB = true := by
  rw [XElem.wfAttrsB]
  simp [Bool.and_eq_true, decide_eq_true_eq, and_assoc]

theorem XKids.wfAttrsB_cons {c : XElem} {cs : XKids} :
    (XKids.cons c cs).wfAttrsB = true ↔ c.wfAttrsB = true ∧ cs.wfAttrsB = true := by
  rw [XKids.wfAttrsB]
  simp [Bool.and_eq_true]

mutual
theorem XElem.wfAttrsB_findById {tg : String} (e : XElem) {r : XElem}
    (hwf : e.wfAttrsB = true) (h : e.findById tg = some r) : r.wfAttrsB = true := by
  cases e with
  | mk t i a tx cs =>
    rw [XElem.findById] at h
    split at h
    · cases h
      exact hwf
    · exact XKids.wfAttrsB_findByIdK cs (XElem.wfAttrsB_mk.mp hwf).2.2 h
theorem XKids.wfAttrsB_findByIdK {tg : String} (l : XKids) {r : XElem}
    (hwf : l.wfAttrsB = true) (h : l.findById tg = some r) : r.wfAttrsB = true := by
  cases l with
  | nil => simp [XKids.findById] at h
  | cons c cs =>
    rw [XKids.findById] at h
    rw [XKids.wfAttrsB_cons] at hwf
    split at h
    · exact XElem.wfAttrsB_findById c hwf.1 h
    · exact XKids.wfAttrsB_findByIdK cs hwf.2 h
end

mutual
theorem XElem.wfAttrsB_updateById {tg : String} {f : XElem → XElem} (e : XElem)
    (hwf : e.wfAttrsB = true) (hf : ∀ n, n.wfAttrsB = true → (f n).wfAttrsB = true) :
    (e.updateById tg f).wfAttrsB = true := by
  cases e with
  | mk t i a tx cs =>
    rw [XElem.updateById]
    split
    · exact hf _ hwf
    · rw [XElem.wfAttrsB_mk] at hwf ⊢
      exact ⟨hwf.1, hwf.2.1, XKids.wfAttrsB_updateByIdK cs hwf.2.2 hf⟩
theorem XKids.wfAttrsB_updateByIdK {tg : String} {f : XElem → XElem} (l : XKids)
    (hwf : l.wfAttrsB = true) (hf : ∀ n, n.wfAttrsB = true → (f n).wfAttrsB = true) :
    (l.updateById tg f).wfAttrsB = true := by
  cases l with
  | nil => rw [XKids.updateById]; rfl
  | cons c cs =>
    rw [XKids.wfAttrsB_cons] at hwf
    rw [XKids.updateById]
    split
    · rw [XKids.wfAttrsB_cons]
      exact ⟨XElem.wfAttrsB_updateById c hwf.1 hf, hwf.2⟩
    · rw [XKids.wfAttrsB_cons]
      exact ⟨hwf.1, XKids.wfAttrsB_updateByIdK cs hwf.2 hf⟩
end

theorem XKids.wfAttrsB_appendE : ∀ {l : XKids} {x : XElem},
    l.wfAttrsB = true → x.wfAttrsB = true → (l.appendE x).wfAttrsB = true
  | .nil, x, _, hx => by
    rw [XKids.appendE, XKids.wfAttrsB_cons]
    exact ⟨hx, rfl⟩
  | .cons c cs, x, hl, hx => by
    rw [XKids.wfAttrsB_cons] at hl
    rw [XKids.appendE, XKids.wfAttrsB_cons]
    exact ⟨hl.1, XKids.wfAttrsB_appendE hl.2 hx⟩

theorem XKids.wfAttrsB_insertAt : ∀ {l : XKids} {n : Nat} {x : XElem},
    l.wfAttrsB = true → x.wfAttrsB = true → (l.insertAt n x).wfAttrsB = true
  | l, 0, x, hl, hx => by
    rw [XKids.insertAt, XKids.wfAttrsB_cons]
    exact ⟨hx, hl⟩
  | .nil, _ + 1, x, _, hx => by
    rw [XKids.insertAt, XKids.wfAttrsB_cons]
    exact ⟨hx, rfl⟩
  | .cons c cs, k + 1, x, hl, hx => by
    rw [XKids.wfAttrsB_cons] at hl
    rw [XKids.insertAt, XKids.wfAttrsB_cons]
    exact ⟨hl.1, XKids.wfAttrsB_insertAt hl.2 hx⟩

theorem XKids.wfAttrsB_insertBeforeId : ∀ {l : XKids} {tg : String} {x : XElem},
    l.wfAttrsB = true → x.wfAttrsB = true → (l.insertBeforeId tg x).wfAttrsB = true
  | .nil, _, _, hl, _ => by
    rw [XKids.insertBeforeId]
    exact hl
  | .cons c cs, tg, x, hl, hx => by
    rw [XKids.wfAttrsB_cons] at hl
    rw [XKids.insertBeforeId]
    split
    · rw [XKids.wfAttrsB_cons, XKids.wfAttrsB_cons]
      exact ⟨hx, hl.1, hl.2⟩
    · rw [XKids.wfAttrsB_cons]
      exact ⟨hl.1, XKids.wfAttrsB_insertBeforeId hl.2 hx⟩

theorem XKids.wfAttrsB_eraseById : ∀ {l : XKids} {tg : String},
    l.wfAttrsB = true → (l.eraseById tg).wfAttrsB = true
  | .nil, _, hl => by
    rw [XKids.eraseById]
    exact hl
  | .cons c cs, tg, hl => by
    rw [XKids.wfAttrsB_cons] at hl
    rw [XKids.eraseById]
    split
    · exact hl.2
    · rw [XKids.wfAttrsB_cons]
      exact ⟨hl.1, XKids.wfAttrsB_eraseById hl.2⟩

theorem foldl_setA_wf {eid : String} : ∀ (attrs : List (String × String))
    (acc : List (String × String)),
    (attrKeys acc).Nodup → lookupA acc "id" = some eid →
    (attrKeys (attrs.foldl (fun acc p => if p.1 = "id" then acc else setA acc p.1 p.2)
        acc)).Nodup ∧
      lookupA (attrs.foldl (fun acc p => if p.1 = "id" then acc else setA acc p.1 p.2) acc)
        "id" = some eid
  | [], _, h1, h2 => ⟨h1, h2⟩
  | p :: rest, acc, h1, h2 => by
    rw [List.foldl_cons]
    by_cases hp : p.1 = "id"
    · rw [if_pos hp]
      exact foldl_setA_wf rest acc h1 h2
    · rw [if_neg hp]
      refine foldl_setA_wf rest _ (nodup_attrKeys_setA h1) ?_
      rw [lookupA_setA_ne (fun hq => hp hq.symm)]
      exact h2

theorem newElem_wfAttrsB {tag eid text : String} {attrs : List (String × String)} :
    (newElem tag eid text attrs).wfAttrsB = true := by
  rw [newElem, XElem.wfAttrsB_mk]
  have h := foldl_setA_wf attrs [("id", eid)] (by simp [attrKeys])
    (show lookupA [("id", eid)] "id" = some eid by rw [lookupA_cons]; simp)
  exact ⟨h.1, h.2, rfl⟩

theorem newElem_eid {tag eid text : String} {attrs : List (String × String)} :
    (newElem tag eid text attrs).eid = eid := by
  rw [newElem, XElem.eid]

theorem newElem_ids {tag eid text : String} {attrs : List (String × String)} :
    (newElem tag eid text attrs).ids = [eid] := by
  rw [newElem, XElem.ids, XKids.ids]

/-! ## Key-list bookkeeping lemmas -/

theorem foldl_erase_sublist : ∀ (xs : List String) (ks : List String),
    List.Sublist (xs.foldl (fun l i => l.erase i) ks) ks
  | [], ks => List.Sublist.refl ks
  | x :: rest, ks => by
    rw [List.foldl_cons]
    exact (foldl_erase_sublist rest (ks.erase x)).trans (List.erase_sublist x ks)

theorem perm_foldl_erase : ∀ (xs : List String) {k1 k2 : List String},
    List.Perm k1 k2 →
    List.Perm (xs.foldl (fun l i => l.erase i) k1) (xs.foldl (fun l i => l.erase i) k2)
  | [], _, _, h => h
  | x :: rest, k1, k2, h => by
    rw [List.foldl_cons, List.foldl_cons]
    exact perm_foldl_erase rest (h.erase x)

theorem foldl_erase_front : ∀ (xs : List String) (z : List String),
    (xs.foldl (fun l i => l.erase i) (xs ++ z)) = z
  | [], z => rfl
  | x :: rest, z => by
    rw [List.cons_append, List.foldl_cons, List.erase_cons_head]
    exact foldl_erase_front rest z

theorem foldl_dictAdd_fresh : ∀ (xs : List String) (z : List String),
    xs.Nodup → (∀ i ∈ xs, i ∉ z) → (xs.foldl dictAdd z) = z ++ xs
  | [], z, _, _ => by simp
  | x :: rest, z, hnd, hf => by
    rw [List.foldl_cons, dictAdd, if_neg (hf x (List.mem_cons_self x rest))]
    rw [foldl_dictAdd_fresh rest (z ++ [x]) (List.nodup_cons.mp hnd).2 ?_]
    · simp
    · intro i hi
      rw [List.mem_append]
      rintro (h1 | h1)
      · exact hf i (List.mem_cons_of_mem x hi) h1
      · have hix : i = x := by simpa using h1
        apply (List.nodup_cons.mp hnd).1
        rw [← hix]
        exact hi

theorem not_mem_foldl_erase : ∀ (xs : List String) (ks : List String) (x : String),
    ks.Nodup → x ∈ xs → x ∉ xs.foldl (fun l i => l.erase i) ks
  | [], _, _, _, hx => by cases hx
  | y :: rest, ks, x, hnd, hx => by
    rw [List.foldl_cons]
    by_cases hxy : x = y
    · intro hmem
      have hsub := foldl_erase_sublist rest (ks.erase y)
      have : x ∈ ks.erase y := hsub.mem hmem
      rw [hxy] at this
      exact (List.Nodup.not_mem_erase hnd) this
    · rcases List.mem_cons.mp hx with h1 | h1
      · exact absurd h1 hxy
      · exact not_mem_foldl_erase rest (ks.erase y) x (hnd.erase y) h1

theorem erase_fold_append_perm : ∀ (xs : List String) (ks : List String),
    ks.Nodup → xs.Nodup → (∀ x ∈ xs, x ∈ ks) →
    List.Perm ((xs.foldl (fun l i => l.erase i) ks) ++ xs) ks
  | [], ks, _, _, _ => by simp
  | x :: rest, ks, hndk, hndx, hsub => by
    rw [List.foldl_cons]
    have hxk : x ∈ ks := hsub x (List.mem_cons_self x rest)
    have ihr := erase_fold_append_perm rest (ks.erase x) (hndk.erase x)
      (List.nodup_cons.mp hndx).2
      (fun i hi => (List.mem_erase_of_ne
          (fun hq => (List.nodup_cons.mp hndx).1 (by rw [← hq]; exact hi))).mpr
        (hsub i (List.mem_cons_of_mem x hi)))
    exact List.perm_middle.trans ((ihr.cons x).trans (List.perm_cons_erase hxk).symm)

theorem keys_delete_restore (xs : List String) (ks : List String)
    (hndk : ks.Nodup) (hndx : xs.Nodup) (hsub : ∀ x ∈ xs, x ∈ ks) :
    List.Perm (xs.foldl dictAdd (xs.foldl (fun l i => l.erase i) ks)) ks := by
  rw [foldl_dictAdd_fresh xs _ hndx (fun i hi => not_mem_foldl_erase xs ks i hndk hi)]
  exact erase_fold_append_perm xs ks hndk hndx hsub

/-! ## Node accessor lemmas -/

theorem XElem.withKids_eid {e : XElem} {cs : XKids} : (e.withKids cs).eid = e.eid := by
  cases e
  rw [XElem.withKids, XElem.eid, XElem.eid]

theorem XElem.withText_eid {e : XElem} {tx : String} : (e.withText tx).eid = e.eid := by
  cases e
  rw [XElem.withText, XElem.eid, XElem.eid]

theorem XElem.withAttrs_eid {e : XElem} {a : List (String × String)} :
    (e.withAttrs a).eid = e.eid := by
  cases e
  rw [XElem.withAttrs, XElem.eid, XElem.eid]

theorem XElem.renameTo_eid {e : XElem} {k : String} : (e.renameTo k).eid = k := by
  cases e
  rw [XElem.renameTo, XElem.eid]

theorem XElem.withKids_self {e : XElem} : e.withKids e.children = e := by
  cases e
  rw [XElem.children, XElem.withKids]

theorem XElem.withKids_children {e : XElem} {cs : XKids} :
    (e.withKids cs).children = cs := by
  cases e
  rw [XElem.withKids, XElem.children]

theorem XElem.ids_eq {e : XElem} : e.ids = e.eid :: e.children.ids := by
  cases e
  rw [XElem.ids, XElem.eid, XElem.children]

theorem XElem.ids_withKids {e : XElem} {cs : XKids} :
    (e.withKids cs).ids = e.eid :: cs.ids := by
  cases e
  rw [XElem.withKids, XElem.ids, XElem.eid]

theorem XElem.ids_withText {e : XElem} {tx : String} : (e.withText tx).ids = e.ids := by
  cases e
  rw [XElem.withText, XElem.ids, XElem.ids]

theorem XElem.ids_withAttrs {e : XElem} {a : List (String × String)} :
    (e.withAttrs a).ids = e.ids := by
  cases e
  rw [XElem.withAttrs, XElem.ids, XElem.ids]

theorem XElem.ids_renameTo {e : XElem} {k : String} :
    (e.renameTo k).ids = k :: e.children.ids := by
  cases e
  rw [XElem.renameTo, XElem.ids, XElem.children]

theorem XElem.attrs_withAttrs {e : XElem} {a : List (String × String)} :
    (e.withAttrs a).attrs = a := by
  cases e
  rw [XElem.withAttrs, XElem.attrs]

theorem XElem.attrs_renameTo {e : XElem} {k : String} : (e.renameTo k).attrs = e.attrs := by
  cases e
  rw [XElem.renameTo, XElem.attrs, XElem.attrs]

theorem XElem.attrs_withKids {e : XElem} {cs : XKids} : (e.withKids cs).attrs = e.attrs := by
  cases e
  rw [XElem.withKids, XElem.attrs, XElem.attrs]

/-- Under the id-index invariant, the id_map lookup agrees with the tree
search. -/
theorem XmlModel.getElem_eq_findById {m : XmlModel} (hwf : wfX m) (i : String) :
    m.getElem i = m.root.findById i := by
  rw [XmlModel.getElem]
  by_cases h : i ∈ m.idKeys
  · rw [if_pos h]
  · rw [if_neg h, XElem.findById_none]
    intro hm
    exact h (hwf.2.1.mem_iff.mpr hm)

/-- A failed execute leaves the tree model exactly as it was: every raise
in the xml commands happens before any mutation. -/
theorem execXml_error_eq {c : XmlCmd} {m m2 : XmlModel} {err : EdError}
    (h : execXml c m = (m2, .error err)) : m2 = m := by
  cases c with
  | insertBefore tag newId targetId text attrs pcap =>
    rw [execXml] at h
    split at h
    · exact (Prod.mk.injEq .. ▸ h).1.symm
    · split at h
      · exact (Prod.mk.injEq .. ▸ h).1.symm
      · split at h
        · exact (Prod.mk.injEq .. ▸ h).1.symm
        · simp at h
  | appendChild tag newId parentId text attrs pcap =>
    rw [execXml] at h
    split at h
    · exact (Prod.mk.injEq .. ▸ h).1.symm
    · split at h
      · exact (Prod.mk.injEq .. ▸ h).1.symm
      · simp at h
  | editId oldId newId done =>
    rw [execXml] at h
    split at h
    · exact (Prod.mk.injEq .. ▸ h).1.symm
    · split at h
      · exact (Prod.mk.injEq .. ▸ h).1.symm
      · simp at h
  | editText elemId newText oldText =>
    rw [execXml] at h
    split at h
    · exact (Prod.mk.injEq .. ▸ h).1.symm
    · simp at h
  | deleteElem elemId pay =>
    rw [execXml] at h
    split at h
    · exact (Prod.mk.injEq .. ▸ h).1.symm
    · split at h
      · exact (Prod.mk.injEq .. ▸ h).1.symm
      · split at h
        · exact (Prod.mk.injEq .. ▸ h).1.symm
        · simp at h
  | setAttr elemId name value pay =>
    rw [execXml] at h
    split at h
    · exact (Prod.mk.injEq .. ▸ h).1.symm
    · split at h
      · exact (Prod.mk.injEq .. ▸ h).1.symm
      · simp at h
  | removeAttr elemId name oldVal =>
    rw [execXml] at h
    split at h
    · exact (Prod.mk.injEq .. ▸ h).1.symm
    · split at h
      · exact (Prod.mk.injEq .. ▸ h).1.symm
      · split at h
        · exact (Prod.mk.injEq .. ▸ h).1.symm
        · simp at h
  | appendRoot tag newId text attrs pay =>
    rw [execXml] at h
    split at h
    · exact (Prod.mk.injEq .. ▸ h).1.symm
    · split at h
      · exact (Prod.mk.injEq .. ▸ h).1.symm
      · split at h
        · exact (Prod.mk.injEq .. ▸ h).1.symm
        · simp at h

/-! ## Inversion of successful executes -/

theorem insertBefore_ok {tag newId targetId text : String} {attrs : List (String × String)}
    {pc : Option String} {m m2 : XmlModel} {c2 : XmlCmd}
    (h : execXml (.insertBefore tag newId targetId text attrs pc) m = (m2, .ok c2)) :
    newId ∉ m.idKeys ∧ ∃ el p, m.getElem targetId = some el ∧
      m.root.findParent targetId = some p ∧
      m2 = ⟨m.root.updateById p.eid
          (fun n => n.withKids (n.children.insertBeforeId targetId
            (newElem tag newId text attrs))),
        dictAdd m.idKeys newId, true⟩ ∧
      c2 = .insertBefore tag newId targetId text attrs (some p.eid) := by
  rw [execXml] at h
  split at h
  · simp at h
  rename_i hnew
  split at h
  · simp at h
  rename_i el hel
  split at h
  · simp at h
  rename_i p hp
  simp only [Prod.mk.injEq, Except.ok.injEq] at h
  exact ⟨hnew, el, p, hel, hp, h.1.symm, h.2.symm⟩

theorem appendChild_ok {tag newId parentId text : String} {attrs : List (String × String)}
    {pc : Option String} {m m2 : XmlModel} {c2 : XmlCmd}
    (h : execXml (.appendChild tag newId parentId text attrs pc) m = (m2, .ok c2)) :
    newId ∉ m.idKeys ∧ ∃ p, m.getElem parentId = some p ∧
      m2 = ⟨m.root.updateById p.eid
          (fun n => n.withKids (n.children.appendE (newElem tag newId text attrs))),
        dictAdd m.idKeys newId, true⟩ ∧
      c2 = .appendChild tag newId parentId text attrs (some p.eid) := by
  rw [execXml] at h
  split at h
  · simp at h
  rename_i hnew
  split at h
  · simp at h
  rename_i p hp
  simp only [Prod.mk.injEq, Except.ok.injEq] at h
  exact ⟨hnew, p, hp, h.1.symm, h.2.symm⟩

theorem editId_ok {oldId newId : String} {done : Bool} {m m2 : XmlModel} {c2 : XmlCmd}
    (h : execXml (.editId oldId newId done) m = (m2, .ok c2)) :
    newId ∉ m.idKeys ∧ ∃ el, m.getElem oldId = some el ∧
      m2 = ⟨m.root.updateById oldId
          (fun n => (n.withAttrs (setA n.attrs "id" newId)).renameTo newId),
        dictAdd (m.idKeys.erase oldId) newId, true⟩ ∧
      c2 = .editId oldId newId true := by
  rw [execXml] at h
  split at h
  · simp at h
  rename_i el hel
  split at h
  · simp at h
  rename_i hnew
  simp only [Prod.mk.injEq, Except.ok.injEq] at h
  exact ⟨hnew, el, hel, h.1.symm, h.2.symm⟩

theorem editText_ok {elemId newText : String} {ot : Option String} {m m2 : XmlModel}
    {c2 : XmlCmd}
    (h : execXml (.editText elemId newText ot) m = (m2, .ok c2)) :
    ∃ el, m.getElem elemId = some el ∧
      m2 = ⟨m.root.updateById elemId (fun n => n.withText newText), m.idKeys, true⟩ ∧
      c2 = .editText elemId newText (some el.text) := by
  rw [execXml] at h
  split at h
  · simp at h
  rename_i el hel
  simp only [Prod.mk.injEq, Except.ok.injEq] at h
  exact ⟨el, hel, h.1.symm, h.2.symm⟩

theorem deleteElem_ok {elemId : String} {pay : Option (XElem × String × Nat)}
    {m m2 : XmlModel} {c2 : XmlCmd}
    (h : execXml (.deleteElem elemId pay) m = (m2, .ok c2)) :
    ∃ el p, m.getElem elemId = some el ∧ ¬ (el = m.root) ∧
      m.root.findParent elemId = some p ∧
      m2 = ⟨m.root.updateById p.eid (fun n => n.withKids (n.children.eraseById elemId)),
        el.ids.foldl (fun ks i => ks.erase i) m.idKeys, true⟩ ∧
      c2 = .deleteElem elemId (some (el, p.eid, p.children.idxOfId elemId)) := by
  rw [execXml] at h
  split at h
  · simp at h
  rename_i el hel
  split at h
  · simp at h
  rename_i hroot
  split at h
  · simp at h
  rename_i p hp
  simp only [Prod.mk.injEq, Except.ok.injEq] at h
  exact ⟨el, p, hel, hroot, hp, h.1.symm, h.2.symm⟩

theorem setAttr_ok {elemId name value : String} {pay : Option (Option String)}
    {m m2 : XmlModel} {c2 : XmlCmd}
    (h : execXml (.setAttr elemId name value pay) m = (m2, .ok c2)) :
    ∃ el, m.getElem elemId = some el ∧ ¬ (name = "id") ∧
      m2 = ⟨m.root.updateById elemId (fun n => n.withAttrs (setA n.attrs name value)),
        m.idKeys, true⟩ ∧
      c2 = .setAttr elemId name value (some (lookupA el.attrs name)) := by
  rw [execXml] at h
  split at h
  · simp at h
  rename_i el hel
  split at h
  · simp at h
  rename_i hname
  simp only [Prod.mk.injEq, Except.ok.injEq] at h
  exact ⟨el, hel, hname, h.1.symm, h.2.symm⟩

theorem removeAttr_ok {elemId name : String} {ov : Option String}
    {m m2 : XmlModel} {c2 : XmlCmd}
    (h : execXml (.removeAttr elemId name ov) m = (m2, .ok c2)) :
    ∃ el v, m.getElem elemId = some el ∧ ¬ (name = "id") ∧
      lookupA el.attrs name = some v ∧
      m2 = ⟨m.root.updateById elemId (fun n => n.withAttrs (delA n.attrs name)),
        m.idKeys, true⟩ ∧
      c2 = .removeAttr elemId name (some v) := by
  rw [execXml] at h
  split at h
  · simp at h
  rename_i el hel
  split at h
  · simp at h
  rename_i hname
  split at h
  · simp at h
  rename_i v hv
  simp only [Prod.mk.injEq, Except.ok.injEq] at h
  exact ⟨el, v, hel, hname, hv, h.1.symm, h.2.symm⟩

theorem appendRoot_ok {tag newId text : String} {attrs : List (String × String)}
    {pay : Option (XElem × List String)} {m m2 : XmlModel} {c2 : XmlCmd}
    (h : execXml (.appendRoot tag newId text attrs pay) m = (m2, .ok c2)) :
    ¬ (m.root.children.length > 0) ∧ ¬ (m.root.tag ≠ "root" ∨ m.root.eid ≠ "root") ∧
      ¬ (newId ∈ m.idKeys ∧ newId ≠ "root") ∧
      m2 = ⟨newElem tag newId text attrs, [newId], true⟩ ∧
      c2 = .appendRoot tag newId text attrs (some (m.root, m.idKeys)) := by
  rw [execXml] at h
  split at h
  · simp at h
  rename_i h1
  split at h
  · simp at h
  rename_i h2
  split at h
  · simp at h
  rename_i h3
  simp only [Prod.mk.injEq, Except.ok.injEq] at h
  exact ⟨h1, h2, h3, h.1.symm, h.2.symm⟩

/-! ## Round-trip lemmas: execute then undo -/

theorem updateById_cancel {tg : String} {f g : XElem → XElem} {root r : XElem}
    (hfe : ∀ n, n.eid = tg → (f n).eid = tg)
    (hfind : root.findById tg = some r)
    (hgf : g (f r) = r) :
    (root.updateById tg f).updateById tg g = root := by
  rw [XElem.updateById_comp root hfe]
  rw [XElem.updateById_congr root hfind (g := fun n => n) hgf]
  exact XElem.updateById_id root tg

theorem dictAdd_erase {ks : List String} {i : String} (h : i ∉ ks) :
    (dictAdd ks i).erase i = ks := by
  rw [dictAdd, if_neg h, List.erase_append_right _ h, List.erase_cons_head, List.append_nil]

theorem XElem.withKids_withKids {e : XElem} {a b : XKids} :
    (e.withKids a).withKids b = e.withKids b := by
  cases e
  rw [XElem.withKids, XElem.withKids, XElem.withKids]

theorem XElem.withText_withText {e : XElem} {a b : String} :
    (e.withText a).withText b = e.withText b := by
  cases e
  rw [XElem.withText, XElem.withText, XElem.withText]

theorem XElem.withText_self {e : XElem} : e.withText e.text = e := by
  cases e
  rw [XElem.text, XElem.withText]

theorem XElem.withAttrs_withAttrs {e : XElem} {a b : List (String × String)} :
    (e.withAttrs a).withAttrs b = e.withAttrs b := by
  cases e
  rw [XElem.withAttrs, XElem.withAttrs, XElem.withAttrs]

theorem XElem.withAttrs_self {e : XElem} : e.withAttrs e.attrs = e := by
  cases e
  rw [XElem.attrs, XElem.withAttrs]

theorem XElem.text_withText {e : XElem} {a : String} : (e.withText a).text = a := by
  cases e
  rw [XElem.withText, XElem.text]

theorem delA_not_mem {a : List (String × String)} {k : String}
    (h : k ∉ attrKeys a) : delA a k = a := by
  rw [delA, List.filter_eq_self]
  intro p hp
  simp only [decide_eq_true_eq]
  intro hq
  exact h (by rw [attrKeys, ← hq]; exact List.mem_map_of_mem Prod.fst hp)

theorem XmlModel.getElem_mem {m : XmlModel} {i : String} {el : XElem}
    (h : m.getElem i = some el) : i ∈ m.idKeys := by
  rw [XmlModel.getElem] at h
  by_cases hm : i ∈ m.idKeys
  · exact hm
  · rw [if_neg hm] at h
    cases h

theorem XmlModel.getElem_findById {m : XmlModel} {i : String} {el : XElem}
    (hwf : wfX m) (h : m.getElem i = some el) : m.root.findById i = some el := by
  rw [XmlModel.getElem_eq_findById hwf] at h
  exact h

theorem wf_nodup_keys {m : XmlModel} (hwf : wfX m) : m.idKeys.Nodup :=
  hwf.2.1.symm.nodup hwf.1

theorem wf_not_mem_ids {m : XmlModel} {i : String} (hwf : wfX m) (h : i ∉ m.idKeys) :
    i ∉ m.root.ids := fun hm => h (hwf.2.1.mem_iff.mpr hm)

theorem not_hasTop_children {p root : XElem} {i tg : String}
    (hfind : root.findById tg = some p) (h : i ∉ root.ids) :
    p.children.hasTop i = false := by
  apply XKids.hasTop_false_of_not_mem
  intro hm
  apply h
  apply XElem.findById_ids_sub root hfind
  rw [XElem.ids_eq]
  exact List.mem_cons_of_mem _ hm

theorem XElem.wfAttrs_parts {el : XElem} (h : el.wfAttrsB = true) :
    (attrKeys el.attrs).Nodup ∧ lookupA el.attrs "id" = some el.eid := by
  cases el with
  | mk t i a tx cs =>
    rw [XElem.wfAttrsB_mk] at h
    exact ⟨h.1, by rw [XElem.attrs, XElem.eid]; exact h.2.1⟩

theorem XKids.eraseById_insertBeforeId_eq {l : XKids} {tg i : String} {x : XElem}
    (hi : x.eid = i) (h : l.hasTop i = false) : (l.insertBeforeId tg x).eraseById i = l := by
  subst hi
  exact XKids.eraseById_insertBeforeId h

theorem XKids.eraseById_appendE_eq {l : XKids} {i : String} {x : XElem}
    (hi : x.eid = i) (h : l.hasTop i = false) : (l.appendE x).eraseById i = l := by
  subst hi
  exact XKids.eraseById_appendE h

theorem insertBefore_roundtrip {tag newId targetId text : String}
    {attrs : List (String × String)} {pc : Option String} {m m2 : XmlModel} {c2 : XmlCmd}
    (hwf : wfX m)
    (h : execXml (.insertBefore tag newId targetId text attrs pc) m = (m2, .ok c2)) :
    (undoXml c2 m2).root = m.root ∧ (undoXml c2 m2).idKeys = m.idKeys ∧
      (undoXml c2 m2).modified = true := by
  obtain ⟨hnew, el, p, hel, hp, hm2, hc2⟩ := insertBefore_ok h
  subst hm2; subst hc2
  obtain ⟨_, _, hfp⟩ := XElem.findParent_found m.root hwf.1 hp
  simp only [undoXml]
  refine ⟨?_, dictAdd_erase hnew, trivial⟩
  apply updateById_cancel (fun n hn => XElem.withKids_eid.trans hn) hfp
  rw [XElem.withKids_children, XElem.withKids_withKids]
  rw [XKids.eraseById_insertBeforeId_eq newElem_eid
    (not_hasTop_children hfp (wf_not_mem_ids hwf hnew))]
  exact XElem.withKids_self

theorem appendChild_roundtrip {tag newId parentId text : String}
    {attrs : List (String × String)} {pc : Option String} {m m2 : XmlModel} {c2 : XmlCmd}
    (hwf : wfX m)
    (h : execXml (.appendChild tag newId parentId text attrs pc) m = (m2, .ok c2)) :
    (undoXml c2 m2).root = m.root ∧ (undoXml c2 m2).idKeys = m.idKeys ∧
      (undoXml c2 m2).modified = true := by
  obtain ⟨hnew, p, hel, hm2, hc2⟩ := appendChild_ok h
  subst hm2; subst hc2
  have hfind : m.root.findById parentId = some p := XmlModel.getElem_findById hwf hel
  have hfp : m.root.findById p.eid = some p := by
    rw [XElem.findById_eid m.root hfind]
    exact hfind
  simp only [undoXml]
  refine ⟨?_, dictAdd_erase hnew, trivial⟩
  apply updateById_cancel (fun n hn => XElem.withKids_eid.trans hn) hfp
  rw [XElem.withKids_children, XElem.withKids_withKids]
  rw [XKids.eraseById_appendE_eq newElem_eid
    (not_hasTop_children hfp (wf_not_mem_ids hwf hnew))]
  exact XElem.withKids_self

theorem editText_roundtrip {elemId newText : String} {ot : Option String}
    {m m2 : XmlModel} {c2 : XmlCmd}
    (hwf : wfX m)
    (h : execXml (.editText elemId newText ot) m = (m2, .ok c2)) :
    (undoXml c2 m2).root = m.root ∧ (undoXml c2 m2).idKeys = m.idKeys ∧
      (undoXml c2 m2).modified = true := by
  obtain ⟨el, hel, hm2, hc2⟩ := editText_ok h
  subst hm2; subst hc2
  have hfind : m.root.findById elemId = some el := XmlModel.getElem_findById hwf hel
  simp only [undoXml]
  refine ⟨?_, trivial, trivial⟩
  apply updateById_cancel (fun n hn => XElem.withText_eid.trans hn) hfind
  rw [XElem.withText_withText, XElem.withText_self]

theorem setAttr_roundtrip {elemId name value : String} {pay : Option (Option String)}
    {m m2 : XmlModel} {c2 : XmlCmd}
    (hwf : wfX m)
    (h : execXml (.setAttr elemId name value pay) m = (m2, .ok c2)) :
    (undoXml c2 m2).root = m.root ∧ (undoXml c2 m2).idKeys = m.idKeys ∧
      (undoXml c2 m2).modified = true := by
  obtain ⟨el, hel, hname, hm2, hc2⟩ := setAttr_ok h
  subst hm2; subst hc2
  have hfind : m.root.findById elemId = some el := XmlModel.getElem_findById hwf hel
  have hwfel := XElem.wfAttrs_parts (XElem.wfAttrsB_findById m.root hwf.2.2 hfind)
  cases hlk : lookupA el.attrs name with
  | some v =>
    simp only [undoXml]
    refine ⟨?_, trivial, trivial⟩
    apply updateById_cancel (fun n hn => XElem.withAttrs_eid.trans hn) hfind
    rw [XElem.attrs_withAttrs, XElem.withAttrs_withAttrs, setA_setA,
      setA_self hwfel.1 hlk, XElem.withAttrs_self]
  | none =>
    simp only [undoXml]
    refine ⟨?_, trivial, trivial⟩
    apply updateById_cancel (fun n hn => XElem.withAttrs_eid.trans hn) hfind
    have hmem : name ∈ attrKeys (el.withAttrs (setA el.attrs name value)).attrs := by
      rw [XElem.attrs_withAttrs]
      exact mem_of_lookupA_some lookupA_setA_self
    rw [if_pos hmem, XElem.attrs_withAttrs, XElem.withAttrs_withAttrs]
    have hnm : name ∉ attrKeys el.attrs := lookupA_none_iff.mp hlk
    rw [show setA el.attrs name value = el.attrs ++ [(name, value)] from by
      rw [setA, if_neg hnm]]
    rw [delA_append_single, delA_not_mem hnm, XElem.withAttrs_self]

theorem findById_ids_nodup {root r : XElem} {tg : String}
    (hnd : root.ids.Nodup) (hfind : root.findById tg = some r) : r.ids.Nodup := by
  obtain ⟨pre, post, h1, _⟩ := XElem.ids_updateById (f := fun n => n) root hfind
  rw [h1] at hnd
  exact (hnd.of_append_left).of_append_right

theorem deleteElem_roundtrip {elemId : String} {pay : Option (XElem × String × Nat)}
    {m m2 : XmlModel} {c2 : XmlCmd}
    (hwf : wfX m)
    (h : execXml (.deleteElem elemId pay) m = (m2, .ok c2)) :
    (undoXml c2 m2).root = m.root ∧ List.Perm (undoXml c2 m2).idKeys m.idKeys ∧
      (undoXml c2 m2).modified = true := by
  obtain ⟨el, p, hel, hroot, hp, hm2, hc2⟩ := deleteElem_ok h
  subst hm2; subst hc2
  obtain ⟨htop, hfid, hfp⟩ := XElem.findParent_found m.root hwf.1 hp
  have hfel : m.root.findById elemId = some el := XmlModel.getElem_findById hwf hel
  have htf : p.children.topFind elemId = some el := by rw [← hfid]; exact hfel
  simp only [undoXml]
  refine ⟨?_, ?_, trivial⟩
  · apply updateById_cancel (fun n hn => XElem.withKids_eid.trans hn) hfp
    rw [XElem.withKids_children, XElem.withKids_withKids, XKids.insertAt_eraseById htf]
    exact XElem.withKids_self
  · apply keys_delete_restore el.ids m.idKeys (wf_nodup_keys hwf)
      (findById_ids_nodup hwf.1 hfel)
    intro x hx
    exact hwf.2.1.mem_iff.mpr (XElem.findById_ids_sub m.root hfel x hx)

theorem editId_roundtrip {oldId newId : String} {done : Bool}
    {m m2 : XmlModel} {c2 : XmlCmd}
    (hwf : wfX m)
    (h : execXml (.editId oldId newId done) m = (m2, .ok c2)) :
    (undoXml c2 m2).root = m.root ∧ List.Perm (undoXml c2 m2).idKeys m.idKeys ∧
      (undoXml c2 m2).modified = true := by
  obtain ⟨hnew, el, hel, hm2, hc2⟩ := editId_ok h
  subst hm2; subst hc2
  have hfel : m.root.findById oldId = some el := XmlModel.getElem_findById hwf hel
  have hoeid : el.eid = oldId := XElem.findById_eid m.root hfel
  have hwfel := XElem.wfAttrs_parts (XElem.wfAttrsB_findById m.root hwf.2.2 hfel)
  have hnewmem : newId ∉ m.idKeys.erase oldId :=
    fun hmem => hnew ((List.erase_sublist oldId m.idKeys).mem hmem)
  simp only [undoXml, if_true]
  refine ⟨?_, ?_, trivial⟩
  · rw [XElem.updateById_comp2 m.root (fun n _ => XElem.renameTo_eid)
      (wf_not_mem_ids hwf hnew)]
    rw [XElem.updateById_congr m.root hfel (g := fun n => n) ?_]
    · exact XElem.updateById_id m.root oldId
    · cases el with
      | mk t i a tx cs =>
        rw [XElem.eid] at hoeid
        subst hoeid
        simp only [XElem.withAttrs, XElem.renameTo, XElem.attrs]
        rw [setA_setA]
        simp only [XElem.attrs, XElem.eid] at hwfel
        rw [setA_self hwfel.1 hwfel.2]
  · rw [dictAdd_erase hnewmem, dictAdd]
    rw [if_neg (List.Nodup.not_mem_erase (wf_nodup_keys hwf))]
    have holdmem : oldId ∈ m.idKeys := XmlModel.getElem_mem hel
    exact (List.perm_append_singleton _ _).trans (List.perm_cons_erase holdmem).symm

theorem appendRoot_roundtrip {tag newId text : String} {attrs : List (String × String)}
    {pay : Option (XElem × List String)} {m m2 : XmlModel} {c2 : XmlCmd}
    (h : execXml (.appendRoot tag newId text attrs pay) m = (m2, .ok c2)) :
    (undoXml c2 m2).root = m.root ∧ (undoXml c2 m2).idKeys = m.idKeys ∧
      (undoXml c2 m2).modified = true := by
  obtain ⟨h1, h2, h3, hm2, hc2⟩ := appendRoot_ok h
  subst hm2; subst hc2
  simp only [undoXml]
  exact ⟨trivial, trivial, trivial⟩

/-! ## Dictionary-level tree equality (Python deep equality of the model:
dict comparison is order-insensitive) -/

mutual
/-- Deep equality with Python dict semantics for the attribute maps:
tags, ids, texts and child order must agree exactly; the attribute maps
must agree as dictionaries (here: up to permutation, which for unique
keys is dict equality). -/
def XElem.dictEqB : XElem → XElem → Bool
  | .mk t1 i1 a1 tx1 cs1, .mk t2 i2 a2 tx2 cs2 =>
    decide (t1 = t2) && decide (i1 = i2) && decide (List.Perm a1 a2) &&
      decide (tx1 = tx2) && cs1.dictEqB cs2
def XKids.dictEqB : XKids → XKids → Bool
  | .nil, .nil => true
  | .cons c cs, .cons d ds => c.dictEqB d && cs.dictEqB ds
  | .nil, .cons _ _ => false
  | .cons _ _, .nil => false
end

mutual
theorem XElem.dictEqB_refl : ∀ (e : XElem), e.dictEqB e = true
  | .mk t i a tx cs => by
    rw [XElem.dictEqB]
    simp [List.Perm.refl, XKids.dictEqB_reflK cs]
theorem XKids.dictEqB_reflK : ∀ (l : XKids), l.dictEqB l = true
  | .nil => by rw [XKids.dictEqB]
  | .cons c cs => by
    rw [XKids.dictEqB]
    simp only [Bool.and_eq_true]
    exact ⟨XElem.dictEqB_refl c, XKids.dictEqB_reflK cs⟩
end

theorem XElem.dictEqB_of_attrs_perm {e : XElem} {a : List (String × String)}
    (h : List.Perm a e.attrs) : (e.withAttrs a).dictEqB e = true := by
  cases e with
  | mk t i a2 tx cs =>
    rw [XElem.attrs] at h
    rw [XElem.withAttrs, XElem.dictEqB]
    simp [h, XKids.dictEqB_reflK cs]

mutual
theorem XElem.dictEq_updateById {tg : String} {f : XElem → XElem} (e : XElem) {r : XElem}
    (hfind : e.findById tg = some r) (hfr : (f r).dictEqB r = true) :
    (e.updateById tg f).dictEqB e = true := by
  cases e with
  | mk t i a tx cs =>
    rw [XElem.findById] at hfind
    rw [XElem.updateById]
    split at hfind
    · rename_i hi
      cases hfind
      rw [if_pos hi]
      exact hfr
    · rename_i hi
      rw [if_neg hi, XElem.dictEqB]
      simp [List.Perm.refl, XKids.dictEq_updateByIdK cs hfind hfr]
theorem XKids.dictEq_updateByIdK {tg : String} {f : XElem → XElem} (l : XKids) {r : XElem}
    (hfind : l.findById tg = some r) (hfr : (f r).dictEqB r = true) :
    (l.updateById tg f).dictEqB l = true := by
  cases l with
  | nil => simp [XKids.findById] at hfind
  | cons c cs =>
    rw [XKids.findById] at hfind
    rw [XKids.updateById]
    split at hfind
    · rename_i hc
      rw [if_pos hc, XKids.dictEqB]
      simp only [Bool.and_eq_true]
      exact ⟨XElem.dictEq_updateById c hfind hfr, XKids.dictEqB_reflK cs⟩
    · rename_i hc
      rw [if_neg hc, XKids.dictEqB]
      simp only [Bool.and_eq_true]
      exact ⟨XElem.dictEqB_refl c, XKids.dictEq_updateByIdK cs hfind hfr⟩
end

theorem delA_perm {a : List (String × String)} {k v : String}
    (hnd : (attrKeys a).Nodup) (h : lookupA a k = some v) :
    List.Perm (delA a k ++ [(k, v)]) a := by
  induction a with
  | nil => cases h
  | cons p rest ih =>
    rw [lookupA_cons] at h
    rw [delA_cons]
    have hnd2 : (attrKeys rest).Nodup ∧ p.1 ∉ attrKeys rest := by
      rw [attrKeys, List.map_cons, List.nodup_cons] at hnd
      exact ⟨hnd.2, hnd.1⟩
    by_cases hp : p.1 = k
    · rw [if_pos hp] at h ⊢
      cases h
      rw [delA_not_mem (by rw [← hp]; exact hnd2.2)]
      have : p = (k, p.2) := by
        rw [← hp]
      rw [this]
      exact List.perm_append_singleton _ _
    · rw [if_neg hp] at h ⊢
      rw [List.cons_append]
      exact (ih hnd2.1 h).cons p

theorem removeAttr_roundtrip {elemId name : String} {ov : Option String}
    {m m2 : XmlModel} {c2 : XmlCmd}
    (hwf : wfX m)
    (h : execXml (.removeAttr elemId name ov) m = (m2, .ok c2)) :
    (undoXml c2 m2).root.dictEqB m.root = true ∧ (undoXml c2 m2).idKeys = m.idKeys ∧
      (undoXml c2 m2).modified = true := by
  obtain ⟨el, v, hel, hname, hv, hm2, hc2⟩ := removeAttr_ok h
  subst hm2; subst hc2
  have hfind : m.root.findById elemId = some el := XmlModel.getElem_findById hwf hel
  have hwfel := XElem.wfAttrs_parts (XElem.wfAttrsB_findById m.root hwf.2.2 hfind)
  simp only [undoXml]
  refine ⟨?_, trivial, trivial⟩
  rw [XElem.updateById_comp m.root (fun n hn => XElem.withAttrs_eid.trans hn)]
  apply XElem.dictEq_updateById m.root hfind
  rw [XElem.attrs_withAttrs, XElem.withAttrs_withAttrs, setA_delA_perm]
  exact XElem.dictEqB_of_attrs_perm (delA_perm hwfel.1 hv)

/-! ## The id-index invariant is preserved by successful executes -/

theorem XElem.children_withAttrs {e : XElem} {a : List (String × String)} :
    (e.withAttrs a).children = e.children := by
  cases e
  rw [XElem.withAttrs, XElem.children, XElem.children]

theorem XElem.children_withText {e : XElem} {tx : String} :
    (e.withText tx).children = e.children := by
  cases e
  rw [XElem.withText, XElem.children, XElem.children]

theorem XElem.ids_update_eq {root r : XElem} {tg : String} {f : XElem → XElem}
    (hfind : root.findById tg = some r) (hfr : (f r).ids = r.ids) :
    (root.updateById tg f).ids = root.ids := by
  obtain ⟨pre, post, h1, h2⟩ := XElem.ids_updateById root hfind
  rw [h1, h2, hfr]

theorem ids_update_perm_swap {root r : XElem} {tg : String} {f : XElem → XElem}
    {gone extra : List String}
    (hfind : root.findById tg = some r)
    (hperm : List.Perm ((f r).ids ++ gone) (r.ids ++ extra)) :
    List.Perm ((root.updateById tg f).ids ++ gone) (root.ids ++ extra) := by
  obtain ⟨pre, post, h1, h2⟩ := XElem.ids_updateById root hfind
  rw [h1, h2]
  simp only [List.append_assoc]
  apply List.Perm.append_left pre
  refine (List.Perm.append_left _ List.perm_append_comm).trans ?_
  rw [← List.append_assoc]
  refine (hperm.append_right post).trans ?_
  rw [List.append_assoc]
  exact List.Perm.append_left _ List.perm_append_comm

theorem XElem.wfAttrsB_withKids {e : XElem} {cs : XKids} (he : e.wfAttrsB = true)
    (hcs : cs.wfAttrsB = true) : (e.withKids cs).wfAttrsB = true := by
  cases e with
  | mk t i a tx cs0 =>
    rw [XElem.wfAttrsB_mk] at he
    rw [XElem.withKids, XElem.wfAttrsB_mk]
    exact ⟨he.1, he.2.1, hcs⟩

theorem XElem.wfAttrsB_children {e : XElem} (he : e.wfAttrsB = true) :
    e.children.wfAttrsB = true := by
  cases e with
  | mk t i a tx cs =>
    rw [XElem.wfAttrsB_mk] at he
    rw [XElem.children]
    exact he.2.2

theorem wfX_parts {m : XmlModel} (hwf : wfX m) :
    m.root.ids.Nodup ∧ List.Perm m.idKeys m.root.ids ∧ m.root.wfAttrsB = true := hwf

theorem XElem.wfAttrsB_withText {e : XElem} {tx : String} (he : e.wfAttrsB = true) :
    (e.withText tx).wfAttrsB = true := by
  cases e with
  | mk t i a tx0 cs =>
    rw [XElem.wfAttrsB_mk] at he
    rw [XElem.withText, XElem.wfAttrsB_mk]
    exact he

theorem XElem.wfAttrsB_withAttrs {e : XElem} {a2 : List (String × String)}
    (he : e.wfAttrsB = true) (h1 : (attrKeys a2).Nodup)
    (h2 : lookupA a2 "id" = some e.eid) : (e.withAttrs a2).wfAttrsB = true := by
  cases e with
  | mk t i a tx cs =>
    rw [XElem.wfAttrsB_mk] at he
    rw [XElem.eid] at h2
    rw [XElem.withAttrs, XElem.wfAttrsB_mk]
    exact ⟨h1, h2, he.2.2⟩

theorem XElem.wfAttrsB_rename {e : XElem} {k : String} (he : e.wfAttrsB = true) :
    ((e.withAttrs (setA e.attrs "id" k)).renameTo k).wfAttrsB = true := by
  cases e with
  | mk t i a tx cs =>
    rw [XElem.wfAttrsB_mk] at he
    rw [XElem.attrs, XElem.withAttrs, XElem.renameTo, XElem.wfAttrsB_mk]
    exact ⟨nodup_attrKeys_setA he.1, lookupA_setA_self, he.2.2⟩

theorem XElem.wfAttrs_nodup {e : XElem} (he : e.wfAttrsB = true) :
    (attrKeys e.attrs).Nodup := by
  cases e with
  | mk t i a tx cs =>
    rw [XElem.wfAttrsB_mk] at he
    rw [XElem.attrs]
    exact he.1

theorem XElem.wfAttrs_id {e : XElem} (he : e.wfAttrsB = true) :
    lookupA e.attrs "id" = some e.eid := by
  cases e with
  | mk t i a tx cs =>
    rw [XElem.wfAttrsB_mk] at he
    rw [XElem.attrs, XElem.eid]
    exact he.2.1

theorem nodup_append_singleton {l : List String} {i : String}
    (hnd : l.Nodup) (hni : i ∉ l) : (l ++ [i]).Nodup := by
  rw [List.nodup_append]
  refine ⟨hnd, List.nodup_singleton i, ?_⟩
  intro x hx hx2
  apply hni
  rw [← List.mem_singleton.mp hx2]
  exact hx

theorem execXml_wf {c : XmlCmd} {m m2 : XmlModel} {c2 : XmlCmd}
    (hwf : wfX m) (h : execXml c m = (m2, .ok c2)) : wfX m2 := by
  cases c with
  | insertBefore tag newId targetId text attrs pc =>
    obtain ⟨hnew, el, p, hel, hp, hm2, _⟩ := insertBefore_ok h
    subst hm2
    obtain ⟨htop, _, hfp⟩ := XElem.findParent_found m.root hwf.1 hp
    have hperm : List.Perm
        ((p.withKids (p.children.insertBeforeId targetId
          (newElem tag newId text attrs))).ids ++ ([] : List String))
        (p.ids ++ [newId]) := by
      rw [List.append_nil, XElem.ids_withKids, XElem.ids_eq, List.cons_append]
      refine List.Perm.cons p.eid ?_
      refine (XKids.ids_insertBeforeId htop).trans ?_
      rw [newElem_ids]
    have hids := ids_update_perm_swap
      (f := fun n => n.withKids (n.children.insertBeforeId targetId
        (newElem tag newId text attrs))) hfp hperm
    rw [List.append_nil] at hids
    have hnd2 := nodup_append_singleton hwf.1 (wf_not_mem_ids hwf hnew)
    refine ⟨hids.symm.nodup hnd2, ?_, ?_⟩
    · show List.Perm (dictAdd m.idKeys newId) _
      rw [dictAdd, if_neg hnew]
      exact (hwf.2.1.append_right [newId]).trans hids.symm
    · exact XElem.wfAttrsB_updateById m.root hwf.2.2 (fun n hn =>
        XElem.wfAttrsB_withKids hn
          (XKids.wfAttrsB_insertBeforeId (XElem.wfAttrsB_children hn) newElem_wfAttrsB))
  | appendChild tag newId parentId text attrs pc =>
    obtain ⟨hnew, p, hel, hm2, _⟩ := appendChild_ok h
    subst hm2
    have hfind : m.root.findById parentId = some p := XmlModel.getElem_findById hwf hel
    have hfp : m.root.findById p.eid = some p := by
      rw [XElem.findById_eid m.root hfind]
      exact hfind
    have hperm : List.Perm
        ((p.withKids (p.children.appendE (newElem tag newId text attrs))).ids
          ++ ([] : List String))
        (p.ids ++ [newId]) := by
      rw [List.append_nil, XElem.ids_withKids, XKids.ids_appendE, newElem_ids,
        XElem.ids_eq, List.cons_append]
    have hids := ids_update_perm_swap
      (f := fun n => n.withKids (n.children.appendE (newElem tag newId text attrs)))
      hfp hperm
    rw [List.append_nil] at hids
    have hnd2 := nodup_append_singleton hwf.1 (wf_not_mem_ids hwf hnew)
    refine ⟨hids.symm.nodup hnd2, ?_, ?_⟩
    · show List.Perm (dictAdd m.idKeys newId) _
      rw [dictAdd, if_neg hnew]
      exact (hwf.2.1.append_right [newId]).trans hids.symm
    · exact XElem.wfAttrsB_updateById m.root hwf.2.2 (fun n hn =>
        XElem.wfAttrsB_withKids hn
          (XKids.wfAttrsB_appendE (XElem.wfAttrsB_children hn) newElem_wfAttrsB))
  | editId oldId newId done =>
    obtain ⟨hnew, el, hel, hm2, _⟩ := editId_ok h
    subst hm2
    have holdmem : oldId ∈ m.idKeys := XmlModel.getElem_mem hel
    have hfel : m.root.findById oldId = some el := XmlModel.getElem_findById hwf hel
    have hoeid : el.eid = oldId := XElem.findById_eid m.root hfel
    have hperm : List.Perm
        (((el.withAttrs (setA el.attrs "id" newId)).renameTo newId).ids ++ [oldId])
        (el.ids ++ [newId]) := by
      rw [XElem.ids_renameTo, XElem.children_withAttrs, XElem.ids_eq, hoeid,
        List.cons_append, List.cons_append]
      refine List.Perm.trans (List.Perm.cons newId (List.perm_append_singleton _ _)) ?_
      refine List.Perm.trans (List.Perm.swap oldId newId _) ?_
      exact List.Perm.cons oldId (List.perm_append_singleton _ _).symm
    have hids := ids_update_perm_swap
      (f := fun n => (n.withAttrs (setA n.attrs "id" newId)).renameTo newId) hfel hperm
    have hnd2 := hids.symm.nodup (nodup_append_singleton hwf.1 (wf_not_mem_ids hwf hnew))
    refine ⟨hnd2.of_append_left, ?_, ?_⟩
    · show List.Perm (dictAdd (m.idKeys.erase oldId) newId) _
      rw [dictAdd, if_neg (fun hm => hnew (List.mem_of_mem_erase hm))]
      refine (List.perm_append_right_iff [oldId]).mp ?_
      rw [List.append_assoc]
      refine (List.Perm.append_left _ List.perm_append_comm).trans ?_
      rw [← List.append_assoc]
      refine (List.Perm.append_right [newId]
        ((List.perm_append_singleton _ _).trans (List.perm_cons_erase holdmem).symm)).trans
        ?_
      exact (hwf.2.1.append_right [newId]).trans hids.symm
    · exact XElem.wfAttrsB_updateById m.root hwf.2.2 (fun n hn =>
        XElem.wfAttrsB_rename hn)
  | editText elemId newText ot =>
    obtain ⟨el, hel, hm2, _⟩ := editText_ok h
    subst hm2
    have hfel := XmlModel.getElem_findById hwf hel
    have hids := XElem.ids_update_eq (f := fun n => n.withText newText) hfel
      XElem.ids_withText
    refine ⟨?_, ?_, ?_⟩
    · show (m.root.updateById elemId (fun n => n.withText newText)).ids.Nodup
      rw [hids]
      exact hwf.1
    · show List.Perm m.idKeys (m.root.updateById elemId (fun n => n.withText newText)).ids
      rw [hids]
      exact hwf.2.1
    · exact XElem.wfAttrsB_updateById m.root hwf.2.2 (fun n hn =>
        XElem.wfAttrsB_withText hn)
  | deleteElem elemId pay =>
    obtain ⟨el, p, hel, hroot, hp, hm2, _⟩ := deleteElem_ok h
    subst hm2
    obtain ⟨htop, hft, hfp⟩ := XElem.findParent_found m.root hwf.1 hp
    have htf : p.children.topFind elemId = some el := by
      rw [← hft]
      exact XmlModel.getElem_findById hwf hel
    obtain ⟨pre2, post2, h1, h2⟩ := XKids.ids_eraseById htf
    have hperm : List.Perm
        ((p.withKids (p.children.eraseById elemId)).ids ++ el.ids)
        (p.ids ++ ([] : List String)) := by
      rw [List.append_nil, XElem.ids_withKids, h2, XElem.ids_eq (e := p), h1,
        List.cons_append]
      refine List.Perm.cons p.eid ?_
      simp only [List.append_assoc]
      exact List.Perm.append_left pre2 List.perm_append_comm
    have hids := ids_update_perm_swap
      (f := fun n => n.withKids (n.children.eraseById elemId)) hfp hperm
    rw [List.append_nil] at hids
    have hnd2 := hids.symm.nodup hwf.1
    refine ⟨hnd2.of_append_left, ?_, ?_⟩
    · show List.Perm (el.ids.foldl (fun ks i => ks.erase i) m.idKeys) _
      have hk : List.Perm m.idKeys
          (el.ids ++ (m.root.updateById p.eid
            (fun n => n.withKids (n.children.eraseById elemId))).ids) :=
        hwf.2.1.trans (hids.symm.trans List.perm_append_comm)
      refine (perm_foldl_erase el.ids hk).trans ?_
      rw [foldl_erase_front]
    · exact XElem.wfAttrsB_updateById m.root hwf.2.2 (fun n hn =>
        XElem.wfAttrsB_withKids hn (XKids.wfAttrsB_eraseById (XElem.wfAttrsB_children hn)))
  | setAttr elemId name value pay =>
    obtain ⟨el, hel, hname, hm2, _⟩ := setAttr_ok h
    subst hm2
    have hfel := XmlModel.getElem_findById hwf hel
    have hids := XElem.ids_update_eq (f := fun n => n.withAttrs (setA n.attrs name value))
      hfel XElem.ids_withAttrs
    refine ⟨?_, ?_, ?_⟩
    · show (m.root.updateById elemId
          (fun n => n.withAttrs (setA n.attrs name value))).ids.Nodup
      rw [hids]
      exact hwf.1
    · show List.Perm m.idKeys (m.root.updateById elemId
          (fun n => n.withAttrs (setA n.attrs name value))).ids
      rw [hids]
      exact hwf.2.1
    · refine XElem.wfAttrsB_updateById m.root hwf.2.2 (fun n hn => ?_)
      refine XElem.wfAttrsB_withAttrs hn
        (nodup_attrKeys_setA (XElem.wfAttrs_nodup hn)) ?_
      rw [lookupA_setA_ne (fun hq => hname hq.symm)]
      exact XElem.wfAttrs_id hn
  | removeAttr elemId name ov =>
    obtain ⟨el, v, hel, hname, hv, hm2, _⟩ := removeAttr_ok h
    subst hm2
    have hfel := XmlModel.getElem_findById hwf hel
    have hids := XElem.ids_update_eq (f := fun n => n.withAttrs (delA n.attrs name))
      hfel XElem.ids_withAttrs
    refine ⟨?_, ?_, ?_⟩
    · show (m.root.updateById elemId (fun n => n.withAttrs (delA n.attrs name))).ids.Nodup
      rw [hids]
      exact hwf.1
    · show List.Perm m.idKeys (m.root.updateById elemId
          (fun n => n.withAttrs (delA n.attrs name))).ids
      rw [hids]
      exact hwf.2.1
    · refine XElem.wfAttrsB_updateById m.root hwf.2.2 (fun n hn => ?_)
      refine XElem.wfAttrsB_withAttrs hn
        (nodup_attrKeys_delA (XElem.wfAttrs_nodup hn)) ?_
      rw [lookupA_delA_ne (fun hq => hname hq.symm)]
      exact XElem.wfAttrs_id hn
  | appendRoot tag newId text attrs pay =>
    obtain ⟨_, _, _, hm2, _⟩ := appendRoot_ok h
    subst hm2
    refine ⟨?_, ?_, ?_⟩
    · show (newElem tag newId text attrs).ids.Nodup
      rw [newElem_ids]
      exact List.nodup_singleton newId
    · show List.Perm [newId] (newElem tag newId text attrs).ids
      rw [newElem_ids]
    · exact newElem_wfAttrsB
/-! ## Editor-level invariant machinery: congruence of execute and undo
under reordering of the id_map keys (Python dict comparison ignores
insertion order, and no command reads the key order) -/

theorem wfX_core {a b : XmlModel} (hr : a.root = b.root)
    (hk : List.Perm a.idKeys b.idKeys) (hwf : wfX a) : wfX b := by
  refine ⟨?_, ?_, ?_⟩
  · rw [← hr]
    exact hwf.1
  · rw [← hr]
    exact hk.symm.trans hwf.2.1
  · rw [← hr]
    exact hwf.2.2

theorem dictAdd_perm {k1 k2 : List String} {i : String} (h : List.Perm k1 k2) :
    List.Perm (dictAdd k1 i) (dictAdd k2 i) := by
  by_cases hm : i ∈ k1
  · rw [dictAdd, if_pos hm, dictAdd, if_pos (h.mem_iff.mp hm)]
    exact h
  · rw [dictAdd, if_neg hm, dictAdd, if_neg (fun hx => hm (h.mem_iff.mpr hx))]
    exact h.append_right [i]

theorem foldl_dictAdd_perm : ∀ (xs : List String) {k1 k2 : List String},
    List.Perm k1 k2 → List.Perm (xs.foldl dictAdd k1) (xs.foldl dictAdd k2)
  | [], _, _, h => h
  | x :: rest, k1, k2, h => by
    rw [List.foldl_cons, List.foldl_cons]
    exact foldl_dictAdd_perm rest (dictAdd_perm h)

theorem undoXml_congr {c : XmlCmd} {a b : XmlModel} (hr : a.root = b.root)
    (hk : List.Perm a.idKeys b.idKeys) :
    (undoXml c a).root = (undoXml c b).root ∧
      List.Perm (undoXml c a).idKeys (undoXml c b).idKeys := by
  cases c with
  | insertBefore tag newId targetId text attrs pcap =>
    cases pcap with
    | none => exact ⟨hr, hk⟩
    | some pid =>
      simp only [undoXml]
      exact ⟨by rw [hr], hk.erase newId⟩
  | appendChild tag newId parentId text attrs pcap =>
    cases pcap with
    | none => exact ⟨hr, hk⟩
    | some pid =>
      simp only [undoXml]
      exact ⟨by rw [hr], hk.erase newId⟩
  | editId oldId newId done =>
    cases done with
    | false => exact ⟨hr, hk⟩
    | true =>
      simp only [undoXml, if_true]
      exact ⟨by rw [hr], dictAdd_perm (hk.erase newId)⟩
  | editText elemId newText oldText =>
    cases oldText with
    | none => exact ⟨hr, hk⟩
    | some old =>
      simp only [undoXml]
      exact ⟨by rw [hr], hk⟩
  | deleteElem elemId pay =>
    cases pay with
    | none => exact ⟨hr, hk⟩
    | some p =>
      obtain ⟨el, pid, idx⟩ := p
      simp only [undoXml]
      exact ⟨by rw [hr], foldl_dictAdd_perm el.ids hk⟩
  | setAttr elemId name value pay =>
    cases pay with
    | none => exact ⟨hr, hk⟩
    | some oldv =>
      cases oldv with
      | none =>
        simp only [undoXml]
        exact ⟨by rw [hr], hk⟩
      | some v =>
        simp only [undoXml]
        exact ⟨by rw [hr], hk⟩
  | removeAttr elemId name oldVal =>
    cases oldVal with
    | none => exact ⟨hr, hk⟩
    | some v =>
      simp only [undoXml]
      exact ⟨by rw [hr], hk⟩
  | appendRoot tag newId text attrs pay =>
    cases pay with
    | none => exact ⟨hr, hk⟩
    | some p =>
      obtain ⟨oldRoot, oldKeys⟩ := p
      simp only [undoXml]
      exact ⟨trivial, List.Perm.refl _⟩

/-- The operation surface quantified over by the uniqueness guarantee:
the five structural tree operations (insert-before, append-child,
edit-id, delete-subtree, replace-root). -/
def C2cmd : XmlCmd → Bool
  | .insertBefore .. => true
  | .appendChild .. => true
  | .editId .. => true
  | .deleteElem .. => true
  | .appendRoot .. => true
  | .editText .. => false
  | .setAttr .. => false
  | .removeAttr .. => false

/-- A dispatched action drawn from the guarantee's surface: one of the
five structural operations, an undo, or a redo. -/
def C2act : XAct → Bool
  | .op c => C2cmd c
  | .undo => true
  | .redo => true

theorem roundtrip5 {c : XmlCmd} {m m2 : XmlModel} {c2 : XmlCmd}
    (hc : C2cmd c = true) (hwf : wfX m) (h : execXml c m = (m2, .ok c2)) :
    ((undoXml c2 m2).root = m.root ∧ List.Perm (undoXml c2 m2).idKeys m.idKeys) ∧
      C2cmd c2 = true := by
  cases c with
  | insertBefore tag newId targetId text attrs pc =>
    obtain ⟨hroot, hkeys, _⟩ := insertBefore_roundtrip hwf h
    obtain ⟨_, _, _, _, _, _, hc2⟩ := insertBefore_ok h
    refine ⟨⟨hroot, by rw [hkeys]⟩, ?_⟩
    rw [hc2]
    rfl
  | appendChild tag newId parentId text attrs pc =>
    obtain ⟨hroot, hkeys, _⟩ := appendChild_roundtrip hwf h
    obtain ⟨_, _, _, _, hc2⟩ := appendChild_ok h
    refine ⟨⟨hroot, by rw [hkeys]⟩, ?_⟩
    rw [hc2]
    rfl
  | editId oldId newId done =>
    obtain ⟨hroot, hkeys, _⟩ := editId_roundtrip hwf h
    obtain ⟨_, _, _, _, hc2⟩ := editId_ok h
    refine ⟨⟨hroot, hkeys⟩, ?_⟩
    rw [hc2]
    rfl
  | editText elemId newText ot =>
    rw [C2cmd] at hc
    exact Bool.noConfusion hc
  | deleteElem elemId pay =>
    obtain ⟨hroot, hkeys, _⟩ := deleteElem_roundtrip hwf h
    obtain ⟨_, _, _, _, _, _, hc2⟩ := deleteElem_ok h
    refine ⟨⟨hroot, hkeys⟩, ?_⟩
    rw [hc2]
    rfl
  | setAttr elemId name value pay =>
    rw [C2cmd] at hc
    exact Bool.noConfusion hc
  | removeAttr elemId name ov =>
    rw [C2cmd] at hc
    exact Bool.noConfusion hc
  | appendRoot tag newId text attrs pay =>
    obtain ⟨hroot, hkeys, _⟩ := appendRoot_roundtrip h
    obtain ⟨_, _, _, _, hc2⟩ := appendRoot_ok h
    refine ⟨⟨hroot, by rw [hkeys]⟩, ?_⟩
    rw [hc2]
    rfl

/-- The undo-stack invariant, over the reversed stack (head = most recent
entry): the current model is well-formed, every stacked command is one of
the five structural operations, and the invariant keeps holding as the
stack is unwound by undo. -/
def USR : List XmlCmd → XmlModel → Prop
  | [], m => wfX m
  | c :: rest, m => wfX m ∧ C2cmd c = true ∧ USR rest (undoXml c m)

theorem USR_wf : ∀ {s : List XmlCmd} {m : XmlModel}, USR s m → wfX m
  | [], _, h => h
  | _ :: _, _, h => h.1

theorem USR_congr : ∀ (s : List XmlCmd) {a b : XmlModel},
    a.root = b.root → List.Perm a.idKeys b.idKeys → USR s a → USR s b
  | [], a, b, hr, hk, h => wfX_core hr hk h
  | c :: rest, a, b, hr, hk, h => by
    obtain ⟨hu1, hu2⟩ := undoXml_congr (c := c) hr hk
    exact ⟨wfX_core hr hk h.1, h.2.1, USR_congr rest hu1 hu2 h.2.2⟩

/-- The reachable-state invariant of a tree editor: the undo-stack
invariant holds and every redo-stack entry is one of the five structural
operations. -/
def InvEd (ed : XmlEd) : Prop :=
  USR ed.undoStack.reverse ed.model ∧ ∀ c ∈ ed.redoStack, C2cmd c = true

theorem InvEd_step {ed : XmlEd} {a : XAct} (hinv : InvEd ed) (ha : C2act a = true) :
    InvEd (ed.step a) := by
  cases a with
  | op c =>
    rw [XmlEd.step, XmlEd.execCmd]
    cases hx : execXml c ed.model with
    | mk m2 r =>
      cases r with
      | ok c2 =>
        obtain ⟨hcore, hc2⟩ := roundtrip5 ha (USR_wf hinv.1) hx
        refine ⟨?_, ?_⟩
        · show USR (ed.undoStack ++ [c2]).reverse m2
          rw [List.reverse_append, List.reverse_singleton, List.singleton_append]
          exact ⟨execXml_wf (USR_wf hinv.1) hx, hc2,
            USR_congr _ hcore.1.symm hcore.2.symm hinv.1⟩
        · intro x hx2
          cases hx2
      | error err =>
        have hm2 : m2 = ed.model := execXml_error_eq hx
        subst hm2
        exact hinv
  | undo =>
    rw [XmlEd.step, XmlEd.undoStep]
    cases hl : ed.undoStack.getLast? with
    | none => exact hinv
    | some c =>
      have hrev : ed.undoStack.reverse = c :: ed.undoStack.dropLast.reverse := by
        conv_lhs => rw [← List.dropLast_append_getLast? c hl]
        rw [List.reverse_append, List.reverse_singleton, List.singleton_append]
      have hus := hinv.1
      rw [hrev] at hus
      refine ⟨hus.2.2, ?_⟩
      intro x hx2
      rcases List.mem_append.mp hx2 with hx2 | hx2
      · exact hinv.2 x hx2
      · rw [List.mem_singleton.mp hx2]
        exact hus.2.1
  | redo =>
    rw [XmlEd.step, XmlEd.redoStep]
    cases hl : ed.redoStack.getLast? with
    | none => exact hinv
    | some c =>
      have hcin : C2cmd c = true := by
        refine hinv.2 c ?_
        rw [← List.dropLast_append_getLast? c hl]
        exact List.mem_append.mpr (Or.inr (List.mem_singleton.mpr rfl))
      show InvEd (match execXml c ed.model with
        | (m2, .ok c2) =>
          (XmlEd.mk m2 (ed.undoStack ++ [c2]) ed.redoStack.dropLast, some c2)
        | (m2, .error e) => (XmlEd.mk m2 ed.undoStack ed.redoStack.dropLast, some c)).1
      cases hx : execXml c ed.model with
      | mk m2 r =>
        cases r with
        | ok c2 =>
          obtain ⟨hcore, hc2⟩ := roundtrip5 hcin (USR_wf hinv.1) hx
          refine ⟨?_, ?_⟩
          · show USR (ed.undoStack ++ [c2]).reverse m2
            rw [List.reverse_append, List.reverse_singleton, List.singleton_append]
            exact ⟨execXml_wf (USR_wf hinv.1) hx, hc2,
              USR_congr _ hcore.1.symm hcore.2.symm hinv.1⟩
          · intro x hx2
            exact hinv.2 x ((List.dropLast_sublist ed.redoStack).mem hx2)
        | error err =>
          have hm2 : m2 = ed.model := execXml_error_eq hx
          subst hm2
          refine ⟨hinv.1, ?_⟩
          intro x hx2
          exact hinv.2 x ((List.dropLast_sublist ed.redoStack).mem hx2)

theorem InvEd_run : ∀ (acts : List XAct) {ed : XmlEd}, InvEd ed →
    (∀ a ∈ acts, C2act a = true) → InvEd (ed.run acts)
  | [], ed, hinv, _ => hinv
  | a :: rest, ed, hinv, hacts => by
    rw [XmlEd.run, List.foldl_cons]
    exact InvEd_run rest (InvEd_step hinv (hacts a (List.mem_cons_self a rest)))
      (fun x hx => hacts x (List.mem_cons_of_mem a hx))

theorem InvEd_init : InvEd initXmlEd := by
  refine ⟨?_, ?_⟩
  · show wfX initXmlEd.model
    decide
  · intro x hx2
    cases hx2
/-! ## Redo: undo followed by re-execute restores the post-execute state -/

/-- A freshly built command: the constructor arguments with an empty
undo payload (what CommandParser.parse produces). -/
def XmlCmd.reset : XmlCmd → XmlCmd
  | .insertBefore t n tg tx a _ => .insertBefore t n tg tx a none
  | .appendChild t n p tx a _ => .appendChild t n p tx a none
  | .editId o n _ => .editId o n false
  | .editText e t _ => .editText e t none
  | .deleteElem e _ => .deleteElem e none
  | .setAttr e n v _ => .setAttr e n v none
  | .removeAttr e n _ => .removeAttr e n none
  | .appendRoot t n tx a _ => .appendRoot t n tx a none

theorem execXml_reset (c : XmlCmd) (m : XmlModel) : execXml c.reset m = execXml c m := by
  cases c <;> rfl

theorem XmlModel.getElem_congr {a b : XmlModel} (hr : a.root = b.root)
    (hk : List.Perm a.idKeys b.idKeys) (i : String) : a.getElem i = b.getElem i := by
  rw [XmlModel.getElem, XmlModel.getElem, hr]
  by_cases hm : i ∈ a.idKeys
  · rw [if_pos hm, if_pos (hk.mem_iff.mp hm)]
  · rw [if_neg hm, if_neg (fun hx => hm (hk.mem_iff.mpr hx))]

theorem execXml_congr {c : XmlCmd} {a b : XmlModel} {m2 : XmlModel} {c2 : XmlCmd}
    (hr : a.root = b.root) (hk : List.Perm a.idKeys b.idKeys)
    (h : execXml c a = (m2, .ok c2)) :
    ∃ m3 c3, execXml c b = (m3, .ok c3) ∧ m3.root = m2.root ∧
      List.Perm m3.idKeys m2.idKeys ∧ m3.modified = m2.modified := by
  cases c with
  | insertBefore tag newId targetId text attrs pc =>
    obtain ⟨hnew, el, p, hel, hp, hm2, _⟩ := insertBefore_ok h
    subst hm2
    rw [execXml, if_neg (fun hx => hnew (hk.mem_iff.mpr hx)),
      ← XmlModel.getElem_congr hr hk targetId, hel, ← hr, hp]
    exact ⟨_, _, rfl, rfl, (dictAdd_perm hk).symm, rfl⟩
  | appendChild tag newId parentId text attrs pc =>
    obtain ⟨hnew, p, hel, hm2, _⟩ := appendChild_ok h
    subst hm2
    rw [execXml, if_neg (fun hx => hnew (hk.mem_iff.mpr hx)),
      ← XmlModel.getElem_congr hr hk parentId, hel, ← hr]
    exact ⟨_, _, rfl, rfl, (dictAdd_perm hk).symm, rfl⟩
  | editId oldId newId done =>
    obtain ⟨hnew, el, hel, hm2, _⟩ := editId_ok h
    subst hm2
    rw [execXml, ← XmlModel.getElem_congr hr hk oldId, hel,
      if_neg (fun hx => hnew (hk.mem_iff.mpr hx)), ← hr]
    exact ⟨_, _, rfl, rfl, (dictAdd_perm (hk.erase oldId)).symm, rfl⟩
  | editText elemId newText ot =>
    obtain ⟨el, hel, hm2, _⟩ := editText_ok h
    subst hm2
    rw [execXml, ← XmlModel.getElem_congr hr hk elemId, hel, ← hr]
    exact ⟨_, _, rfl, rfl, hk.symm, rfl⟩
  | deleteElem elemId pay =>
    obtain ⟨el, p, hel, hroot, hp, hm2, _⟩ := deleteElem_ok h
    subst hm2
    rw [execXml, ← XmlModel.getElem_congr hr hk elemId, hel, ← hr]
    split
    · rename_i heq
      exact Option.noConfusion heq
    · rename_i el2 heq
      injection heq with heq2
      subst heq2
      rw [if_neg hroot, hp]
      exact ⟨_, _, rfl, rfl, (perm_foldl_erase el.ids hk).symm, rfl⟩
  | setAttr elemId name value pay =>
    obtain ⟨el, hel, hname, hm2, _⟩ := setAttr_ok h
    subst hm2
    rw [execXml, ← XmlModel.getElem_congr hr hk elemId, hel, ← hr]
    split
    · rename_i heq
      exact Option.noConfusion heq
    · rename_i el2 heq
      injection heq with heq2
      subst heq2
      rw [if_neg hname]
      exact ⟨_, _, rfl, rfl, hk.symm, rfl⟩
  | removeAttr elemId name ov =>
    obtain ⟨el, v, hel, hname, hv, hm2, _⟩ := removeAttr_ok h
    subst hm2
    rw [execXml, ← XmlModel.getElem_congr hr hk elemId, hel, ← hr]
    split
    · rename_i heq
      exact Option.noConfusion heq
    · rename_i el2 heq
      injection heq with heq2
      subst heq2
      rw [if_neg hname, hv]
      exact ⟨_, _, rfl, rfl, hk.symm, rfl⟩
  | appendRoot tag newId text attrs pay =>
    obtain ⟨h1, h2, h3, hm2, _⟩ := appendRoot_ok h
    subst hm2
    rw [execXml, ← hr, if_neg h1, if_neg h2,
      if_neg (fun hx => h3 ⟨hk.mem_iff.mpr hx.1, hx.2⟩)]
    exact ⟨_, _, rfl, rfl, List.Perm.refl _, rfl⟩

/-! ## findById through an ids-preserving rewrite -/

theorem XElem.eid_of_ids {a b : XElem} (h : a.ids = b.ids) : a.eid = b.eid := by
  rw [XElem.ids_eq, XElem.ids_eq] at h
  exact (List.cons_eq_cons.mp h).1

theorem XElem.findById_self {tg : String} (x : XElem) (hx : x.eid = tg) :
    x.findById tg = some x := by
  cases x with
  | mk t i a tx cs =>
    rw [XElem.eid] at hx
    rw [XElem.findById, if_pos hx]

mutual
theorem XElem.ids_updateById_self {tg : String} {f : XElem → XElem}
    (hf : ∀ n, (f n).ids = n.ids) (e : XElem) : (e.updateById tg f).ids = e.ids := by
  cases e with
  | mk t i a tx cs =>
    rw [XElem.updateById]
    split
    · exact hf _
    · rw [XElem.ids, XElem.ids, XKids.ids_updateById_selfK hf cs]
theorem XKids.ids_updateById_selfK {tg : String} {f : XElem → XElem}
    (hf : ∀ n, (f n).ids = n.ids) (l : XKids) : (l.updateById tg f).ids = l.ids := by
  cases l with
  | nil => rw [XKids.updateById]
  | cons c cs =>
    rw [XKids.updateById]
    split
    · rw [XKids.ids, XKids.ids, XElem.ids_updateById_self hf c]
    · rw [XKids.ids, XKids.ids, XKids.ids_updateById_selfK hf cs]
end

mutual
theorem XElem.findById_updateById {tg : String} {f : XElem → XElem}
    (hf : ∀ n, (f n).ids = n.ids) (e : XElem) :
    (e.updateById tg f).findById tg = (e.findById tg).map f := by
  cases e with
  | mk t i a tx cs =>
    rw [XElem.updateById, XElem.findById]
    by_cases hi : i = tg
    · rw [if_pos hi, if_pos hi]
      exact XElem.findById_self _ ((XElem.eid_of_ids (hf _)).trans (by rw [XElem.eid, hi]))
    · rw [if_neg hi, if_neg hi]
      rw [XElem.findById]
      rw [if_neg hi]
      exact XKids.findById_updateByIdK hf cs
theorem XKids.findById_updateByIdK {tg : String} {f : XElem → XElem}
    (hf : ∀ n, (f n).ids = n.ids) (l : XKids) :
    (l.updateById tg f).findById tg = (l.findById tg).map f := by
  cases l with
  | nil =>
    rw [XKids.updateById]
    rfl
  | cons c cs =>
    rw [XKids.updateById]
    by_cases hm : tg ∈ c.ids
    · rw [if_pos hm]
      rw [XKids.findById]
      rw [XElem.ids_updateById_self hf c, if_pos hm]
      rw [XKids.findById]
      rw [if_pos hm]
      exact XElem.findById_updateById hf c
    · rw [if_neg hm]
      rw [XKids.findById]
      rw [if_neg hm]
      rw [XKids.findById]
      rw [if_neg hm]
      exact XKids.findById_updateByIdK hf cs
end

/-! ## Attribute dictionary: delete of a re-inserted key -/

theorem not_mem_attrKeys_delA {a : List (String × String)} {k : String} :
    k ∉ attrKeys (delA a k) := by
  rw [attrKeys_delA]
  intro hm
  have := List.of_mem_filter hm
  simp at this

theorem delA_eq_self {a : List (String × String)} {k : String}
    (h : k ∉ attrKeys a) : delA a k = a := by
  induction a with
  | nil => rfl
  | cons p rest ih =>
    rw [attrKeys, List.map_cons, List.mem_cons] at h
    push_neg at h
    rw [delA_cons, if_neg (fun hq => h.1 hq.symm), ih (by rw [attrKeys]; exact h.2)]

theorem delA_append {x y : List (String × String)} {k : String} :
    delA (x ++ y) k = delA x k ++ delA y k := by
  induction x with
  | nil => rfl
  | cons p rest ih =>
    rw [List.cons_append, delA_cons, delA_cons]
    split
    · exact ih
    · rw [List.cons_append, ih]

theorem delA_setA_cancel {a : List (String × String)} {k v : String} :
    delA (setA (delA a k) k v) k = delA a k := by
  rw [setA, if_neg not_mem_attrKeys_delA, delA_append,
    delA_eq_self not_mem_attrKeys_delA, delA_cons, if_pos rfl]
  simp [delA]

theorem removeAttr_redo {elemId name : String} {ov : Option String} {m m2 : XmlModel}
    {c2 : XmlCmd} (hwf : wfX m)
    (h : execXml (.removeAttr elemId name ov) m = (m2, .ok c2)) :
    execXml c2 (undoXml c2 m2) = (m2, .ok c2) := by
  obtain ⟨el, v, hel, hname, hv, hm2, hc2⟩ := removeAttr_ok h
  subst hm2
  subst hc2
  have hmem : elemId ∈ m.idKeys := XmlModel.getElem_mem hel
  have hfel : m.root.findById elemId = some el := XmlModel.getElem_findById hwf hel
  have hids1 : ∀ n : XElem, (n.withAttrs (delA n.attrs name)).ids = n.ids :=
    fun n => XElem.ids_withAttrs
  have hids2 : ∀ n : XElem, (n.withAttrs (setA n.attrs name v)).ids = n.ids :=
    fun n => XElem.ids_withAttrs
  simp only [undoXml]
  have hf2 : (m.root.updateById elemId
      (fun n => n.withAttrs (delA n.attrs name))).findById elemId =
      some (el.withAttrs (delA el.attrs name)) := by
    rw [XElem.findById_updateById (f := fun n => n.withAttrs (delA n.attrs name))
      hids1 m.root, hfel]
    rfl
  have hf3 : ((m.root.updateById elemId (fun n => n.withAttrs (delA n.attrs name))).updateById
      elemId (fun n => n.withAttrs (setA n.attrs name v))).findById elemId =
      some ((el.withAttrs (delA el.attrs name)).withAttrs
        (setA (el.withAttrs (delA el.attrs name)).attrs name v)) := by
    rw [XElem.findById_updateById (f := fun n => n.withAttrs (setA n.attrs name v))
      hids2 _, hf2]
    rfl
  rw [execXml, XmlModel.getElem]
  rw [if_pos hmem]
  rw [hf3]
  split
  · rename_i heq
    exact Option.noConfusion heq
  · rename_i el2 heq
    injection heq with heq2
    subst heq2
    rw [if_neg hname, XElem.attrs_withAttrs, lookupA_setA_self]
    split
    · rename_i heqv
      exact Option.noConfusion heqv
    · rename_i v2 heqv
      injection heqv with heqv2
      subst heqv2
      refine Prod.ext ?_ rfl
      show XmlModel.mk _ _ _ = XmlModel.mk _ _ _
      rw [XmlModel.mk.injEq]
      refine ⟨?_, rfl, rfl⟩
      rw [XElem.updateById_comp _ (fun n hn => XElem.withAttrs_eid.trans hn)]
      rw [XElem.updateById_comp _ (fun n hn => XElem.withAttrs_eid.trans hn)]
      refine XElem.updateById_congr m.root hfel ?_
      rw [XElem.attrs_withAttrs, XElem.attrs_withAttrs]
      rw [delA_setA_cancel, XElem.withAttrs_withAttrs, XElem.withAttrs_withAttrs]

theorem xml_undo_redo {c : XmlCmd} {m m2 : XmlModel} {c2 : XmlCmd}
    (hwf : wfX m) (h : execXml c m = (m2, .ok c2)) :
    ∃ m3 c3, execXml c2 (undoXml c2 m2) = (m3, .ok c3) ∧ m3.root = m2.root ∧
      List.Perm m3.idKeys m2.idKeys ∧ m3.modified = m2.modified := by
  have hreset : execXml c2 (undoXml c2 m2) = execXml c.reset (undoXml c2 m2) := by
    rw [← execXml_reset c2]
    cases c with
    | insertBefore tag newId targetId text attrs pc =>
      obtain ⟨_, _, _, _, _, _, hc2⟩ := insertBefore_ok h
      rw [hc2]
      rfl
    | appendChild tag newId parentId text attrs pc =>
      obtain ⟨_, _, _, _, hc2⟩ := appendChild_ok h
      rw [hc2]
      rfl
    | editId oldId newId done =>
      obtain ⟨_, _, _, _, hc2⟩ := editId_ok h
      rw [hc2]
      rfl
    | editText elemId newText ot =>
      obtain ⟨_, _, _, hc2⟩ := editText_ok h
      rw [hc2]
      rfl
    | deleteElem elemId pay =>
      obtain ⟨_, _, _, _, _, _, hc2⟩ := deleteElem_ok h
      rw [hc2]
      rfl
    | setAttr elemId name value pay =>
      obtain ⟨_, _, _, _, hc2⟩ := setAttr_ok h
      rw [hc2]
      rfl
    | removeAttr elemId name ov =>
      obtain ⟨_, _, _, _, _, _, hc2⟩ := removeAttr_ok h
      rw [hc2]
      rfl
    | appendRoot tag newId text attrs pay =>
      obtain ⟨_, _, _, _, hc2⟩ := appendRoot_ok h
      rw [hc2]
      rfl
  cases c with
  | removeAttr elemId name ov =>
    obtain ⟨el, v, hel, hname, hv, hm2, _⟩ := removeAttr_ok h
    exact ⟨m2, c2, removeAttr_redo hwf h, rfl, List.Perm.refl _, rfl⟩
  | insertBefore tag newId targetId text attrs pc =>
    obtain ⟨hroot, hkeys, _⟩ := insertBefore_roundtrip hwf h
    rw [hreset, execXml_reset]
    exact execXml_congr hroot.symm (by rw [hkeys]) h
  | appendChild tag newId parentId text attrs pc =>
    obtain ⟨hroot, hkeys, _⟩ := appendChild_roundtrip hwf h
    rw [hreset, execXml_reset]
    exact execXml_congr hroot.symm (by rw [hkeys]) h
  | editId oldId newId done =>
    obtain ⟨hroot, hkeys, _⟩ := editId_roundtrip hwf h
    rw [hreset, execXml_reset]
    exact execXml_congr hroot.symm hkeys.symm h
  | editText elemId newText ot =>
    obtain ⟨hroot, hkeys, _⟩ := editText_roundtrip hwf h
    rw [hreset, execXml_reset]
    exact execXml_congr hroot.symm (by rw [hkeys]) h
  | deleteElem elemId pay =>
    obtain ⟨hroot, hkeys, _⟩ := deleteElem_roundtrip hwf h
    rw [hreset, execXml_reset]
    exact execXml_congr hroot.symm hkeys.symm h
  | setAttr elemId name value pay =>
    obtain ⟨hroot, hkeys, _⟩ := setAttr_roundtrip hwf h
    rw [hreset, execXml_reset]
    exact execXml_congr hroot.symm (by rw [hkeys]) h
  | appendRoot tag newId text attrs pay =>
    obtain ⟨hroot, hkeys, _⟩ := appendRoot_roundtrip h
    rw [hreset, execXml_reset]
    exact execXml_congr hroot.symm (by rw [hkeys]) h
/-! ## The workspace coordinator (src/workspace.py): the editors map, the
active editor, saving, and dispatch.  The editors dict is modeled as an
insertion-ordered association list from file path to editor; the active
editor object is the value stored under the active path, modeled by that
key.  For saving and dispatch only the document kind and the modified
flag of each editor are relevant. -/

/-- The kind of an open editor (TextEditor or XMLEditor, chosen by file
extension in Workspace.load_file). -/
inductive EdKind where
  | text
  | xml
deriving DecidableEq, Repr

/-- The save- and dispatch-relevant state of one open editor. -/
structure WsEditor where
  kind : EdKind
  modified : Bool
deriving DecidableEq, Repr

/-- Python dict lookup on the editors map. -/
def lookupW : List (String × WsEditor) → String → Option WsEditor
  | [], _ => none
  | (k, e) :: rest, fp => if k = fp then some e else lookupW rest fp

/-- Workspace.editors and Workspace.active_editor. -/
structure Workspace where
  editors : List (String × WsEditor)
  active : Option String
deriving DecidableEq, Repr

/-- An emitted observer notification (Subject.notify); only the
command_executed events of the save paths are modeled. -/
inductive WsEvent where
  | commandExecuted (filepath command : String)
deriving DecidableEq, Repr

/-- Editor.save_to_file: writes the serialized content and clears the
modified flag (the write itself is outside the model). -/
def WsEditor.saveToFile (e : WsEditor) : WsEditor := ⟨e.kind, false⟩

/-- Mutate the editor object stored under a path (the dict entry and any
reference to it alias the same object). -/
def saveEntry : List (String × WsEditor) → String → List (String × WsEditor)
  | [], _ => []
  | (k, e) :: rest, fp =>
    if k = fp then (k, e.saveToFile) :: rest else (k, e) :: saveEntry rest fp

/-- Workspace._save_active_file: no active editor is reported as an error
string without an event; otherwise the active editor is saved and one
command_executed event is emitted. -/
def Workspace.saveActiveFile (w : Workspace) : Workspace × List WsEvent :=
  match w.active with
  | none => (w, [])
  | some fp =>
    (⟨saveEntry w.editors fp, w.active⟩, [.commandExecuted fp "save"])

/-- Workspace._save_specific_file: an unopened path is reported as an
error string without an event; otherwise that editor is saved and one
command_executed event is emitted. -/
def Workspace.saveSpecificFile (w : Workspace) (fp : String) : Workspace × List WsEvent :=
  if (lookupW w.editors fp).isSome then
    (⟨saveEntry w.editors fp, w.active⟩, [.commandExecuted fp ("save " ++ fp)])
  else (w, [])

/-- Workspace._save_all_files: an empty editors map is reported as a
message without an event; otherwise every open editor is saved and then
a single command_executed event is emitted when an active editor exists
(one event for the whole loop, not one per file). -/
def Workspace.saveAllFiles (w : Workspace) : Workspace × List WsEvent :=
  if w.editors = [] then (w, [])
  else
    (⟨w.editors.map (fun p => (p.1, p.2.saveToFile)), w.active⟩,
      match w.active with
      | none => []
      | some fp => [.commandExecuted fp "save all"])

/-- Workspace.save_file: dispatch on the target argument; the string
"all" selects the save-all branch, a falsy target (None or the empty
string) selects the active-file branch, any other string selects the
specific-file branch. -/
def Workspace.saveFile (w : Workspace) (target : Option String) : Workspace × List WsEvent :=
  match target with
  | some t => if t = "all" then w.saveAllFiles
      else if t = "" then w.saveActiveFile
      else w.saveSpecificFile t
  | none => w.saveActiveFile

/-! ## Dispatch to the active editor (Workspace.execute_on_active) -/

/-- The attribute names defined on the Editor base class (instance
fields and methods): what hasattr can find on every editor. -/
def editorBaseOps : List String :=
  ["filepath", "modified", "undo_stack", "redo_stack",
   "load_from_file", "save_to_file", "get_content_string",
   "mark_modified", "clear_modified", "is_modified",
   "execute_command", "undo", "redo"]

/-- The attribute names defined on TextEditor. -/
def textEditorOps : List String :=
  editorBaseOps ++
    ["content", "append", "insert", "delete", "replace", "show",
     "check_log_enabled"]

/-- The attribute names defined on XMLEditor. -/
def xmlEditorOps : List String :=
  editorBaseOps ++
    ["root", "id_map", "has_log_line", "log_exclude_commands",
     "_parse_log_config", "check_log_enabled", "parse_log_config",
     "_parse_xml", "_build_element_tree", "_build_id_map", "_add_to_id_map",
     "_serialize_element", "show_tree", "_format_tree_node", "get_element",
     "get_all_text_content", "insert_before", "append_child", "edit_id",
     "edit_text", "delete_element", "set_attribute", "remove_attribute",
     "append_root"]

/-- The class-defined attribute surface of an editor of the given kind
(the names outside it fail the hasattr test of execute_on_active). -/
def EdKind.ops : EdKind → List String
  | .text => textEditorOps
  | .xml => xmlEditorOps

/-- The outcome of Workspace.execute_on_active: the named method is
invoked, or NoActiveEditorException (an EditorException) is raised, or
the builtin AttributeError — a plain reflection failure outside the
editor exception hierarchy — is raised for a name the editor object does
not have. -/
inductive DispatchResult where
  | invoked
  | noActiveEditor
  | attributeError (op : String)
deriving DecidableEq, Repr

/-- The active editor object: the editor stored under the active path. -/
def Workspace.activeEditor (w : Workspace) : Option WsEditor :=
  match w.active with
  | none => none
  | some fp => lookupW w.editors fp

/-- Workspace.execute_on_active: get_active_editor raises
NoActiveEditorException when there is no active editor; then the
operation name is looked up reflectively with hasattr/getattr and a
missing name raises AttributeError. -/
def Workspace.executeOnActive (w : Workspace) (op : String) : DispatchResult :=
  match w.activeEditor with
  | none => .noActiveEditor
  | some e => if op ∈ e.kind.ops then .invoked else .attributeError op

/-! ## Saving: flags cleared and events emitted -/

theorem lookupW_saveEntry_self : ∀ (l : List (String × WsEditor)) (fp : String),
    lookupW (saveEntry l fp) fp = Option.map WsEditor.saveToFile (lookupW l fp)
  | [], _ => rfl
  | (k, e) :: rest, fp => by
    rw [saveEntry, lookupW]
    by_cases hk : k = fp
    · rw [if_pos hk, lookupW, if_pos hk, if_pos hk]
      rfl
    · rw [if_neg hk, lookupW, if_neg hk, if_neg hk]
      exact lookupW_saveEntry_self rest fp

theorem lookupW_saveEntry_other : ∀ (l : List (String × WsEditor)) {fp fp2 : String},
    ¬ fp2 = fp → lookupW (saveEntry l fp) fp2 = lookupW l fp2
  | [], _, _, _ => rfl
  | (k, e) :: rest, fp, fp2, hne => by
    rw [saveEntry, lookupW]
    by_cases hk : k = fp
    · rw [if_pos hk, lookupW, if_neg (by rw [hk]; exact fun hq => hne hq.symm),
        if_neg (by rw [hk]; exact fun hq => hne hq.symm)]
    · rw [if_neg hk, lookupW]
      split
      · rfl
      · exact lookupW_saveEntry_other rest hne

theorem saveActiveFile_spec {w : Workspace} {fp : String} (hact : w.active = some fp) :
    (w.saveActiveFile).2 = [.commandExecuted fp "save"] ∧
      lookupW (w.saveActiveFile).1.editors fp =
        Option.map WsEditor.saveToFile (lookupW w.editors fp) := by
  rw [Workspace.saveActiveFile, hact]
  exact ⟨rfl, lookupW_saveEntry_self w.editors fp⟩

theorem saveActiveFile_none {w : Workspace} (hact : w.active = none) :
    w.saveActiveFile = (w, []) := by
  rw [Workspace.saveActiveFile, hact]

theorem saveSpecificFile_spec {w : Workspace} {fp : String}
    (hopen : (lookupW w.editors fp).isSome = true) :
    (w.saveSpecificFile fp).2 = [.commandExecuted fp ("save " ++ fp)] ∧
      lookupW (w.saveSpecificFile fp).1.editors fp =
        Option.map WsEditor.saveToFile (lookupW w.editors fp) := by
  rw [Workspace.saveSpecificFile, if_pos hopen]
  exact ⟨rfl, lookupW_saveEntry_self w.editors fp⟩

theorem saveAllFiles_spec {w : Workspace} (hne : ¬ w.editors = []) :
    (∀ p ∈ (w.saveAllFiles).1.editors, p.2.modified = false) ∧
      (w.saveAllFiles).2.length = (match w.active with
        | none => 0
        | some _ => 1) := by
  rw [Workspace.saveAllFiles, if_neg hne]
  refine ⟨?_, ?_⟩
  · intro p hp
    obtain ⟨q, _, hq2⟩ := List.mem_map.mp hp
    rw [← hq2]
    rfl
  · cases w.active with
    | none => rfl
    | some fp => rfl
/-! ## The modified flag across execute and undo, and failed commands at
the editor level -/

theorem insertGo_ok_modified {line col : Nat} {t : Line} {m m2 : TextModel} {c2 : TextCmd}
    (h : insertGo line col t m = (m2, .ok c2)) : m2.modified = true := by
  rw [insertGo] at h
  split at h
  · simp at h
  · split at h
    · simp only [] at h
      split at h
      · simp at h
      · simp only [Prod.mk.injEq, Except.ok.injEq] at h
        rw [← h.1]
    · simp only [] at h
      split at h
      · simp at h
      · simp only [Prod.mk.injEq, Except.ok.injEq] at h
        rw [← h.1]

theorem execText_ok_modified {c : TextCmd} {m m2 : TextModel} {c2 : TextCmd}
    (h : execText c m = (m2, .ok c2)) : m2.modified = true := by
  cases c with
  | append t p =>
    rw [execText] at h
    simp only [Prod.mk.injEq, Except.ok.injEq] at h
    rw [← h.1]
  | insert line col t po pa =>
    rw [execText] at h
    split at h
    · split at h
      · simp at h
      · exact insertGo_ok_modified h
    · exact insertGo_ok_modified h
  | delete line col len d =>
    rw [execText] at h
    split at h
    · simp at h
    · simp only [] at h
      split at h
      · simp at h
      · split at h
        · simp at h
        · simp only [Prod.mk.injEq, Except.ok.injEq] at h
          rw [← h.1]
  | replace line col len t o =>
    rw [execText] at h
    split at h
    · simp at h
    · simp only [] at h
      split at h
      · simp at h
      · split at h
        · simp at h
        · simp only [Prod.mk.injEq, Except.ok.injEq] at h
          rw [← h.1]

theorem execXml_ok_modified {c : XmlCmd} {m m2 : XmlModel} {c2 : XmlCmd}
    (h : execXml c m = (m2, .ok c2)) : m2.modified = true := by
  cases c with
  | insertBefore tag newId targetId text attrs pc =>
    obtain ⟨_, _, _, _, _, hm2, _⟩ := insertBefore_ok h
    rw [hm2]
  | appendChild tag newId parentId text attrs pc =>
    obtain ⟨_, _, _, hm2, _⟩ := appendChild_ok h
    rw [hm2]
  | editId oldId newId done =>
    obtain ⟨_, _, _, hm2, _⟩ := editId_ok h
    rw [hm2]
  | editText elemId newText ot =>
    obtain ⟨_, _, hm2, _⟩ := editText_ok h
    rw [hm2]
  | deleteElem elemId pay =>
    obtain ⟨_, _, _, _, _, hm2, _⟩ := deleteElem_ok h
    rw [hm2]
  | setAttr elemId name value pay =>
    obtain ⟨_, _, _, hm2, _⟩ := setAttr_ok h
    rw [hm2]
  | removeAttr elemId name ov =>
    obtain ⟨_, _, _, _, _, hm2, _⟩ := removeAttr_ok h
    rw [hm2]
  | appendRoot tag newId text attrs pay =>
    obtain ⟨_, _, _, hm2, _⟩ := appendRoot_ok h
    rw [hm2]

theorem TextEd.execCmd_error {e : TextEd} {c : TextCmd} {err : EdError}
    (h : (e.execCmd c).2 = .error err) : (e.execCmd c).1 = e := by
  rw [TextEd.execCmd] at h ⊢
  cases hx : execText c e.model with
  | mk m2 r =>
    cases r with
    | ok c2 =>
      rw [hx] at h
      exact Except.noConfusion h
    | error e2 =>
      rw [hx] at h
      have hm : m2 = e.model := execText_error_eq hx
      subst hm
      rfl

theorem XmlEd.execCmd_errorX {e : XmlEd} {c : XmlCmd} {err : EdError}
    (h : (e.execCmd c).2 = .error err) : (e.execCmd c).1 = e := by
  rw [XmlEd.execCmd] at h ⊢
  cases hx : execXml c e.model with
  | mk m2 r =>
    cases r with
    | ok c2 =>
      rw [hx] at h
      exact Except.noConfusion h
    | error e2 =>
      rw [hx] at h
      have hm : m2 = e.model := execXml_error_eq hx
      subst hm
      rfl
/-! ## Support lemmas for the claim theorems -/

theorem xml_exec_undo_dict {c : XmlCmd} {m m2 : XmlModel} {c2 : XmlCmd}
    (hwf : wfX m) (h : execXml c m = (m2, .ok c2)) :
    (undoXml c2 m2).root.dictEqB m.root = true ∧
      List.Perm (undoXml c2 m2).idKeys m.idKeys ∧ (undoXml c2 m2).modified = true := by
  cases c with
  | insertBefore tag newId targetId text attrs pc =>
    obtain ⟨h1, h2, h3⟩ := insertBefore_roundtrip hwf h
    exact ⟨by rw [h1]; exact XElem.dictEqB_refl _, by rw [h2], h3⟩
  | appendChild tag newId parentId text attrs pc =>
    obtain ⟨h1, h2, h3⟩ := appendChild_roundtrip hwf h
    exact ⟨by rw [h1]; exact XElem.dictEqB_refl _, by rw [h2], h3⟩
  | editId oldId newId done =>
    obtain ⟨h1, h2, h3⟩ := editId_roundtrip hwf h
    exact ⟨by rw [h1]; exact XElem.dictEqB_refl _, h2, h3⟩
  | editText elemId newText ot =>
    obtain ⟨h1, h2, h3⟩ := editText_roundtrip hwf h
    exact ⟨by rw [h1]; exact XElem.dictEqB_refl _, by rw [h2], h3⟩
  | deleteElem elemId pay =>
    obtain ⟨h1, h2, h3⟩ := deleteElem_roundtrip hwf h
    exact ⟨by rw [h1]; exact XElem.dictEqB_refl _, h2, h3⟩
  | setAttr elemId name value pay =>
    obtain ⟨h1, h2, h3⟩ := setAttr_roundtrip hwf h
    exact ⟨by rw [h1]; exact XElem.dictEqB_refl _, by rw [h2], h3⟩
  | removeAttr elemId name ov =>
    obtain ⟨h1, h2, h3⟩ := removeAttr_roundtrip hwf h
    exact ⟨h1, by rw [h2], h3⟩
  | appendRoot tag newId text attrs pay =>
    obtain ⟨h1, h2, h3⟩ := appendRoot_roundtrip h
    exact ⟨by rw [h1]; exact XElem.dictEqB_refl _, by rw [h2], h3⟩

theorem deleteElem_removes {elemId : String} {pay : Option (XElem × String × Nat)}
    {m m2 : XmlModel} {c2 : XmlCmd}
    (hwf : wfX m) (h : execXml (.deleteElem elemId pay) m = (m2, .ok c2)) :
    ∃ el, m.getElem elemId = some el ∧ ∀ i ∈ el.ids, i ∉ m2.idKeys := by
  have hwf2 := execXml_wf hwf h
  obtain ⟨el, p, hel, hroot, hp, hm2, _⟩ := deleteElem_ok h
  subst hm2
  obtain ⟨htop, hft, hfp⟩ := XElem.findParent_found m.root hwf.1 hp
  have htf : p.children.topFind elemId = some el := by
    rw [← hft]
    exact XmlModel.getElem_findById hwf hel
  obtain ⟨pre2, post2, h1, h2⟩ := XKids.ids_eraseById htf
  have hperm : List.Perm
      ((p.withKids (p.children.eraseById elemId)).ids ++ el.ids)
      (p.ids ++ ([] : List String)) := by
    rw [List.append_nil, XElem.ids_withKids, h2, XElem.ids_eq (e := p), h1,
      List.cons_append]
    refine List.Perm.cons p.eid ?_
    simp only [List.append_assoc]
    exact List.Perm.append_left pre2 List.perm_append_comm
  have hids := ids_update_perm_swap
    (f := fun n => n.withKids (n.children.eraseById elemId)) hfp hperm
  rw [List.append_nil] at hids
  have hnd2 := hids.symm.nodup hwf.1
  refine ⟨el, hel, ?_⟩
  intro i hi hik
  have hir : i ∈ (m.root.updateById p.eid
      (fun n => n.withKids (n.children.eraseById elemId))).ids :=
    hwf2.2.1.mem_iff.mp hik
  rw [List.nodup_append] at hnd2
  exact hnd2.2.2 hir hi

theorem insertSeq_eq : ∀ (xs : List Line) (c : List Line) (li : Nat), li + 1 ≤ c.length →
    insertSeq c li xs = c.take (li + 1) ++ xs ++ c.drop (li + 1)
  | [], c, li, h => by
    rw [insertSeq, List.append_nil, List.take_append_drop]
  | x :: xs, c, li, h => by
    have hlen : (c.take (li + 1)).length = li + 1 := by
      rw [List.length_take]
      omega
    rw [insertSeq, pyInsert]
    rw [insertSeq_eq xs _ (li + 1) (by
      rw [List.length_append, List.length_append, hlen]
      simp)]
    rw [List.take_left' (by rw [List.length_append, hlen]; rfl),
      List.drop_left' (by rw [List.length_append, hlen]; rfl)]
    simp

theorem range'_zip_map : ∀ (cnt s : Nat) (content : List Line),
    1 ≤ s → s + cnt ≤ content.length + 1 →
    (List.range' s cnt).map
        (fun i => toString i ++ ": " ++ String.mk (content.getD (i - 1) [])) =
      ((List.range' s cnt).zip ((content.drop (s - 1)).take cnt)).map
        (fun q => toString q.1 ++ ": " ++ String.mk q.2)
  | 0, s, content, _, _ => rfl
  | cnt + 1, s, content, hs, hle => by
    have hlt : s - 1 < content.length := by omega
    have hne : ¬ content.drop (s - 1) = [] := by
      simp [List.drop_eq_nil_iff]
      omega
    obtain ⟨y, ys, hys⟩ := List.exists_cons_of_ne_nil hne
    have hy : content.getD (s - 1) [] = y := by
      rw [List.getD_eq_getElem?_getD, ← List.head?_drop, hys]
      rfl
    have hys2 : ys = content.drop s := by
      have := congrArg (List.drop 1) hys
      rw [List.drop_drop] at this
      have hsub : s - 1 + 1 = s := by omega
      rw [hsub] at this
      rw [this]
      rfl
    show (fun i => toString i ++ ": " ++ String.mk (content.getD (i - 1) [])) s ::
        (List.range' (s + 1) cnt).map _ = _
    rw [hys, List.take_succ_cons,
      show List.range' s (cnt + 1) = s :: List.range' (s + 1) cnt from rfl,
      List.zip_cons_cons, List.map_cons]
    have hs1 : s + 1 - 1 = s := by omega
    have ih := range'_zip_map cnt (s + 1) content (by omega) (by omega)
    rw [hs1, ← hys2] at ih
    rw [← ih, ← hy]
/-! ## The claims -/

/-- C3: a command whose execute raises leaves the document model
unchanged (validate-before-mutate), propagates the error to the caller,
and alters neither the undo stack nor the redo stack — for text and for
tree documents alike (the returned editor equals the original in every
field). -/
theorem C3_failed_execute_frame :
    (∀ (e : TextEd) (c : TextCmd) (err : EdError),
      (e.execCmd c).2 = .error err → (e.execCmd c).1 = e) ∧
    (∀ (e : XmlEd) (c : XmlCmd) (err : EdError),
      (e.execCmd c).2 = .error err → (e.execCmd c).1 = e) :=
  ⟨fun _ _ _ h => TextEd.execCmd_error h, fun _ _ _ h => XmlEd.execCmd_errorX h⟩

/-- C3 witness: deleting the root of a tree document fails with the
cannot-delete-root error and the editor, stacks included, is
unchanged. -/
theorem C3_witness :
    (XmlEd.execCmd ⟨⟨.mk "root" "root" [("id", "root")] "" .nil, ["root"], false⟩, [], []⟩
        (.deleteElem "root" none)).1 =
      ⟨⟨.mk "root" "root" [("id", "root")] "" .nil, ["root"], false⟩, [], []⟩ :=
  C3_failed_execute_frame.2
    ⟨⟨.mk "root" "root" [("id", "root")] "" .nil, ["root"], false⟩, [], []⟩
    (.deleteElem "root" none) .cannotDeleteRoot (by decide)

/-- C5: replaceRoot (AppendRootCommand) on a well-formed tree document
is permitted exactly on the anonymous default childless root: a root
with children is rejected with the has-content structural error, a
childless customized root with the distinct already-customized error,
and both rejections leave the model untouched; on the default childless
root it succeeds and installs the new root with a fresh id-index. -/
theorem C5_replaceRoot_guard :
    ∀ (tag newId text : String) (attrs : List (String × String))
      (pay : Option (XElem × List String)) (m : XmlModel), wfX m →
      (m.root.children.length > 0 →
        execXml (.appendRoot tag newId text attrs pay) m = (m, .error .rootHasContent)) ∧
      (¬ m.root.children.length > 0 → (m.root.tag ≠ "root" ∨ m.root.eid ≠ "root") →
        execXml (.appendRoot tag newId text attrs pay) m =
          (m, .error .rootAlreadyCustomized)) ∧
      (¬ m.root.children.length > 0 → ¬ (m.root.tag ≠ "root" ∨ m.root.eid ≠ "root") →
        execXml (.appendRoot tag newId text attrs pay) m =
          (⟨newElem tag newId text attrs, [newId], true⟩,
            .ok (.appendRoot tag newId text attrs (some (m.root, m.idKeys))))) := by
  intro tag newId text attrs pay m hwf
  refine ⟨?_, ?_, ?_⟩
  · intro h1
    rw [execXml, if_pos h1]
  · intro h1 h2
    rw [execXml, if_neg h1, if_pos h2]
  · intro h1 h2
    have hch : m.root.children = .nil := by
      cases hc : m.root.children with
      | nil => rfl
      | cons c cs =>
        rw [hc] at h1
        rw [XKids.length] at h1
        omega
    have heid : m.root.eid = "root" := by
      by_contra hq
      exact h2 (Or.inr hq)
    have hids : m.root.ids = ["root"] := by
      rw [XElem.ids_eq, hch, heid, XKids.ids]
    have h3 : ¬ (newId ∈ m.idKeys ∧ newId ≠ "root") := by
      intro ⟨hmem, hne⟩
      have := hwf.2.1.mem_iff.mp hmem
      rw [hids] at this
      exact hne (List.mem_singleton.mp this)
    rw [execXml, if_neg h1, if_neg h2, if_neg h3]

/-- C5 witness: Scenario C — replaceRoot("catalog","c1") on a default
root that has one child is rejected with the has-content error and the
model is unchanged; on the pristine default root it succeeds. -/
theorem C5_witness :
    execXml (.appendRoot "catalog" "c1" "" [] none)
        ⟨.mk "root" "root" [("id", "root")] ""
            (.cons (.mk "item" "c" [("id", "c")] "" .nil) .nil),
          ["root", "c"], false⟩ =
      (⟨.mk "root" "root" [("id", "root")] ""
            (.cons (.mk "item" "c" [("id", "c")] "" .nil) .nil),
          ["root", "c"], false⟩, .error .rootHasContent) :=
  (C5_replaceRoot_guard "catalog" "c1" "" [] none
      ⟨.mk "root" "root" [("id", "root")] ""
          (.cons (.mk "item" "c" [("id", "c")] "" .nil) .nil),
        ["root", "c"], false⟩ (by decide)).1 (by decide)

/-- C6 counterexample: dispatching an unsupported operation name on an
active editor raises the builtin AttributeError — a plain reflection
failure — rather than a structural editor error, because
execute_on_active looks the name up with hasattr/getattr instead of an
operation table. -/
theorem C6_counterexample :
    Workspace.executeOnActive ⟨[("a.txt", ⟨.text, false⟩)], some "a.txt"⟩ "spellcheck" =
      .attributeError "spellcheck" := by decide

/-- C6: dispatch resolves the active editor, raising
NoActiveEditorException when none is active; an operation name the
editor object does not define is rejected by raising AttributeError —
never silently ignored, but a reflection failure rather than the
structural error the specification prescribes. -/
theorem C6_dispatch :
    (∀ (w : Workspace) (op : String), w.activeEditor = none →
      w.executeOnActive op = .noActiveEditor) ∧
    (∀ (w : Workspace) (e : WsEditor) (op : String), w.activeEditor = some e →
      op ∉ e.kind.ops → w.executeOnActive op = .attributeError op) := by
  refine ⟨?_, ?_⟩
  · intro w op h
    rw [Workspace.executeOnActive, h]
  · intro w e op h hop
    rw [Workspace.executeOnActive, h]
    simp only [if_neg hop]

/-- C6 witness: with no active editor the dispatch raises the
no-active-editor state error; with an active xml editor an unknown name
raises AttributeError. -/
theorem C6_witness :
    Workspace.executeOnActive ⟨[("a.xml", ⟨.xml, true⟩)], none⟩ "show" = .noActiveEditor ∧
      Workspace.executeOnActive ⟨[("a.xml", ⟨.xml, true⟩)], some "a.xml"⟩ "show" =
        .attributeError "show" :=
  ⟨C6_dispatch.1 ⟨[("a.xml", ⟨.xml, true⟩)], none⟩ "show" (by decide),
    C6_dispatch.2 ⟨[("a.xml", ⟨.xml, true⟩)], some "a.xml"⟩ ⟨.xml, true⟩ "show"
      (by decide) (by decide)⟩

/-- C9 counterexample: saving all files in a workspace with two open
modified documents saves both (both flags cleared) but emits a single
command_executed event, not one per document saved. -/
theorem C9_counterexample :
    (Workspace.saveFile ⟨[("a", ⟨.text, true⟩), ("b", ⟨.text, true⟩)], some "a"⟩
        (some "all")).1.editors = [("a", ⟨.text, false⟩), ("b", ⟨.text, false⟩)] ∧
      (Workspace.saveFile ⟨[("a", ⟨.text, true⟩), ("b", ⟨.text, true⟩)], some "a"⟩
          (some "all")).2 = [.commandExecuted "a" "save all"] := by decide

/-- C9: every save path clears the modified flag of each document it
saves; the active-document and specific-path saves emit one
command_executed event each, but the save-all path emits a single event
for the whole loop (when an active editor exists) — not one per
document saved. -/
theorem C9_save_events :
    (∀ (e : WsEditor), (e.saveToFile).modified = false) ∧
    (∀ (w : Workspace) (fp : String), w.active = some fp →
      (w.saveFile none).2 = [.commandExecuted fp "save"] ∧
        lookupW (w.saveFile none).1.editors fp =
          Option.map WsEditor.saveToFile (lookupW w.editors fp)) ∧
    (∀ (w : Workspace) (fp : String), ¬ fp = "all" → ¬ fp = "" →
      (lookupW w.editors fp).isSome = true →
      (w.saveFile (some fp)).2 = [.commandExecuted fp ("save " ++ fp)] ∧
        lookupW (w.saveFile (some fp)).1.editors fp =
          Option.map WsEditor.saveToFile (lookupW w.editors fp)) ∧
    (∀ (w : Workspace), ¬ w.editors = [] →
      (∀ p ∈ (w.saveFile (some "all")).1.editors, p.2.modified = false) ∧
        (w.saveFile (some "all")).2.length =
          (match w.active with | none => 0 | some _ => 1)) := by
  refine ⟨fun e => rfl, ?_, ?_, ?_⟩
  · intro w fp hact
    rw [Workspace.saveFile]
    exact saveActiveFile_spec hact
  · intro w fp hall hemp hopen
    rw [Workspace.saveFile]
    rw [if_neg hall, if_neg hemp]
    exact saveSpecificFile_spec hopen
  · intro w hne
    rw [Workspace.saveFile, if_pos rfl]
    exact saveAllFiles_spec hne

/-- C9 witness: saving the active document clears its flag and emits one
event; saving a specific open path does the same; saving all with one
open document emits one event. -/
theorem C9_witness :
    ((Workspace.saveFile ⟨[("a", ⟨.text, true⟩)], some "a"⟩ none).2 =
        [.commandExecuted "a" "save"] ∧
      lookupW (Workspace.saveFile ⟨[("a", ⟨.text, true⟩)], some "a"⟩ none).1.editors "a" =
        Option.map WsEditor.saveToFile (lookupW [("a", ⟨.text, true⟩)] "a")) ∧
    (∀ p ∈ (Workspace.saveFile ⟨[("a", ⟨.text, true⟩)], some "a"⟩ (some "all")).1.editors,
        p.2.modified = false) :=
  ⟨C9_save_events.2.1 ⟨[("a", ⟨.text, true⟩)], some "a"⟩ "a" (by decide),
    (C9_save_events.2.2.2 ⟨[("a", ⟨.text, true⟩)], some "a"⟩ (by decide)).1⟩

/-- C10 counterexample: a zero-length delete executes successfully but
captures an empty deleted_text payload, so its undo's truthiness guard
skips mark_modified: applied to a document saved after the execute, the
undo leaves the modified flag False, refuting that every undo sets it. -/
theorem C10_counterexample :
    execText (.delete 1 1 0 []) ⟨[['h', 'i']], false⟩ =
        (⟨[['h', 'i']], true⟩, .ok (.delete 1 1 0 [])) ∧
      undoText (.delete 1 1 0 []) ⟨[['h', 'i']], false⟩ = ⟨[['h', 'i']], false⟩ := by
  decide

/-- C10: every successful execute marks the document modified, and an
undo performed directly on the post-execute state leaves it marked
modified (the flag is never restored to its pre-execute value), for text
and tree documents; however an undo is not unconditionally marking — a
command with an empty captured payload skips mark_modified. -/
theorem C10_modified_flag :
    (∀ (c : TextCmd) (m m2 : TextModel) (c2 : TextCmd),
      execText c m = (m2, .ok c2) → m2.modified = true) ∧
    (∀ (c : XmlCmd) (m m2 : XmlModel) (c2 : XmlCmd),
      execXml c m = (m2, .ok c2) → m2.modified = true) ∧
    (∀ (c : TextCmd) (m m2 : TextModel) (c2 : TextCmd),
      execText c m = (m2, .ok c2) → (undoText c2 m2).modified = true) ∧
    (∀ (c : XmlCmd) (m m2 : XmlModel) (c2 : XmlCmd), wfX m →
      execXml c m = (m2, .ok c2) → (undoXml c2 m2).modified = true) := by
  refine ⟨fun _ _ _ _ h => execText_ok_modified h, fun _ _ _ _ h => execXml_ok_modified h,
    ?_, fun _ _ _ _ hwf h => (xml_exec_undo_dict hwf h).2.2⟩
  intro c m m2 c2 h
  rcases text_exec_undo h with hrt | ⟨_, _, hrt⟩
  · rw [hrt]
  · rw [hrt]

/-- C10 witness: an append executes to a modified document and the
immediate undo leaves the flag set. -/
theorem C10_witness :
    (⟨[['x']], true⟩ : TextModel).modified = true ∧
      (undoText (.append ['x'] (some 1)) ⟨[['x']], true⟩).modified = true :=
  ⟨C10_modified_flag.1 (.append ['x'] none) ⟨[], false⟩ ⟨[['x']], true⟩
      (.append ['x'] (some 1)) (by decide),
    C10_modified_flag.2.2.1 (.append ['x'] none) ⟨[], false⟩ ⟨[['x']], true⟩
      (.append ['x'] (some 1)) (by decide)⟩
/-- Python list.insert at index li+1 of a set line: the combined effect
of InsertCommand's set-then-insert-loop on an in-range line. -/
theorem insertSeq_set_decompose {c : List Line} {li : Nat} (x : Line) (xs : List Line)
    (h : li < c.length) :
    insertSeq (c.set li x) li xs = c.take li ++ [x] ++ xs ++ c.drop (li + 1) := by
  rw [insertSeq_eq xs _ li (by rw [List.length_set]; omega)]
  rw [List.set_eq_take_cons_drop x h]
  have h1 : (c.take li ++ [x]).length = li + 1 := by
    rw [List.length_append, List.length_take]
    simp
    omega
  rw [show c.take li ++ x :: c.drop (li + 1) = (c.take li ++ [x]) ++ c.drop (li + 1) from
    by simp]
  rw [List.take_left' h1, List.drop_left' h1]

/-- C1 counterexample: on an initially empty text document (no lines), a
successful insert followed by undo restores the single empty line [""]
that execute appended before capturing, not the empty line list the
document held before execute — so the pre-execute state is not restored
deep-equally for this command. -/
theorem C1_counterexample :
    execText (.insert 1 1 ['a'] [] 0) ⟨[], false⟩ =
        (⟨[['a']], true⟩, .ok (.insert 1 1 ['a'] [[]] 1)) ∧
      undoText (.insert 1 1 ['a'] [[]] 1) ⟨[['a']], true⟩ = ⟨[[]], true⟩ ∧
      ¬ ([[]] : List Line) = ([] : List Line) := by decide

/-- C1 (amended): for every command whose execute succeeds, undo
restores the pre-execute content — except insert on an initially empty
text document, which restores the single empty line; and undo followed
by redo restores the post-execute state (text documents exactly; tree
documents with the root tree restored up to attribute-dictionary
equality by undo and exactly by redo, and the id-index restored as a
dictionary, i.e. up to key order). -/
theorem C1_execute_undo_redo :
    (∀ (c : TextCmd) (m m2 : TextModel) (c2 : TextCmd),
      execText c m = (m2, .ok c2) →
      (undoText c2 m2).content = m.content ∨
        (m.content = [] ∧ (undoText c2 m2).content = [[]])) ∧
    (∀ (c : TextCmd) (m m2 : TextModel) (c2 : TextCmd),
      execText c m = (m2, .ok c2) →
      execText c2 (undoText c2 m2) = (m2, .ok c2)) ∧
    (∀ (c : XmlCmd) (m m2 : XmlModel) (c2 : XmlCmd), wfX m →
      execXml c m = (m2, .ok c2) →
      (undoXml c2 m2).root.dictEqB m.root = true ∧
        List.Perm (undoXml c2 m2).idKeys m.idKeys) ∧
    (∀ (c : XmlCmd) (m m2 : XmlModel) (c2 : XmlCmd), wfX m →
      execXml c m = (m2, .ok c2) →
      ∃ m3 c3, execXml c2 (undoXml c2 m2) = (m3, .ok c3) ∧ m3.root = m2.root ∧
        List.Perm m3.idKeys m2.idKeys ∧ m3.modified = m2.modified) := by
  refine ⟨?_, fun _ _ _ _ h => text_undo_redo h,
    fun _ _ _ _ hwf h => ⟨(xml_exec_undo_dict hwf h).1, (xml_exec_undo_dict hwf h).2.1⟩,
    fun _ _ _ _ hwf h => xml_undo_redo hwf h⟩
  intro c m m2 c2 h
  rcases text_exec_undo h with hrt | ⟨hemp, _, hrt⟩
  · rw [hrt]
    exact Or.inl rfl
  · rw [hrt]
    exact Or.inr ⟨hemp, rfl⟩

/-- C1 witness: each part of the round-trip guarantee at a concrete
input — an append on an empty text document, and an append-child on the
freshly initialized tree document. -/
theorem C1_witness :
    ((undoText (.append ['x'] (some 1)) ⟨[['x']], true⟩).content = ([] : List Line) ∨
      (([] : List Line) = [] ∧
        (undoText (.append ['x'] (some 1)) ⟨[['x']], true⟩).content = [[]])) ∧
    execText (.append ['x'] (some 1)) (undoText (.append ['x'] (some 1)) ⟨[['x']], true⟩) =
      (⟨[['x']], true⟩, .ok (.append ['x'] (some 1))) ∧
    ((undoXml (.appendChild "item" "a" "root" "" [] (some "root"))
          ⟨.mk "root" "root" [("id", "root")] ""
              (.cons (.mk "item" "a" [("id", "a")] "" .nil) .nil),
            ["root", "a"], true⟩).root.dictEqB
        (.mk "root" "root" [("id", "root")] "" .nil) = true ∧
      List.Perm (undoXml (.appendChild "item" "a" "root" "" [] (some "root"))
          ⟨.mk "root" "root" [("id", "root")] ""
              (.cons (.mk "item" "a" [("id", "a")] "" .nil) .nil),
            ["root", "a"], true⟩).idKeys ["root"]) ∧
    (∃ m3 c3, execXml (.appendChild "item" "a" "root" "" [] (some "root"))
        (undoXml (.appendChild "item" "a" "root" "" [] (some "root"))
          ⟨.mk "root" "root" [("id", "root")] ""
              (.cons (.mk "item" "a" [("id", "a")] "" .nil) .nil),
            ["root", "a"], true⟩) = (m3, .ok c3) ∧
      m3.root = (⟨.mk "root" "root" [("id", "root")] ""
              (.cons (.mk "item" "a" [("id", "a")] "" .nil) .nil),
            ["root", "a"], true⟩ : XmlModel).root ∧
      List.Perm m3.idKeys ["root", "a"] ∧ m3.modified = true) :=
  ⟨C1_execute_undo_redo.1 (.append ['x'] none) ⟨[], false⟩ ⟨[['x']], true⟩
      (.append ['x'] (some 1)) (by decide),
    C1_execute_undo_redo.2.1 (.append ['x'] none) ⟨[], false⟩ ⟨[['x']], true⟩
      (.append ['x'] (some 1)) (by decide),
    C1_execute_undo_redo.2.2.1 (.appendChild "item" "a" "root" "" [] none)
      ⟨.mk "root" "root" [("id", "root")] "" .nil, ["root"], true⟩
      ⟨.mk "root" "root" [("id", "root")] ""
          (.cons (.mk "item" "a" [("id", "a")] "" .nil) .nil), ["root", "a"], true⟩
      (.appendChild "item" "a" "root" "" [] (some "root")) (by decide) (by decide),
    C1_execute_undo_redo.2.2.2 (.appendChild "item" "a" "root" "" [] none)
      ⟨.mk "root" "root" [("id", "root")] "" .nil, ["root"], true⟩
      ⟨.mk "root" "root" [("id", "root")] ""
          (.cons (.mk "item" "a" [("id", "a")] "" .nil) .nil), ["root", "a"], true⟩
      (.appendChild "item" "a" "root" "" [] (some "root")) (by decide) (by decide)⟩

/-- C2: across every sequence of the five structural tree operations,
undos and redos, run from the freshly initialized tree document, the
id-index invariant holds: reachable node ids are pairwise distinct, the
index keys are exactly those ids, and every node's id attribute matches
its id; moreover a successful delete removes the deleted element's whole
id set from the index and its undo restores the root and the index. -/
theorem C2_identifier_uniqueness :
    (∀ (acts : List XAct), (∀ a ∈ acts, C2act a = true) →
      wfX ((initXmlEd.run acts).model)) ∧
    (∀ (elemId : String) (pay : Option (XElem × String × Nat)) (m m2 : XmlModel)
        (c2 : XmlCmd), wfX m → execXml (.deleteElem elemId pay) m = (m2, .ok c2) →
      ∃ el, m.getElem elemId = some el ∧ (∀ i ∈ el.ids, i ∉ m2.idKeys) ∧
        (undoXml c2 m2).root = m.root ∧ List.Perm (undoXml c2 m2).idKeys m.idKeys) := by
  refine ⟨?_, ?_⟩
  · intro acts hacts
    exact USR_wf (InvEd_run acts InvEd_init hacts).1
  · intro elemId pay m m2 c2 hwf h
    obtain ⟨el, hel, hrm⟩ := deleteElem_removes hwf h
    obtain ⟨h1, h2, _⟩ := deleteElem_roundtrip hwf h
    exact ⟨el, hel, hrm, h1, h2⟩

/-- C2 witness: Scenario B at concrete inputs — append a child, delete
it, undo, redo, and the invariant holds after the run; deleting the
child removes its id from the index and undo restores root and index. -/
theorem C2_witness :
    wfX ((initXmlEd.run [.op (.appendChild "item" "a" "root" "" [] none),
        .op (.deleteElem "a" none), .undo, .redo]).model) ∧
    (∃ el, XmlModel.getElem ⟨.mk "root" "root" [("id", "root")] ""
          (.cons (.mk "item" "a" [("id", "a")] "" .nil) .nil),
        ["root", "a"], true⟩ "a" = some el ∧
      (∀ i ∈ el.ids, i ∉ (⟨.mk "root" "root" [("id", "root")] "" .nil,
          ["root"], true⟩ : XmlModel).idKeys) ∧
      (undoXml (.deleteElem "a" (some (.mk "item" "a" [("id", "a")] "" .nil, "root", 0)))
          ⟨.mk "root" "root" [("id", "root")] "" .nil, ["root"], true⟩).root =
        (⟨.mk "root" "root" [("id", "root")] ""
            (.cons (.mk "item" "a" [("id", "a")] "" .nil) .nil),
          ["root", "a"], true⟩ : XmlModel).root ∧
      List.Perm (undoXml
          (.deleteElem "a" (some (.mk "item" "a" [("id", "a")] "" .nil, "root", 0)))
          ⟨.mk "root" "root" [("id", "root")] "" .nil, ["root"], true⟩).idKeys
        ["root", "a"]) :=
  ⟨C2_identifier_uniqueness.1 [.op (.appendChild "item" "a" "root" "" [] none),
      .op (.deleteElem "a" none), .undo, .redo] (by decide),
    C2_identifier_uniqueness.2 "a" none
      ⟨.mk "root" "root" [("id", "root")] ""
          (.cons (.mk "item" "a" [("id", "a")] "" .nil) .nil), ["root", "a"], true⟩
      ⟨.mk "root" "root" [("id", "root")] "" .nil, ["root"], true⟩
      (.deleteElem "a" (some (.mk "item" "a" [("id", "a")] "" .nil, "root", 0)))
      (by decide) (by decide)⟩

/-- C4: a successful insert of text with embedded line breaks splits it
into fragments; the target line becomes its prefix up to col joined with
the first fragment, the middle fragments become whole lines in order,
and the last fragment is prepended to the target line's suffix; Scenario
A holds concretely, with undo restoring the single empty line. -/
theorem C4_insert_fragments :
    (∀ (line col : Nat) (text : Line) (po : List Line) (pa : Nat) (m m2 : TextModel)
        (c2 : TextCmd), ¬ m.content = [] → '\n' ∈ text →
      execText (.insert line col text po pa) m = (m2, .ok c2) →
      m2.content = m.content.take (line - 1)
        ++ [(m.content.getD (line - 1) []).take (col - 1) ++ (splitNl text).headD []]
        ++ ((splitNl text).drop 1).dropLast
        ++ [(splitNl text).getLastD [] ++ (m.content.getD (line - 1) []).drop (col - 1)]
        ++ m.content.drop line) ∧
    execText (.insert 1 1 ['a', '\n', 'b', '\n', 'c'] [] 0) ⟨[], false⟩ =
      (⟨[['a'], ['b'], ['c']], true⟩,
        .ok (.insert 1 1 ['a', '\n', 'b', '\n', 'c'] [[]] 3)) ∧
    undoText (.insert 1 1 ['a', '\n', 'b', '\n', 'c'] [[]] 3) ⟨[['a'], ['b'], ['c']], true⟩ =
      ⟨[[]], true⟩ := by
  refine ⟨?_, by decide, by decide⟩
  intro line col text po pa m m2 c2 hne ht h
  rw [execText, if_neg hne, insertGo] at h
  split at h
  · simp at h
  · rename_i hline
    simp only [] at h
    split at h
    · simp at h
    · simp only [Prod.mk.injEq, Except.ok.injEq] at h
      rw [← h.1]
      have hlt : line - 1 < m.content.length := by
        rcases Nat.lt_or_ge line 1 with h1 | h1
        · exact absurd (Or.inl h1) hline
        · have h2 : ¬ line > m.content.length := fun hq => hline (Or.inr hq)
          omega
      show insertSeq (m.content.set (line - 1) _) (line - 1) _ = _
      rw [insertSeq_set_decompose _ _ hlt]
      have hll : (line - 1) + 1 = line := by
        rcases Nat.lt_or_ge line 1 with h1 | h1
        · exact absurd (Or.inl h1) hline
        · omega
      rw [hll]
      simp [List.append_assoc]

/-- C4 witness: inserting "x\ny" at line 1, column 2 of the single line
"ab" splits the line into "ax" and "yb", matching the fragment
recombination formula. -/
theorem C4_witness :
    (⟨[['a', 'x'], ['y', 'b']], true⟩ : TextModel).content =
      ([['a', 'b']] : List Line).take 0
        ++ [(([['a', 'b']] : List Line).getD 0 []).take 1
            ++ (splitNl ['x', '\n', 'y']).headD []]
        ++ ((splitNl ['x', '\n', 'y']).drop 1).dropLast
        ++ [(splitNl ['x', '\n', 'y']).getLastD []
            ++ (([['a', 'b']] : List Line).getD 0 []).drop 1]
        ++ ([['a', 'b']] : List Line).drop 1 :=
  C4_insert_fragments.1 1 2 ['x', '\n', 'y'] [] 0 ⟨[['a', 'b']], false⟩
    ⟨[['a', 'x'], ['y', 'b']], true⟩ (.insert 1 2 ['x', '\n', 'y'] [['a', 'b']] 2)
    (by decide) (by decide) (by decide)
/-- C7 counterexample: Scenario D — delete(1, 3, 10) on the 2-character
line "hi" fails because column 3 is already out of range, raising the
column position error, not a length error; the line is unmodified. -/
theorem C7_counterexample :
    execText (.delete 1 3 10 []) ⟨[['h', 'i']], false⟩ =
        (⟨[['h', 'i']], false⟩, .error (.columnOutOfRange 3)) ∧
      ¬ EdError.isLengthError (.columnOutOfRange 3) ∧
      EdError.isPositionError (.columnOutOfRange 3) := by decide

/-- C7 (amended): on a non-empty document, insert at col = len(line)+1
succeeds and col = len(line)+2 fails with a position error; on an empty
document insert(1,1) succeeds and any other position raises the
empty-document error; delete with length = remaining+1 at a column that
is itself in range fails with a length error and leaves the document
unchanged — but a column beyond the line end fails the column check
first (Scenario D raises a position error). -/
theorem C7_position_boundaries :
    (∀ (m : TextModel) (line : Nat) (text : Line) (po : List Line) (pa : Nat),
      ¬ m.content = [] → 1 ≤ line → line ≤ m.content.length →
      (∃ m2 c2, execText (.insert line ((m.content.getD (line - 1) []).length + 1)
          text po pa) m = (m2, .ok c2)) ∧
      execText (.insert line ((m.content.getD (line - 1) []).length + 2) text po pa) m =
        (m, .error (.columnOutOfRange ((m.content.getD (line - 1) []).length + 2))) ∧
      EdError.isPositionError
        (.columnOutOfRange ((m.content.getD (line - 1) []).length + 2))) ∧
    (∀ (line col : Nat) (text : Line) (po : List Line) (pa : Nat) (m : TextModel),
      m.content = [] → ¬ (line = 1 ∧ col = 1) →
      execText (.insert line col text po pa) m = (m, .error .emptyFileInsert)) ∧
    (∀ (text : Line) (po : List Line) (pa : Nat) (m : TextModel), m.content = [] →
      ∃ m2 c2, execText (.insert 1 1 text po pa) m = (m2, .ok c2)) ∧
    (∀ (m : TextModel) (line col : Nat) (d : Line),
      ¬ m.content = [] → 1 ≤ line → line ≤ m.content.length → 1 ≤ col →
      col ≤ (m.content.getD (line - 1) []).length →
      execText (.delete line col
          ((m.content.getD (line - 1) []).length - (col - 1) + 1) d) m =
        (m, .error (.deleteLengthExceeds
          ((m.content.getD (line - 1) []).length - (col - 1))
          ((m.content.getD (line - 1) []).length - (col - 1) + 1))) ∧
      EdError.isLengthError (.deleteLengthExceeds
          ((m.content.getD (line - 1) []).length - (col - 1))
          ((m.content.getD (line - 1) []).length - (col - 1) + 1))) := by
  refine ⟨?_, ?_, ?_, ?_⟩
  · intro m line text po pa hne h1 h2
    refine ⟨?_, ?_, trivial⟩
    · rw [execText, if_neg hne, insertGo, if_neg (by omega)]
      simp only []
      rw [if_neg (by omega)]
      split
      · exact ⟨_, _, rfl⟩
      · exact ⟨_, _, rfl⟩
    · rw [execText, if_neg hne, insertGo, if_neg (by omega)]
      simp only []
      rw [if_pos (by omega)]
  · intro line col text po pa m hemp hpos
    rw [execText, if_pos hemp, if_pos (by omega)]
  · intro text po pa m hemp
    rw [execText, if_pos hemp, if_neg (by omega), insertGo, if_neg (by simp)]
    simp only []
    rw [if_neg (by simp)]
    split
    · exact ⟨_, _, rfl⟩
    · exact ⟨_, _, rfl⟩
  · intro m line col d hne h1 h2 h3 h4
    refine ⟨?_, trivial⟩
    rw [execText, if_neg (by omega)]
    simp only []
    rw [if_neg (by omega), if_pos (by omega)]

/-- C7 witness: on the single line "hi" insert at column 3 succeeds and
column 4 raises the column position error; on the empty document
insert(2,1) raises the empty-document error and insert(1,1) succeeds;
delete(1,1,3) on "hi" raises the length error. -/
theorem C7_witness :
    ((∃ m2 c2, execText (.insert 1 ((([['h', 'i']] : List Line).getD 0 []).length + 1)
        ['x'] [] 0) ⟨[['h', 'i']], false⟩ = (m2, .ok c2)) ∧
      execText (.insert 1 ((([['h', 'i']] : List Line).getD 0 []).length + 2) ['x'] [] 0)
          ⟨[['h', 'i']], false⟩ =
        (⟨[['h', 'i']], false⟩,
          .error (.columnOutOfRange ((([['h', 'i']] : List Line).getD 0 []).length + 2))) ∧
      EdError.isPositionError
        (.columnOutOfRange ((([['h', 'i']] : List Line).getD 0 []).length + 2))) ∧
    execText (.insert 2 1 ['x'] [] 0) ⟨[], false⟩ = (⟨[], false⟩, .error .emptyFileInsert) ∧
    (∃ m2 c2, execText (.insert 1 1 ['x'] [] 0) ⟨[], false⟩ = (m2, .ok c2)) ∧
    (execText (.delete 1 1 ((([['h', 'i']] : List Line).getD 0 []).length - 0 + 1) [])
        ⟨[['h', 'i']], false⟩ =
      (⟨[['h', 'i']], false⟩, .error (.deleteLengthExceeds
        ((([['h', 'i']] : List Line).getD 0 []).length - 0)
        ((([['h', 'i']] : List Line).getD 0 []).length - 0 + 1))) ∧
      EdError.isLengthError (.deleteLengthExceeds
        ((([['h', 'i']] : List Line).getD 0 []).length - 0)
        ((([['h', 'i']] : List Line).getD 0 []).length - 0 + 1))) :=
  ⟨C7_position_boundaries.1 ⟨[['h', 'i']], false⟩ 1 ['x'] [] 0 (by decide) (by decide)
      (by decide),
    C7_position_boundaries.2.1 2 1 ['x'] [] 0 ⟨[], false⟩ (by decide) (by decide),
    C7_position_boundaries.2.2.1 ['x'] [] 0 ⟨[], false⟩ (by decide),
    C7_position_boundaries.2.2.2 ⟨[['h', 'i']], false⟩ 1 1 [] (by decide) (by decide)
      (by decide) (by decide) (by decide)⟩

/-- C8 counterexample: show on an empty document returns the empty
rendering before any bound validation, so inverted and out-of-range
bounds on an empty document do not raise a position error. -/
theorem C8_counterexample :
    showText [] (some 5) (some 2) = .ok "" := by decide

/-- C8 (amended): on a non-empty document, show validates both bounds
against 1..lineCount and rejects inverted ranges with position errors,
and otherwise renders exactly the lines of [startLine, endLine] numbered
from startLine; omitted bounds default to the full range; but on an
empty document show returns the empty string before validating. -/
theorem C8_show_bounds :
    (∀ (content : List Line) (s e : Nat), ¬ content = [] →
      ((s < 1 ∨ s > content.length) →
        showText content (some s) (some e) = .error (.lineOutOfRange s)) ∧
      (¬ (s < 1 ∨ s > content.length) → (e < 1 ∨ e > content.length) →
        showText content (some s) (some e) = .error (.lineOutOfRange e)) ∧
      (¬ (s < 1 ∨ s > content.length) → ¬ (e < 1 ∨ e > content.length) → e < s →
        showText content (some s) (some e) = .error .startAfterEnd) ∧
      (¬ (s < 1 ∨ s > content.length) → ¬ (e < 1 ∨ e > content.length) → ¬ e < s →
        showText content (some s) (some e) = .ok (String.intercalate "\n"
          (((List.range' s (e + 1 - s)).zip ((content.drop (s - 1)).take (e + 1 - s))).map
            (fun q => toString q.1 ++ ": " ++ String.mk q.2))))) ∧
    (∀ (content : List Line),
      showText content none none = showText content (some 1) (some content.length)) := by
  refine ⟨?_, ?_⟩
  · intro content s e hne
    refine ⟨?_, ?_, ?_, ?_⟩
    · intro hs
      rw [showText, if_neg hne]
      simp only [Option.getD_some]
      rw [if_pos hs]
    · intro hs he
      rw [showText, if_neg hne]
      simp only [Option.getD_some]
      rw [if_neg hs, if_pos he]
    · intro hs he hinv
      rw [showText, if_neg hne]
      simp only [Option.getD_some]
      rw [if_neg hs, if_neg he, if_pos hinv]
    · intro hs he hok
      rw [showText, if_neg hne]
      simp only [Option.getD_some]
      rw [if_neg hs, if_neg he, if_neg hok]
      rw [range'_zip_map (e + 1 - s) s content (by omega) (by omega)]
  · intro content
    rfl

/-- C8 witness: on the two-line document ["h","i"], out-of-range and
inverted bounds raise position errors, the full range renders both
numbered lines, and omitted bounds equal the explicit full range. -/
theorem C8_witness :
    (showText [['h'], ['i']] (some 3) (some 3) = .error (.lineOutOfRange 3) ∧
      showText [['h'], ['i']] (some 2) (some 1) = .error .startAfterEnd ∧
      showText [['h'], ['i']] (some 1) (some 2) = .ok (String.intercalate "\n"
        (((List.range' 1 (2 + 1 - 1)).zip ((([['h'], ['i']] : List Line).drop 0).take
            (2 + 1 - 1))).map (fun q => toString q.1 ++ ": " ++ String.mk q.2)))) ∧
    showText [['h'], ['i']] none none = showText [['h'], ['i']] (some 1) (some 2) :=
  ⟨⟨(C8_show_bounds.1 [['h'], ['i']] 3 3 (by decide)).1 (by decide),
    (C8_show_bounds.1 [['h'], ['i']] 2 1 (by decide)).2.2.1 (by decide) (by decide)
      (by decide),
    (C8_show_bounds.1 [['h'], ['i']] 1 2 (by decide)).2.2.2 (by decide) (by decide)
      (by decide)⟩,
    C8_show_bounds.2 [['h'], ['i']]⟩
